import Mathlib

namespace Djp

/-- The largest value of `size_t` (64-bit), used by the sources as the "none" marker. -/
def SIZE_MAX : Nat := 18446744073709551615

/-- Modelled from the spec: the Graph View capability (`adjacency_list.hpp` is not among the
sources). It exposes the vertex count, the edge count, the out-edge enumeration of a vertex
and the two endpoint lookups of an edge id. -/
structure Graph where
  num_vertices : Nat
  num_edges : Nat
  out_edges : Nat → List Nat
  source : Nat → Nat
  target : Nat → Nat

/-- Well-formed graph views: ids fit in `size_t`, endpoints are vertices, and `out_edges v`
enumerates (in any order) exactly the edge ids whose source is `v`. -/
def Graph.WF (g : Graph) : Prop :=
  g.num_vertices ≤ SIZE_MAX ∧
  (∀ e, e < g.num_edges →
    g.source e < g.num_vertices ∧ g.target e < g.num_vertices ∧ e ∈ g.out_edges (g.source e)) ∧
  (∀ v, v < g.num_vertices → ∀ e ∈ g.out_edges v, e < g.num_edges ∧ g.source e = v)

instance (g : Graph) : Decidable g.WF := by
  unfold Graph.WF; infer_instance

/-- A `std::vector<T>`: its size and its contents; every access is bounds-checked. -/
structure StdVector (α : Type) where
  size : Nat
  data : Nat → α

namespace StdVector
variable {α : Type}

/-- Checked read `v[i]`. -/
def get? (v : StdVector α) (i : Nat) : Option α :=
  if i < v.size then some (v.data i) else none

/-- Checked write `v[i] = x`. -/
def set? (v : StdVector α) (i : Nat) (x : α) : Option (StdVector α) :=
  if i < v.size then some ⟨v.size, fun j => if j = i then x else v.data j⟩ else none

/-- The vector made by `assign(n, x)` (also the constructor `vector(n)` with `x` the zero value). -/
def assign (n : Nat) (x : α) : StdVector α := ⟨n, fun _ => x⟩

/-- The vector after `resize(n)`: old elements kept, new ones value-initialised to `d`. -/
def resize (v : StdVector α) (n : Nat) (d : α) : StdVector α :=
  ⟨n, fun i => if i < v.size then v.data i else d⟩

/-- The elements of the vector, in index order. -/
def toList (v : StdVector α) : List α := (List.range v.size).map v.data

end StdVector

/-- Modelled from the spec: the square table type `matrix<T>` (`djp/utility/matrix.hpp` is not
among the sources): a row count, a column count and the contents; `m[{i, j}]` is bounds-checked. -/
structure matrix (α : Type) where
  rows : Nat
  cols : Nat
  data : Nat → Nat → α

namespace matrix
variable {α : Type}

/-- Checked read `m[{i, j}]`. -/
def get? (m : matrix α) (i j : Nat) : Option α :=
  if i < m.rows ∧ j < m.cols then some (m.data i j) else none

/-- Checked write `m[{i, j}] = x`. -/
def set? (m : matrix α) (i j : Nat) (x : α) : Option (matrix α) :=
  if i < m.rows ∧ j < m.cols then
    some ⟨m.rows, m.cols, fun a b => if a = i ∧ b = j then x else m.data a b⟩
  else none

/-- The matrix made by `assign({r, c}, x)`. -/
def assign (r c : Nat) (x : α) : matrix α := ⟨r, c, fun _ _ => x⟩

end matrix

/-! ### dag_shortest_paths.hpp -/

/-- The two locals the recursive lambda `dfs` captures by reference. -/
structure DfsState where
  visited : StdVector Bool
  rev_topo : List Nat

/-- The recursive lambda `dfs` of `dag_shortest_paths`; `fuel` bounds the recursion depth. -/
def dfs : Nat → Graph → DfsState → Nat → Option DfsState
  | 0, _, _, _ => none
  | fuel + 1, g, st, src => do
    let visited ← st.visited.set? src true
    let st1 ← (g.out_edges src).foldlM (fun (st : DfsState) e => do
        let tgt := g.target e
        let vis ← st.visited.get? tgt
        if !vis then dfs fuel g st tgt else pure st) (DfsState.mk visited st.rev_topo)
    pure ⟨st1.visited, st1.rev_topo ++ [src]⟩

/-- The relaxation of all out-edges of `src` (the body of the `for_each` lambda). -/
def relax_out_edges (g : Graph) (weight : StdVector Int) (dist : StdVector Int) (src : Nat) :
    Option (StdVector Int) :=
  (g.out_edges src).foldlM (fun (dist : StdVector Int) e => do
    let tgt := g.target e
    let dt ← dist.get? tgt
    let ds ← dist.get? src
    let we ← weight.get? e
    dist.set? tgt (min dt (ds + we))) dist

/-- The function `dag_shortest_paths`. `inf` is `std::numeric_limits<Distance>::max()`; the
out-parameter `dist` is the result (its old contents are discarded by `assign`). -/
def dag_shortest_paths (fuel : Nat) (g : Graph) (source : Nat) (weight : StdVector Int)
    (inf : Int) : Option (StdVector Int) := do
  let num_v := g.num_vertices
  let visited : StdVector Bool := StdVector.assign num_v false
  let st ← dfs fuel g ⟨visited, []⟩ source
  let dist : StdVector Int := StdVector.assign num_v inf
  let dist ← dist.set? source 0
  st.rev_topo.reverse.foldlM (relax_out_edges g weight) dist

/-! ### floyd_warshall_shortest.hpp -/

/-- The two out-parameters of `floyd_warshall_all_pairs_shortest_paths`. -/
structure FwState where
  dist : matrix Int
  next : matrix Nat

/-- Body of the loop `for v: dist[{v, v}] = 0`. -/
def fw_init_diag (st : FwState) (v : Nat) : Option FwState := do
  let d ← st.dist.set? v v 0
  pure ⟨d, st.next⟩

/-- Body of the loop over the edge ids `e`. -/
def fw_init_edge (g : Graph) (weight : StdVector Int) (st : FwState) (e : Nat) :
    Option FwState := do
  let u := g.source e
  let v := g.target e
  let duv ← st.dist.get? u v
  let we ← weight.get? e
  let d ← st.dist.set? u v (min duv we)
  let n ← st.next.set? u v v
  pure ⟨d, n⟩

/-- Body of the innermost loop (over `j`) for fixed `k` and `i`. -/
def fw_relax (inf : Int) (k i : Nat) (st : FwState) (j : Nat) : Option FwState := do
  let dkj ← st.dist.get? k j
  if dkj ≠ inf then
    let dik ← st.dist.get? i k
    let dij ← st.dist.get? i j
    if dik + dkj < dij then
      let nik ← st.next.get? i k
      let d ← st.dist.set? i j (dik + dkj)
      let n ← st.next.set? i j nik
      pure ⟨d, n⟩
    else pure st
  else pure st

/-- Body of the middle loop (over `i`) for fixed `k`. -/
def fw_row (inf : Int) (num_v k : Nat) (st : FwState) (i : Nat) : Option FwState := do
  let dik ← st.dist.get? i k
  if dik ≠ inf then (List.range num_v).foldlM (fw_relax inf k i) st else pure st

/-- Body of the outer loop (over `k`). -/
def fw_round (inf : Int) (num_v : Nat) (st : FwState) (k : Nat) : Option FwState :=
  (List.range num_v).foldlM (fw_row inf num_v k) st

/-- The function `floyd_warshall_all_pairs_shortest_paths`; `inf` is
`std::numeric_limits<Distance>::max()`, the result holds the out-parameters `dist` and `next`
(their old contents are discarded by `assign`). -/
def floyd_warshall_all_pairs_shortest_paths (g : Graph) (weight : StdVector Int) (inf : Int) :
    Option FwState := do
  let num_edges := g.num_edges
  let num_v := g.num_vertices
  let st : FwState := ⟨matrix.assign num_v num_v inf, matrix.assign num_v num_v SIZE_MAX⟩
  let st ← (List.range num_v).foldlM fw_init_diag st
  let st ← (List.range num_edges).foldlM (fw_init_edge g weight) st
  (List.range num_v).foldlM (fw_round inf num_v) st

/-- The `while (u != v)` loop of `floyd_warshall_path`; `out` collects what was written through
`out_it`, `fuel` bounds the number of iterations. -/
def path_loop : Nat → Nat → Nat → matrix Nat → List Nat → Option (List Nat)
  | 0, _, _, _, _ => none
  | fuel + 1, u, v, next, out =>
    if u ≠ v then do
      let u1 ← next.get? u v
      path_loop fuel u1 v next (out ++ [u1])
    else pure out

/-- The function `floyd_warshall_path`: the sequence written through `out_it`. -/
def floyd_warshall_path (fuel : Nat) (u v : Nat) (next : matrix Nat) : Option (List Nat) :=
  if u ≠ v then do
    let nuv ← next.get? u v
    if nuv = SIZE_MAX then pure [] else path_loop fuel u v next [u]
  else path_loop fuel u v next [u]

/-! ### strong_components.hpp -/

/-- The locals of `strong_components` that the lambda `dfs_visit` captures by reference. -/
structure SccState where
  time : Nat
  comp_cnt : Nat
  s : List Nat
  low : StdVector Nat
  dtm : StdVector Nat
  comp : StdVector Nat

/-- The `do ... while (w != v)` loop: pops the stack (head = top) and labels what it pops. -/
def pop_component (v cnt : Nat) : List Nat → StdVector Nat → Option (List Nat × StdVector Nat)
  | [], _ => none
  | w :: s, comp => do
    let comp ← comp.set? w cnt
    if w ≠ v then pop_component v cnt s comp else pure (s, comp)

/-- Second statement of the edge loop body: `if (comp[w] == SIZE_MAX) low[v] = min(low[v], low[w])`. -/
def fold_low (st : SccState) (v w : Nat) : Option SccState := do
  let cw ← st.comp.get? w
  if cw = SIZE_MAX then
    let lv ← st.low.get? v
    let lw ← st.low.get? w
    let low ← st.low.set? v (min lv lw)
    pure ⟨st.time, st.comp_cnt, st.s, low, st.dtm, st.comp⟩
  else pure st

/-- What `dfs_visit` does after its edge loop: the root test and the pop loop. -/
def finish_visit (st : SccState) (v : Nat) : Option SccState := do
  let dv ← st.dtm.get? v
  let lv ← st.low.get? v
  if dv ≠ lv then pure st
  else
    let r ← pop_component v st.comp_cnt st.s st.comp
    pure ⟨st.time, st.comp_cnt + 1, r.1, st.low, st.dtm, r.2⟩

/-- What `dfs_visit` does before its edge loop: stamps `v`, marks it unfinished, pushes it. -/
def enter_visit (st : SccState) (v : Nat) : Option SccState := do
  let time := st.time + 1
  let dtm ← st.dtm.set? v time
  let dv ← dtm.get? v
  let low ← st.low.set? v dv
  let comp ← st.comp.set? v SIZE_MAX
  pure ⟨time, st.comp_cnt, v :: st.s, low, dtm, comp⟩

/-- The recursive lambda `dfs_visit` of `strong_components`; `fuel` bounds the recursion depth.
The counters are `size_t`; a graph view has at most `SIZE_MAX` vertices and each counter is
bounded by the number of vertices, so neither wraps. -/
def dfs_visit : Nat → Graph → SccState → Nat → Option SccState
  | 0, _, _, _ => none
  | fuel + 1, g, st, v => do
    let st1 ← enter_visit st v
    let st2 ← (g.out_edges v).foldlM (fun (st : SccState) edge => do
        let w := g.target edge
        let dw ← st.dtm.get? w
        let st ← if dw = 0 then dfs_visit fuel g st w else pure st
        fold_low st v w) st1
    finish_visit st2 v

/-- Body of the final loop: `if (!dtm[v]) dfs_visit(v)`. -/
def scc_outer (fuel : Nat) (g : Graph) (st : SccState) (v : Nat) : Option SccState := do
  let dv ← st.dtm.get? v
  if dv = 0 then dfs_visit fuel g st v else pure st

/-- The function `strong_components`: the returned count and the final contents of `comp`. -/
def strong_components (fuel : Nat) (g : Graph) (comp : StdVector Nat) :
    Option (Nat × StdVector Nat) := do
  let num_vertices := g.num_vertices
  let st0 : SccState :=
    ⟨0, 0, [], StdVector.assign num_vertices 0, StdVector.assign num_vertices 0,
      comp.resize num_vertices 0⟩
  let st ← (List.range num_vertices).foldlM (scc_outer fuel g) st0
  pure (st.comp_cnt, st.comp)

/-! ### Paths, reachability and weights (specification vocabulary) -/

/-- The list of edge ids `p` is a walk from `u` to `v` in `g`. -/
def IsPath (g : Graph) : Nat → List Nat → Nat → Prop
  | u, [], v => u = v ∧ u < g.num_vertices
  | u, e :: p, v => e < g.num_edges ∧ g.source e = u ∧ IsPath g (g.target e) p v

/-- Total weight of a list of edge ids. -/
def pathWeight (weight : StdVector Int) (p : List Nat) : Int :=
  (p.map weight.data).sum

/-- Vertex `v` is reachable from `u`. -/
def Reachable (g : Graph) (u v : Nat) : Prop := ∃ p, IsPath g u p v

/-- The vertices a walk from `u` passes through, endpoints included. -/
def pathVertices (g : Graph) (u : Nat) (p : List Nat) : List Nat := u :: p.map g.target

/-- A walk is simple when it repeats no vertex. -/
def IsSimple (g : Graph) (u : Nat) (p : List Nat) : Prop := (pathVertices g u p).Nodup

/-- No cycle of `g` has negative total weight. -/
def NoNegCycle (g : Graph) (weight : StdVector Int) : Prop :=
  ∀ v p, IsPath g v p v → 0 ≤ pathWeight weight p

/-- The graph `g` is acyclic: the only walk from a vertex to itself is the empty one. -/
def Acyclic (g : Graph) : Prop := ∀ v p, IsPath g v p v → p = []

/-- The value `d` is the minimum total weight over all walks from `u` to `v`. -/
def IsMinPathWeight (g : Graph) (weight : StdVector Int) (u v : Nat) (d : Int) : Prop :=
  (∃ p, IsPath g u p v ∧ pathWeight weight p = d) ∧
  ∀ p, IsPath g u p v → d ≤ pathWeight weight p

/-- The graph with `n` vertices whose edge `e` is the `e`-th pair `(source, target)` of `es`;
the out-edges of a vertex are listed in insertion order. -/
def mkGraph (n : Nat) (es : List (Nat × Nat)) : Graph :=
  ⟨n, es.length, fun v => (List.range es.length).filter (fun e => (es.getD e (0, 0)).1 = v),
    fun e => (es.getD e (0, 0)).1, fun e => (es.getD e (0, 0)).2⟩

/-- The weight vector holding the list `ws`. -/
def mkWeights (ws : List Int) : StdVector Int := ⟨ws.length, fun e => ws.getD e 0⟩

/-- The sentinel `inf` exceeds the weight of every simple path (the non-wrapping reading of
"larger than any path weight": with a positive cycle the walks have no largest weight). -/
def InfBound (g : Graph) (weight : StdVector Int) (inf : Int) : Prop :=
  ∀ u p v, IsPath g u p v → IsSimple g u p → pathWeight weight p < inf

/-- The vertices strictly inside a walk (the targets of all its edges but the last). -/
def interior (g : Graph) (p : List Nat) : List Nat := (p.map g.target).dropLast

/-- All vertices strictly inside the walk are below `k`. -/
def Via (g : Graph) (k : Nat) (p : List Nat) : Prop := ∀ x ∈ interior g p, x < k

/-- The list `l` is what following the table `nx` from `u` towards `v` visits, `u` and `v`
included. -/
inductive NextChain (nx : Nat → Nat → Nat) (v : Nat) : Nat → List Nat → Prop
  | done : NextChain nx v v [v]
  | step {u : Nat} {l : List Nat} : u ≠ v → NextChain nx v (nx u v) l → NextChain nx v u (u :: l)

/-- The pair `(i, j)` gets a shorter route through `k` in the state `o`. -/
def fwImproved (inf : Int) (n k : Nat) (o : FwState) (i j : Nat) : Prop :=
  i < n ∧ j < n ∧ o.dist.data i k ≠ inf ∧ o.dist.data k j ≠ inf ∧
    o.dist.data i k + o.dist.data k j < o.dist.data i j

instance (inf : Int) (n k : Nat) (o : FwState) (i j : Nat) : Decidable (fwImproved inf n k o i j) := by
  unfold fwImproved; infer_instance

/-- One round of the triple loop described all at once from the state `o` before the round. -/
def fwSync (inf : Int) (n k : Nat) (o : FwState) : FwState :=
  ⟨⟨o.dist.rows, o.dist.cols, fun i j =>
      if fwImproved inf n k o i j then o.dist.data i k + o.dist.data k j else o.dist.data i j⟩,
   ⟨o.next.rows, o.next.cols, fun i j =>
      if fwImproved inf n k o i j then o.next.data i k else o.next.data i j⟩⟩

/-- The state inside round `k` once the rows below `i` and the columns below `j` of row `i`
have been relaxed, described from the state `o` before the round. -/
def fwPart (inf : Int) (n k : Nat) (o : FwState) (i j : Nat) : FwState :=
  ⟨⟨o.dist.rows, o.dist.cols, fun a b =>
      if (a < i ∨ (a = i ∧ b < j)) ∧ fwImproved inf n k o a b then
        o.dist.data a k + o.dist.data k b else o.dist.data a b⟩,
   ⟨o.next.rows, o.next.cols, fun a b =>
      if (a < i ∨ (a = i ∧ b < j)) ∧ fwImproved inf n k o a b then
        o.next.data a k else o.next.data a b⟩⟩

/-- Both tables of the state are `n` by `n`. -/
def FwDims (n : Nat) (st : FwState) : Prop :=
  st.dist.rows = n ∧ st.dist.cols = n ∧ st.next.rows = n ∧ st.next.cols = n

/-- What the distance table satisfies between rounds: before round `k` every entry is the least
weight of a walk whose inner vertices are all below `k`. -/
structure FwDistLevel (g : Graph) (w : StdVector Int) (inf : Int) (k : Nat) (st : FwState) :
    Prop where
  dims : FwDims g.num_vertices st
  diag : ∀ v, v < g.num_vertices → st.dist.data v v = 0
  le_inf : ∀ i j, st.dist.data i j ≤ inf
  real : ∀ i j, i < g.num_vertices → j < g.num_vertices → st.dist.data i j ≠ inf →
    ∃ p, IsPath g i p j ∧ Via g k p ∧ pathWeight w p = st.dist.data i j
  compl : ∀ i j p, IsPath g i p j → IsSimple g i p → Via g k p →
    st.dist.data i j ≤ pathWeight w p

/-- What the next-hop table satisfies between rounds. -/
structure FwNextLevel (g : Graph) (w : StdVector Int) (inf : Int) (k : Nat) (st : FwState) :
    Prop where
  nxt : ∀ i j, i < g.num_vertices → j < g.num_vertices → i ≠ j → st.dist.data i j ≠ inf →
    ∃ e, e < g.num_edges ∧ g.source e = i ∧ g.target e = st.next.data i j ∧
      (st.next.data i j = j ∨ st.next.data i j < k) ∧
      st.dist.data (st.next.data i j) j ≠ inf ∧
      st.dist.data i j = w.data e + st.dist.data (st.next.data i j) j
  none : ∀ i j, i < g.num_vertices → j < g.num_vertices → i ≠ j → st.dist.data i j = inf →
    st.next.data i j = SIZE_MAX
  chain : ∀ i j, i < g.num_vertices → j < g.num_vertices → st.dist.data i j ≠ inf →
    ∃ l, NextChain st.next.data j i l

/-- What holds while the edge loop of `floyd_warshall_all_pairs_shortest_paths` runs, once the
edges below `m` have been read. -/
structure FwEdgeInv (g : Graph) (w : StdVector Int) (inf : Int) (m : Nat) (st : FwState) :
    Prop where
  dims : FwDims g.num_vertices st
  diag : ∀ v, v < g.num_vertices → st.dist.data v v = 0
  le_inf : ∀ i j, st.dist.data i j ≤ inf
  real : ∀ i j, i < g.num_vertices → j < g.num_vertices → i ≠ j → st.dist.data i j ≠ inf →
    ∃ e, e < g.num_edges ∧ g.source e = i ∧ g.target e = j ∧ st.next.data i j = j ∧
      st.dist.data i j = w.data e
  compl : ∀ e, e < m → st.dist.data (g.source e) (g.target e) ≤ w.data e
  none : ∀ i j, i < g.num_vertices → j < g.num_vertices → i ≠ j → st.dist.data i j = inf →
    st.next.data i j = SIZE_MAX

/-- The edge ids with source `x` and target `y`. -/
def edgesBetween (g : Graph) (x y : Nat) : List Nat :=
  (List.range g.num_edges).filter (fun e => g.source e = x ∧ g.target e = y)

/-- The least weight of an edge from `x` to `y` (`0` when there is none). -/
def minEdgeWeight (g : Graph) (weight : StdVector Int) (x y : Nat) : Int :=
  match (edgesBetween g x y).map weight.data with
  | [] => 0
  | a :: as => as.foldl min a

/-- The weight of a vertex sequence: every step counted with the lightest edge joining it. -/
def chainWeight (g : Graph) (weight : StdVector Int) : List Nat → Int
  | x :: y :: l => minEdgeWeight g weight x y + chainWeight g weight (y :: l)
  | _ => 0

/-- There is an edge from `x` to `y`. -/
def HasEdge (g : Graph) (x y : Nat) : Prop :=
  ∃ e, e < g.num_edges ∧ g.source e = x ∧ g.target e = y

/-- A weighted graph with a cycle: `0 → 1 (2)`, `1 → 2 (3)`, `2 → 0 (1)`, `0 → 2 (7)`, and an
isolated vertex `3`. -/
def cycleGraph : Graph := mkGraph 4 [(0, 1), (1, 2), (2, 0), (0, 2)]

/-- The weights of `cycleGraph`. -/
def cycleWeights : StdVector Int := mkWeights [2, 3, 1, 7]

/-- The vertices below `n` that the flags `vis` do not mark. -/
def unvisited (n : Nat) (vis : Nat → Bool) : Finset Nat :=
  (Finset.range n).filter (fun v => vis v = false)

/-- In the post-order list `r` every out-neighbour of a listed vertex is listed, and only
before that vertex. -/
def PostOrdered (g : Graph) (r : List Nat) : Prop :=
  ∀ y ∈ r, ∀ e ∈ g.out_edges y, g.target e ∈ r ∧ ∀ a b, r = a ++ g.target e :: b → y ∈ b

/-- What holds of the state of `dfs` whenever the calls for the vertices `gs` are open. -/
structure DfsInv (g : Graph) (st : DfsState) (gs : List Nat) : Prop where
  size : st.visited.size = g.num_vertices
  split : ∀ v, st.visited.data v = true ↔ v ∈ st.rev_topo ∨ v ∈ gs
  lt : ∀ v, st.visited.data v = true → v < g.num_vertices
  nodup : st.rev_topo.Nodup
  disj : ∀ x ∈ gs, x ∉ st.rev_topo
  closed : PostOrdered g st.rev_topo

/-- Every walk from `s` weighs less than the sentinel `inf`. -/
def InfAbovePaths (g : Graph) (weight : StdVector Int) (s : Nat) (inf : Int) : Prop :=
  ∀ p v, IsPath g s p v → pathWeight weight p < inf

/-- The body of the edge loop inside `dfs` (for the calls made with `fuel`). -/
def dfsEdge (fuel : Nat) (g : Graph) (st : DfsState) (e : Nat) : Option DfsState := do
  let tgt := g.target e
  let vis ← st.visited.get? tgt
  if !vis then dfs fuel g st tgt else pure st

/-- The body of the edge loop inside `relax_out_edges`. -/
def relaxEdge (g : Graph) (weight : StdVector Int) (src : Nat) (dist : StdVector Int) (e : Nat) :
    Option (StdVector Int) := do
  let tgt := g.target e
  let dt ← dist.get? tgt
  let ds ← dist.get? src
  let we ← weight.get? e
  dist.set? tgt (min dt (ds + we))

/-- What holds of `dist` in the relaxation pass once the vertices `pre` have been processed. -/
structure RelaxInv (g : Graph) (w : StdVector Int) (inf : Int) (s : Nat) (pre : List Nat)
    (dist : StdVector Int) : Prop where
  size : dist.size = g.num_vertices
  src : dist.data s ≤ 0
  real : ∀ v, v < g.num_vertices → dist.data v ≠ inf →
    ∃ p, IsPath g s p v ∧ pathWeight w p = dist.data v
  final : ∀ y ∈ pre, ∀ p, IsPath g s p y → dist.data y ≤ pathWeight w p
  edge : ∀ y ∈ pre, ∀ e ∈ g.out_edges y, ∀ p, IsPath g s p y →
    dist.data (g.target e) ≤ pathWeight w p + w.data e

/-- The example DAG of the specification: `0→1`, `0→2`, `1→2`, `1→3`, `2→3`, vertex `4`
isolated. -/
def specDag : Graph := mkGraph 5 [(0, 1), (0, 2), (1, 2), (1, 3), (2, 3)]

/-- The weights `3, 5, 1, 2, 1` of the edges of `specDag`. -/
def specDagWeights : StdVector Int := mkWeights [3, 5, 1, 2, 1]

/-- The vertex `x` has left the stack of `strong_components`: discovered and popped. -/
def Final (st : SccState) (x : Nat) : Prop := st.dtm.data x ≠ 0 ∧ x ∉ st.s

/-- Flags of the discovered vertices. -/
def seenFlag (st : SccState) (x : Nat) : Bool := decide (st.dtm.data x ≠ 0)

/-- Flags of the vertices that have left the stack. -/
def finalFlag (st : SccState) (x : Nat) : Bool := decide (st.dtm.data x ≠ 0 ∧ x ∉ st.s)

/-- What holds of the state of `strong_components` whenever the calls of `dfs_visit` for the
vertices `gs` are open. -/
structure SccInv (g : Graph) (st : SccState) (gs : List Nat) : Prop where
  size_low : st.low.size = g.num_vertices
  size_dtm : st.dtm.size = g.num_vertices
  size_comp : st.comp.size = g.num_vertices
  vlt : ∀ x, st.dtm.data x ≠ 0 → x < g.num_vertices
  tm : ∀ x, st.dtm.data x ≤ st.time
  stk : ∀ x, x ∈ st.s ↔ (st.dtm.data x ≠ 0 ∧ st.comp.data x = SIZE_MAX)
  cmp : ∀ x, st.dtm.data x ≠ 0 → x ∉ st.s → st.comp.data x < st.comp_cnt
  cntb : st.comp_cnt + (unvisited g.num_vertices (finalFlag st)).card ≤ g.num_vertices
  srt : st.s.Pairwise (fun a b => st.dtm.data b < st.dtm.data a)
  gss : ∀ x ∈ gs, x ∈ st.s
  g7 : ∀ x ∈ gs, ∀ y ∈ st.s, st.dtm.data x ≤ st.dtm.data y → Reachable g x y
  g8 : ∀ y ∈ st.s, ∃ x ∈ gs, st.dtm.data x ≤ st.dtm.data y ∧ Reachable g y x
  nbw : ∀ y, st.dtm.data y ≠ 0 → y ∉ gs → ∀ e ∈ g.out_edges y, st.dtm.data (g.target e) ≠ 0
  fcl : ∀ y, Final st y → ∀ e ∈ g.out_edges y,
    Final st (g.target e) ∧ st.comp.data (g.target e) ≤ st.comp.data y
  scc : ∀ y, Final st y → ∀ u,
    (Reachable g y u ∧ Reachable g u y) ↔ (Final st u ∧ st.comp.data u = st.comp.data y)
  sur : ∀ c, c < st.comp_cnt → ∃ x, Final st x ∧ st.comp.data x = c
  lowle : ∀ y ∈ st.s, st.low.data y ≤ st.dtm.data y ∧
    ∃ z ∈ st.s, st.dtm.data z = st.low.data y ∧ Reachable g y z

/-- The entries of the vertices discovered in `st` are the same in `st'`. -/
def SccFrame (st st' : SccState) : Prop :=
  ∀ x, st.dtm.data x ≠ 0 → st'.dtm.data x = st.dtm.data x ∧
    st'.low.data x = st.low.data x ∧ st'.comp.data x = st.comp.data x

/-- What a call `dfs_visit(v)` started in `st` guarantees of the state `st'` it returns. -/
structure VisitPost (g : Graph) (st : SccState) (v : Nat) (gs : List Nat) (st' : SccState) :
    Prop where
  inv : SccInv g st' gs
  frame : SccFrame st st'
  seen : st'.dtm.data v ≠ 0
  reach : ∀ x, st'.dtm.data x ≠ 0 → st.dtm.data x = 0 → Reachable g v x
  stack : ∃ new, st'.s = new ++ st.s ∧ (new = [] ∨ v ∈ new) ∧
    ∀ y ∈ new, ∀ e ∈ g.out_edges y, g.target e ∈ st.s →
      st'.low.data v ≤ st'.dtm.data (g.target e)

/-- What holds inside the edge loop of the call `dfs_visit(v)` started in `st`, once the
edges `done` have been handled. -/
structure VisitInv (g : Graph) (st : SccState) (v : Nat) (gs : List Nat) (done : List Nat)
    (stc : SccState) : Prop where
  inv : SccInv g stc (v :: gs)
  frame : SccFrame st stc
  dv : stc.dtm.data v = st.time + 1
  reach : ∀ x, stc.dtm.data x ≠ 0 → st.dtm.data x = 0 → Reachable g v x
  stack : ∃ above, stc.s = above ++ v :: st.s ∧
    ∀ y ∈ above, ∀ e ∈ g.out_edges y, g.target e ∈ v :: st.s →
      stc.low.data v ≤ stc.dtm.data (g.target e)
  done_seen : ∀ e ∈ done, stc.dtm.data (g.target e) ≠ 0
  done_low : ∀ e ∈ done, g.target e ∈ v :: st.s → stc.low.data v ≤ stc.dtm.data (g.target e)

/-- The body of the edge loop inside `dfs_visit(v)` (for the calls made with `fuel`). -/
def sccEdge (fuel : Nat) (g : Graph) (v : Nat) (st : SccState) (edge : Nat) :
    Option SccState := do
  let w := g.target edge
  let dw ← st.dtm.get? w
  let st ← if dw = 0 then dfs_visit fuel g st w else pure st
  fold_low st v w

/-- The state `enter_visit` produces. -/
def enterState (st : SccState) (v : Nat) : SccState :=
  ⟨st.time + 1, st.comp_cnt, v :: st.s,
    ⟨st.low.size, fun j => if j = v then st.time + 1 else st.low.data j⟩,
    ⟨st.dtm.size, fun j => if j = v then st.time + 1 else st.dtm.data j⟩,
    ⟨st.comp.size, fun j => if j = v then SIZE_MAX else st.comp.data j⟩⟩

/-- The state `fold_low` produces. -/
def foldState (st : SccState) (v w : Nat) : SccState :=
  if st.comp.data w = SIZE_MAX then
    ⟨st.time, st.comp_cnt, st.s,
      ⟨st.low.size, fun j => if j = v then min (st.low.data v) (st.low.data w) else st.low.data j⟩,
      st.dtm, st.comp⟩
  else st

/-- What holds inside the edge loop of `dfs_visit(v)` between the two statements of its body,
for an edge to `w`. -/
structure VisitMid (g : Graph) (st : SccState) (v : Nat) (gs : List Nat) (done : List Nat)
    (w : Nat) (sm : SccState) : Prop where
  inv : SccInv g sm (v :: gs)
  frame : SccFrame st sm
  dv : sm.dtm.data v = st.time + 1
  reach : ∀ x, sm.dtm.data x ≠ 0 → st.dtm.data x = 0 → Reachable g v x
  stack : ∃ above, sm.s = above ++ v :: st.s ∧
    ∀ y ∈ above, ∀ e ∈ g.out_edges y, g.target e ∈ v :: st.s →
      sm.low.data v ≤ sm.dtm.data (g.target e) ∨
        (w ∈ sm.s ∧ sm.low.data w ≤ sm.dtm.data (g.target e))
  done_seen : ∀ e ∈ done, sm.dtm.data (g.target e) ≠ 0
  done_low : ∀ e ∈ done, g.target e ∈ v :: st.s → sm.low.data v ≤ sm.dtm.data (g.target e)
  seen : sm.dtm.data w ≠ 0

/-- The graph with no vertex and no edge. -/
def emptyGraph : Graph := mkGraph 0 []

/-- The graph with one vertex and no edge. -/
def singletonGraph : Graph := mkGraph 1 []

/-- Two vertices and the single edge `1 → 0`. -/
def backEdgeGraph : Graph := mkGraph 2 [(1, 0)]

/-- The cycle `0 → 1 → 2 → 3 → 0` and the isolated vertex `4`. -/
def cyclePlusIsolated : Graph := mkGraph 5 [(0, 1), (1, 2), (2, 3), (3, 0)]

end Djp

namespace Djp

/-! ## `cpl/math/ternary_search.hpp` over exact arithmetic -/

/-- The two ways `ternary_search` can fail: the `std::runtime_error` thrown after the loop,
and a failed `assert(a <= b)`. -/
inductive TsError where
  | runtime_error
  | assertion_failed
  deriving DecidableEq, Repr

/-- The `for` loop of `ternary_search` with `n` iterations left: each iteration asserts
`a <= b`, returns the midpoint when `(b - a) <= 2 * tol`, and otherwise moves one end of the
bracket to a third point; the statement after the loop throws. -/
def ternary_search_loop (f : ℚ → ℚ) (tol : ℚ) : Nat → ℚ → ℚ → Except TsError ℚ
  | 0, _, _ => .error .runtime_error
  | n + 1, a, b =>
    if ¬ a ≤ b then .error .assertion_failed
    else if b - a ≤ 2 * tol then .ok ((a + b) / 2)
    else
      let left_third := (2 * a + b) / 3
      let right_third := (a + 2 * b) / 3
      if f left_third < f right_third then ternary_search_loop f tol n left_third b
      else ternary_search_loop f tol n a right_third

/-- The function `ternary_search(f, a, b, tol, max_iter)`; `max_iter` is an `int`, and the loop
`for (iter = 0; iter < max_iter; ++iter)` runs `max_iter` times when it is positive and not at
all otherwise. -/
def ternary_search (f : ℚ → ℚ) (a b tol : ℚ) (max_iter : Int) : Except TsError ℚ :=
  ternary_search_loop f tol max_iter.toNat a b

/-- The values of the variables `(a, b)` of `ternary_search` at the start of iteration `i` (the
values at which the loop was left, if it returned earlier). -/
def ts_bracket (f : ℚ → ℚ) (tol : ℚ) : Nat → ℚ → ℚ → ℚ × ℚ
  | 0, a, b => (a, b)
  | i + 1, a, b =>
    if b - a ≤ 2 * tol then (a, b)
    else
      let left_third := (2 * a + b) / 3
      let right_third := (a + 2 * b) / 3
      if f left_third < f right_third then ts_bracket f tol i left_third b
      else ts_bracket f tol i a right_third

/-- The function of the specification's example, `f(x) = -(x - 2)^2`. -/
def tsExample (x : ℚ) : ℚ := -((x - 2) ^ 2)

/-! ## Floyd–Warshall with `Distance = int` -/

/-- The value `std::numeric_limits<int>::max()`, the sentinel of Floyd–Warshall when
`Distance` is `int`. -/
def INT_MAX : Int := 2147483647

/-- The path `0 → 1 → 2 → 3`. -/
def lineGraph : Graph := mkGraph 4 [(0, 1), (1, 2), (2, 3)]

/-- Weights for `lineGraph` with which the path `1 → 2 → 3` weighs exactly `INT_MAX`; every sum
Floyd–Warshall forms with them lies between `-10^9` and `INT_MAX`. -/
def lineWeightsA : StdVector Int := mkWeights [-1000000000, 1147483647, 1000000000]

/-- Weights for `lineGraph` with which the path `0 → 1 → 2` weighs exactly `INT_MAX`; every sum
Floyd–Warshall forms with them lies between `-3` and `INT_MAX`. -/
def lineWeightsB : StdVector Int := mkWeights [1000000000, 1147483647, -3]

/-! ## Two runs of `strong_components` side by side -/

/-- Two optional results are related: both absent, or both present and related by `r`. -/
def OptRel {α β : Type} (r : α → β → Prop) : Option α → Option β → Prop
  | some a, some b => r a b
  | none, none => True
  | _, _ => False

/-- Two states of `strong_components` that differ at most in the `comp` entries of vertices
that have no discovery time yet. -/
def CompRel (a b : SccState) : Prop :=
  a.time = b.time ∧ a.comp_cnt = b.comp_cnt ∧ a.s = b.s ∧ a.low = b.low ∧ a.dtm = b.dtm ∧
    a.comp.size = b.comp.size ∧ ∀ x, a.dtm.data x ≠ 0 → a.comp.data x = b.comp.data x

/-! ## The run of `strong_components` with the states it passes through -/

/-- The pop loop of `dfs_visit`, returning with its result the state reached after each
iteration (`w = s.top(), s.pop(); comp[w] = comp_cnt;`); the other variables are those of
`st`. -/
def pop_component_tr (st : SccState) (v : Nat) :
    List Nat → StdVector Nat → Option ((List Nat × StdVector Nat) × List SccState)
  | [], _ => none
  | w :: s, comp => do
    let comp ← comp.set? w st.comp_cnt
    let cur : SccState := ⟨st.time, st.comp_cnt, s, st.low, st.dtm, comp⟩
    if w ≠ v then do
      let r ← pop_component_tr st v s comp
      pure (r.1, cur :: r.2)
    else pure ((s, comp), [cur])

/-- The end of `dfs_visit` with the states passed: the iterations of the pop loop and the
increment of `comp_cnt`. -/
def finish_visit_tr (st : SccState) (v : Nat) : Option (SccState × List SccState) := do
  let dv ← st.dtm.get? v
  let lv ← st.low.get? v
  if dv ≠ lv then pure (st, [])
  else
    let r ← pop_component_tr st v st.s st.comp
    let st' : SccState := ⟨st.time, st.comp_cnt + 1, r.1.1, st.low, st.dtm, r.1.2⟩
    pure (st', r.2 ++ [st'])

/-- The recursive lambda `dfs_visit`, returning with its final state the list of the states
passed on the way: after the three assignments and the push at its start, after each
statement `if (comp[w] == SIZE_MAX) low[v] = min(low[v], low[w])`, after each iteration of the
pop loop and after the increment of `comp_cnt`, with the states of the nested calls in their
place. -/
def dfs_visit_tr : Nat → Graph → SccState → Nat → Option (SccState × List SccState)
  | 0, _, _, _ => none
  | fuel + 1, g, st, v => do
    let st1 ← enter_visit st v
    let r2 ← (g.out_edges v).foldlM (fun (acc : SccState × List SccState) edge => do
        let w := g.target edge
        let dw ← acc.1.dtm.get? w
        let r ← if dw = 0 then dfs_visit_tr fuel g acc.1 w else pure (acc.1, [])
        let st ← fold_low r.1 v w
        pure (st, acc.2 ++ r.2 ++ [st])) (st1, [st1])
    let r3 ← finish_visit_tr r2.1 v
    pure (r3.1, r2.2 ++ r3.2)

/-- The body of the edge loop of `dfs_visit_tr`. -/
def sccEdge_tr (fuel : Nat) (g : Graph) (v : Nat) (acc : SccState × List SccState)
    (edge : Nat) : Option (SccState × List SccState) := do
  let w := g.target edge
  let dw ← acc.1.dtm.get? w
  let r ← if dw = 0 then dfs_visit_tr fuel g acc.1 w else pure (acc.1, [])
  let st ← fold_low r.1 v w
  pure (st, acc.2 ++ r.2 ++ [st])

/-- Body of the final loop of `strong_components`, with the states passed. -/
def scc_outer_tr (fuel : Nat) (g : Graph) (acc : SccState × List SccState) (v : Nat) :
    Option (SccState × List SccState) := do
  let dv ← acc.1.dtm.get? v
  if dv = 0 then do
    let r ← dfs_visit_tr fuel g acc.1 v
    pure (r.1, acc.2 ++ r.2)
  else pure acc

/-- The state in which the final loop of `strong_components` starts. -/
def scc_init (g : Graph) (comp : StdVector Nat) : SccState :=
  ⟨0, 0, [], StdVector.assign g.num_vertices 0, StdVector.assign g.num_vertices 0,
    comp.resize g.num_vertices 0⟩

/-- The function `strong_components`, returning its final state and the states passed. -/
def strong_components_tr (fuel : Nat) (g : Graph) (comp : StdVector Nat) :
    Option (SccState × List SccState) :=
  (List.range g.num_vertices).foldlM (scc_outer_tr fuel g) (scc_init g comp, [])

/-- The relation between a result with the states passed and the plain result. -/
def Erases (r : SccState × List SccState) (st : SccState) : Prop := r.1 = st

/-- The state machine of a vertex as a property of one state: a vertex is on the stack
exactly when it has a discovery time and its `comp` entry is the placeholder, and
`low[x] ≤ dtm[x]` for every `x`. -/
def StateOK (st : SccState) : Prop :=
  (∀ x, x ∈ st.s ↔ (st.dtm.data x ≠ 0 ∧ st.comp.data x = SIZE_MAX)) ∧
    ∀ x, st.low.data x ≤ st.dtm.data x

/-- The state machine of a vertex as a property of one step from `a` to `b`: an undiscovered
vertex stays so or is pushed, a discovery time once assigned is kept, and a vertex that has
left the stack keeps its component id. -/
def StepOK (a b : SccState) : Prop :=
  ∀ x, (a.dtm.data x = 0 → b.dtm.data x = 0 ∨ x ∈ b.s) ∧
    (a.dtm.data x ≠ 0 → b.dtm.data x = a.dtm.data x) ∧
    (a.dtm.data x ≠ 0 → x ∉ a.s → x ∉ b.s ∧ b.comp.data x = a.comp.data x)

/-- The list `l` is a sequence of legal steps from `a` that ends in `c`, through legal
states. -/
inductive Run : SccState → List SccState → SccState → Prop
  | nil (a : SccState) : Run a [] a
  | cons {a b c : SccState} {l : List SccState} :
      StepOK a b → StateOK b → Run b l c → Run a (b :: l) c

/-! ## `djp/geometry/convex_hull.hpp` -/

namespace StdVector
variable {α : Type}

/-- Checked `std::copy(l.begin(), l.end(), v.begin() + pos)`: every write must fall inside
`v`. -/
def copy_in (v : StdVector α) (pos : Nat) : List α → Option (StdVector α)
  | [] => some v
  | x :: xs => do
    let v ← v.set? pos x
    copy_in v (pos + 1) xs

/-- The vector `std::vector<T>(first, last)` holding the elements of `l`. -/
def of_list (d : α) (l : List α) : StdVector α := ⟨l.length, fun i => l.getD i d⟩

/-- The vector after `erase(begin() + e, end())`. -/
def erase_from (v : StdVector α) (e : Nat) : Option (StdVector α) :=
  if e ≤ v.size then some ⟨e, v.data⟩ else none

end StdVector

/-- The inner loop of `make_convex_set`, `while (end - first >= 2 && cw(end[-2], end[-1], *i))
--end;`, started with `end` at the given index and `*i = x`; it returns the final `end`. -/
def make_convex_set_pop {α : Type} (cw : α → α → α → Bool) (buf : StdVector α) (first : Nat)
    (x : α) : Nat → Option Nat
  | e + 2 =>
    if 2 ≤ e + 2 - first then do
      let p ← buf.get? e
      let q ← buf.get? (e + 1)
      if cw p q x then make_convex_set_pop cw buf first x (e + 1) else pure (e + 2)
    else pure (e + 2)
  | e => pure e

/-- One iteration of the `for` loop of `make_convex_set` on the pair (buffer, `end`): the inner
loop, then `*end++ = std::move(*i)`. -/
def make_convex_set_step {α : Type} (cw : α → α → α → Bool) (first : Nat)
    (st : StdVector α × Nat) (i : Nat) : Option (StdVector α × Nat) := do
  let x ← st.1.get? i
  let e ← make_convex_set_pop cw st.1 first x st.2
  let buf ← st.1.set? e x
  pure (buf, e + 1)

/-- The function `make_convex_set(first, last, cw)` on the index range `[first, last)` of
`buf`: the buffer it leaves and the iterator `--end` it returns. Decrementing the iterator
`begin()` of the vector has no defined result. -/
def make_convex_set {α : Type} (cw : α → α → α → Bool) (buf : StdVector α) (first last : Nat) :
    Option (StdVector α × Nat) := do
  let r ← (List.range' first (last - first)).foldlM (make_convex_set_step cw first) (buf, first)
  if r.2 = 0 then none else pure (r.1, r.2 - 1)

/-- The function `convex_hull(first, last, cw)` on the input sequence `pts`; `d` is the
value-initialised point with which `std::vector<point_t> hull(2 * n)` is filled. -/
def convex_hull {α : Type} (cw : α → α → α → Bool) (d : α) (pts : List α) :
    Option (List α) := do
  let n := pts.length
  let hull : StdVector α := StdVector.assign (2 * n) d
  let hull ← hull.copy_in 0 pts
  let r ← make_convex_set cw hull 0 n
  let middle := r.2
  let hull ← r.1.copy_in middle pts.reverse
  let r ← make_convex_set cw hull middle (middle + n)
  let hull ← r.1.erase_from r.2
  pure hull.toList

/-- The test `std::is_sorted(first, last)` with `operator<` given by `lt`. -/
def is_sorted {α : Type} (lt : α → α → Bool) : List α → Bool
  | a :: b :: rest => !(lt b a) && is_sorted lt (b :: rest)
  | _ => true

/-- The loop of `std::set_difference` on two sequences, with `fuel` iterations left. -/
def set_difference_loop {α : Type} (lt : α → α → Bool) : Nat → List α → List α → List α
  | 0, _, _ => []
  | _ + 1, [], _ => []
  | _ + 1, a :: as, [] => a :: as
  | fuel + 1, a :: as, b :: bs =>
    if lt a b then a :: set_difference_loop lt fuel as (b :: bs)
    else if lt b a then set_difference_loop lt fuel (a :: as) bs
    else set_difference_loop lt fuel as bs

/-- The output of `std::set_difference(l1, l2)`; each iteration advances in one of the two
sequences, so the sum of their lengths is enough fuel. -/
def set_difference {α : Type} (lt : α → α → Bool) (l1 l2 : List α) : List α :=
  set_difference_loop lt (l1.length + l2.length) l1 l2

/-- The vectors `lhull` and `uhull` of `convex_hull_partition` after the two `erase` calls. -/
def partition_chains {α : Type} (cw : α → α → α → Bool) (d : α) (pts : List α) :
    Option (List α × List α) := do
  let lhull := StdVector.of_list d pts
  let uhull := StdVector.of_list d pts.reverse
  let r ← make_convex_set cw lhull 0 lhull.size
  let lhull ← r.1.erase_from r.2
  let r ← make_convex_set cw uhull 0 uhull.size
  let uhull ← r.1.erase_from r.2
  pure (lhull.toList, uhull.toList)

/-- The function `convex_hull_partition(first, last, cw)` on a range holding `pts`: the
contents it leaves in the range and the offset of the returned iterator `ch_begin`. A failed
`assert` and a write past `last` have no result. -/
def convex_hull_partition {α : Type} (cw : α → α → α → Bool) (lt : α → α → Bool) (d : α)
    (pts : List α) : Option (List α × Nat) := do
  if ¬ is_sorted lt pts then none
  let range := StdVector.of_list d pts
  let ch ← partition_chains cw d pts
  let lhull := ch.1
  let uhull := ch.2
  let tmp := set_difference lt pts lhull
  let inner := set_difference lt tmp uhull.reverse
  let range ← range.copy_in 0 inner
  let ch_begin := inner.length
  let range ← range.copy_in ch_begin lhull
  let ch_middle := ch_begin + lhull.length
  let range ← range.copy_in ch_middle uhull
  let ch_end := ch_middle + uhull.length
  if ch_end ≠ range.size then none
  pure (range.toList, ch_begin)

/-- What the inner loop of `make_convex_set` leaves of the stack `st` (top first) when the
next point is `x`. -/
def chainPop {α : Type} (cw : α → α → α → Bool) : List α → α → List α
  | q :: p :: rest, x => if cw p q x then chainPop cw (p :: rest) x else q :: p :: rest
  | st, _ => st

/-- The stack (top first) after one iteration of the `for` loop of `make_convex_set`. -/
def chainPush {α : Type} (cw : α → α → α → Bool) (st : List α) (x : α) : List α :=
  x :: chainPop cw st x

/-- The stack (top first) that `make_convex_set` builds from the sequence `pts`. -/
def chain {α : Type} (cw : α → α → α → Bool) (pts : List α) : List α :=
  pts.foldl (chainPush cw) []

/-- The buffer holds the stack `st` (top first) from index `first` upwards. -/
def Stk {α : Type} (buf : StdVector α) (first : Nat) : List α → Prop
  | [] => True
  | q :: st => buf.data (first + st.length) = q ∧ Stk buf first st

/-- The buffer holds the sequence `l` from index `i` upwards. -/
def Seg {α : Type} (buf : StdVector α) : Nat → List α → Prop
  | _, [] => True
  | i, x :: xs => buf.data i = x ∧ Seg buf (i + 1) xs

/-- A point with integer coordinates. -/
abbrev Point : Type := Int × Int

/-- The cross product of `q - p` and `r - p`. -/
def cross (p q r : Point) : Int :=
  (q.1 - p.1) * (r.2 - p.2) - (q.2 - p.2) * (r.1 - p.1)

/-- The strict clockwise orientation test. -/
def cw_strict (p q r : Point) : Bool := decide (cross p q r < 0)

/-- The lexicographic order of points, `operator<` on pairs. -/
def LexLt (p q : Point) : Prop := p.1 < q.1 ∨ (p.1 = q.1 ∧ p.2 < q.2)

instance (p q : Point) : Decidable (LexLt p q) := by unfold LexLt; infer_instance

/-- The order `LexLt` as a boolean function. -/
def lexLt (p q : Point) : Bool := decide (LexLt p q)

/-- The point `x` of `pts` is a vertex of the convex hull of `pts`: some linear function with
integer coefficients `u` takes over `pts` its largest value at `x` and nowhere else. -/
def IsVertex (pts : List Point) (x : Point) : Prop :=
  x ∈ pts ∧ ∃ u : Point, ∀ y ∈ pts, y ≠ x → u.1 * (y.1 - x.1) + u.2 * (y.2 - x.2) < 0

/-- What the correctness of the chain needs of the order in which the points arrive: a strict
total order in which three turns combine as they do for points sorted lexicographically. -/
structure TurnOrder (lt : Point → Point → Prop) : Prop where
  irrefl : ∀ a, ¬ lt a a
  trans : ∀ a b c, lt a b → lt b c → lt a c
  tri : ∀ a b, lt a b ∨ a = b ∨ lt b a
  t1 : ∀ p q r x, lt p q → lt p r → (x = p ∨ lt p x) → cross p q r < 0 → 0 ≤ cross p q x →
    0 ≤ cross p r x
  t2 : ∀ p q r x, lt x q → lt p q → lt q r → 0 ≤ cross p q x → 0 ≤ cross p q r →
    0 ≤ cross q r x
  t3 : ∀ a b c r, lt a b → lt b c → lt b r → 0 ≤ cross a b c → 0 ≤ cross b c r →
    0 ≤ cross a b r

/-- What holds of the stack `st` (top first) of `make_convex_set` once the points `pts` have
been handled: it is a decreasing selection of them from the last down to the first, and every
point handled lies on or to the left of the line through any two neighbours of the stack. -/
structure HullInv (lt : Point → Point → Prop) (pts st : List Point) : Prop where
  sorted : st.Pairwise (fun b a => lt a b)
  sub : ∀ y ∈ st, y ∈ pts
  top : ∀ t, st.head? = some t → ∀ x ∈ pts, x = t ∨ lt x t
  bot : ∀ b, st.getLast? = some b → ∀ x ∈ pts, x = b ∨ lt b x
  edges : st.Chain' (fun b a => ∀ x ∈ pts, 0 ≤ cross a b x)
  nonempty : pts ≠ [] → st ≠ []

end Djp

namespace Djp

/-! ### Loops -/

theorem foldlM_range_inv {σ : Type} (f : σ → Nat → Option σ) (P : Nat → σ → Prop) (n : Nat)
    (s0 : σ) (h0 : P 0 s0)
    (hstep : ∀ i s, i < n → P i s → ∃ s', f s i = some s' ∧ P (i + 1) s') :
    ∃ s', (List.range n).foldlM f s0 = some s' ∧ P n s' := by
  induction n with
  | zero => exact ⟨s0, by simp, h0⟩
  | succ m ih =>
    obtain ⟨s1, h1, hP1⟩ := ih (fun i s hi hP => hstep i s (Nat.lt_succ_of_lt hi) hP)
    obtain ⟨s2, h2, hP2⟩ := hstep m s1 (Nat.lt_succ_self m) hP1
    refine ⟨s2, ?_, hP2⟩
    rw [List.range_succ, List.foldlM_append, h1]
    simp [h2]

theorem foldlM_list_inv {σ α : Type} (f : σ → α → Option σ) (P : List α → σ → Prop)
    (l : List α) (s0 : σ) (h0 : P [] s0)
    (hstep : ∀ pre x suf s, l = pre ++ x :: suf → P pre s →
      ∃ s', f s x = some s' ∧ P (pre ++ [x]) s') :
    ∃ s', l.foldlM f s0 = some s' ∧ P l s' := by
  suffices h : ∀ (suf pre : List α) (s : σ), l = pre ++ suf → P pre s →
      ∃ s', suf.foldlM f s = some s' ∧ P l s' from h l [] s0 rfl h0
  intro suf
  induction suf with
  | nil =>
    intro pre s hl hP
    refine ⟨s, by simp, ?_⟩
    rw [hl, List.append_nil]; exact hP
  | cons x suf ih =>
    intro pre s hl hP
    obtain ⟨s1, h1, hP1⟩ := hstep pre x suf s hl hP
    obtain ⟨s2, h2, hP2⟩ := ih (pre ++ [x]) s1 (by simp [hl]) hP1
    exact ⟨s2, by simp [h1, h2], hP2⟩

/-! ### Checked accesses -/

theorem StdVector.get?_eq {α : Type} (v : StdVector α) {i : Nat} (h : i < v.size) :
    v.get? i = some (v.data i) := by simp [StdVector.get?, h]

theorem StdVector.set?_eq {α : Type} (v : StdVector α) {i : Nat} (x : α) (h : i < v.size) :
    v.set? i x = some ⟨v.size, fun j => if j = i then x else v.data j⟩ := by
  simp [StdVector.set?, h]

theorem matrix.get?_data {α : Type} (m : matrix α) {i j : Nat} (hi : i < m.rows) (hj : j < m.cols) :
    m.get? i j = some (m.data i j) := by simp [matrix.get?, hi, hj]

theorem matrix.set?_data {α : Type} (m : matrix α) {i j : Nat} (x : α) (hi : i < m.rows)
    (hj : j < m.cols) :
    m.set? i j x = some ⟨m.rows, m.cols, fun a b => if a = i ∧ b = j then x else m.data a b⟩ := by
  simp [matrix.set?, hi, hj]

/-! ### Walks -/

theorem pathWeight_nil (w : StdVector Int) : pathWeight w [] = 0 := rfl

theorem pathWeight_cons (w : StdVector Int) (e : Nat) (p : List Nat) :
    pathWeight w (e :: p) = w.data e + pathWeight w p := by simp [pathWeight]

theorem pathWeight_append (w : StdVector Int) (p q : List Nat) :
    pathWeight w (p ++ q) = pathWeight w p + pathWeight w q := by simp [pathWeight]

theorem IsPath.source_lt {g : Graph} (hg : g.WF) : ∀ {u : Nat} {p : List Nat} {v : Nat},
    IsPath g u p v → u < g.num_vertices
  | _, [], _, h => h.2
  | _, e :: _, _, h => by
    have := (hg.2.1 e h.1).1
    rw [h.2.1] at this; exact this

theorem IsPath.target_lt {g : Graph} (hg : g.WF) : ∀ {u : Nat} {p : List Nat} {v : Nat},
    IsPath g u p v → v < g.num_vertices
  | _, [], _, h => h.1 ▸ h.2
  | _, _ :: _, _, h => IsPath.target_lt hg h.2.2

theorem IsPath.refl {g : Graph} {u : Nat} (h : u < g.num_vertices) : IsPath g u [] u := ⟨rfl, h⟩

theorem IsPath.single {g : Graph} (hg : g.WF) {e : Nat} (h : e < g.num_edges) :
    IsPath g (g.source e) [e] (g.target e) := ⟨h, rfl, rfl, (hg.2.1 e h).2.1⟩

theorem IsPath.append {g : Graph} : ∀ {u : Nat} {p : List Nat} {v : Nat} {q : List Nat} {x : Nat},
    IsPath g u p v → IsPath g v q x → IsPath g u (p ++ q) x
  | _, [], _, _, _, h, h2 => by have := h.1; subst this; simpa using h2
  | _, e :: p, _, _, _, h, h2 => ⟨h.1, h.2.1, IsPath.append h.2.2 h2⟩

theorem IsPath.edges_lt {g : Graph} : ∀ {u : Nat} {p : List Nat} {v : Nat},
    IsPath g u p v → ∀ e ∈ p, e < g.num_edges
  | _, [], _, _ => by simp
  | _, e :: p, _, h => by
    intro x hx
    rcases List.mem_cons.1 hx with rfl | hx
    · exact h.1
    · exact IsPath.edges_lt h.2.2 x hx

/-- A walk can be cut at any vertex it passes through. -/
theorem IsPath.split_at {g : Graph} (hg : g.WF) : ∀ {u : Nat} {p : List Nat} {v x : Nat},
    IsPath g u p v → x ∈ pathVertices g u p →
    ∃ p1 p2, p = p1 ++ p2 ∧ IsPath g u p1 x ∧ IsPath g x p2 v
  | u, [], v, x, h, hx => by
    simp [pathVertices] at hx
    subst hx
    exact ⟨[], [], rfl, IsPath.refl h.2, h⟩
  | u, e :: p, v, x, h, hx => by
    simp only [pathVertices, List.map_cons, List.mem_cons] at hx
    rcases hx with rfl | hx
    · exact ⟨[], e :: p, rfl, IsPath.refl (IsPath.source_lt hg h), h⟩
    · have hx' : x ∈ pathVertices g (g.target e) p := by
        simpa [pathVertices] using hx
      obtain ⟨p1, p2, hp, h1, h2⟩ := IsPath.split_at hg h.2.2 hx'
      exact ⟨e :: p1, p2, by simp [hp], ⟨h.1, h.2.1, h1⟩, h2⟩

theorem pathVertices_append {g : Graph} : ∀ {u : Nat} {p : List Nat} {x : Nat} (q : List Nat),
    IsPath g u p x → pathVertices g u (p ++ q) = (pathVertices g u p).dropLast ++ pathVertices g x q
  | u, [], x, q, h => by have := h.1; subst this; simp [pathVertices]
  | u, e :: p, x, q, h => by
    have ih := pathVertices_append q h.2.2
    simp only [pathVertices, List.cons_append, List.map_cons, List.map_append] at ih ⊢
    rw [List.dropLast_cons_of_ne_nil (by simp)]
    simp only [List.cons_append, List.cons.injEq, true_and]
    exact ih

end Djp

namespace Djp

theorem interior_nil (g : Graph) : interior g [] = [] := rfl

theorem interior_single (g : Graph) (e : Nat) : interior g [e] = [] := rfl

theorem interior_cons (g : Graph) (e : Nat) {p : List Nat} (hp : p ≠ []) :
    interior g (e :: p) = g.target e :: interior g p := by
  simp [interior, List.dropLast_cons_of_ne_nil, hp]

theorem interior_subset_cons (g : Graph) (e : Nat) (p : List Nat) :
    ∀ x ∈ interior g p, x ∈ interior g (e :: p) := by
  intro x hx
  cases p with
  | nil => simp [interior] at hx
  | cons a p => rw [interior_cons g e (by simp)]; exact List.mem_cons_of_mem _ hx

theorem map_target_eq {g : Graph} : ∀ {u : Nat} {p : List Nat} {v : Nat},
    IsPath g u p v → p ≠ [] → p.map g.target = interior g p ++ [v]
  | _, [], _, _, hp => absurd rfl hp
  | _, [e], v, h, _ => by
    have := h.2.2.1
    simp [interior, this]
  | _, e :: e2 :: p, v, h, _ => by
    have ih := map_target_eq h.2.2 (by simp)
    rw [interior_cons g e (by simp), List.map_cons, ih]
    simp

theorem interior_append {g : Graph} {u : Nat} {p : List Nat} {x : Nat} {q : List Nat}
    (h : IsPath g u p x) (hp : p ≠ []) (hq : q ≠ []) :
    interior g (p ++ q) = interior g p ++ x :: interior g q := by
  unfold interior
  rw [List.map_append, List.dropLast_append_of_ne_nil _ (by simpa using hq), map_target_eq h hp]
  simp [interior]

theorem interior_append_right (g : Graph) (p q : List Nat) :
    ∀ x ∈ interior g q, x ∈ interior g (p ++ q) := by
  intro x hx
  induction p with
  | nil => simpa using hx
  | cons e p ih => exact interior_subset_cons g e _ x ih

theorem pathVertices_eq {g : Graph} {u : Nat} {p : List Nat} {v : Nat}
    (h : IsPath g u p v) (hp : p ≠ []) : pathVertices g u p = u :: (interior g p ++ [v]) := by
  simp [pathVertices, map_target_eq h hp]

theorem interior_subset_vertices (g : Graph) (u : Nat) (p : List Nat) :
    ∀ x ∈ interior g p, x ∈ pathVertices g u p := by
  intro x hx
  exact List.mem_cons_of_mem _ (List.dropLast_subset _ hx)

theorem IsSimple.of_nil (g : Graph) (u : Nat) : IsSimple g u [] := by
  simp [IsSimple, pathVertices]

theorem Via.via_nil (g : Graph) (k : Nat) : Via g k [] := by
  intro x hx; simp [interior] at hx

theorem Via.via_single (g : Graph) (k e : Nat) : Via g k [e] := by
  intro x hx; simp [interior] at hx

theorem Via.mono {g : Graph} {k k' : Nat} {p : List Nat} (h : Via g k p) (hk : k ≤ k') :
    Via g k' p := fun x hx => Nat.lt_of_lt_of_le (h x hx) hk

theorem Via.cons {g : Graph} {k e : Nat} {q : List Nat}
    (h : Via g k q) (hv : q ≠ [] → g.target e < k) : Via g k (e :: q) := by
  cases q with
  | nil => exact Via.via_single g k e
  | cons a q =>
    intro x hx
    rw [interior_cons g e (by simp)] at hx
    rcases List.mem_cons.1 hx with rfl | hx
    · exact hv (by simp)
    · exact h x hx

theorem Via.concat {g : Graph} {k : Nat} {u : Nat} {p : List Nat} {x : Nat} {q : List Nat}
    (hp : Via g k p) (hq : Via g k q) (h : IsPath g u p x) (hx : x < k) : Via g k (p ++ q) := by
  by_cases hp0 : p = []
  · subst hp0; simpa using hq
  by_cases hq0 : q = []
  · subst hq0; simpa using hp
  intro y hy
  rw [interior_append h hp0 hq0] at hy
  rcases List.mem_append.1 hy with hy | hy
  · exact hp y hy
  · rcases List.mem_cons.1 hy with rfl | hy
    · exact hx
    · exact hq y hy

/-- Removing cycles: without negative cycles every walk contains a simple path that is no
heavier and passes only through vertices of the walk. -/
theorem exists_simple {g : Graph} {w : StdVector Int} (hg : g.WF) (hn : NoNegCycle g w) :
    ∀ {u : Nat} {p : List Nat} {v : Nat}, IsPath g u p v →
    ∃ q, IsPath g u q v ∧ IsSimple g u q ∧ pathWeight w q ≤ pathWeight w p ∧
      ∀ x ∈ interior g q, x ∈ interior g p
  | u, [], v, h => ⟨[], h, IsSimple.of_nil g u, le_refl _, fun _ hx => hx⟩
  | u, e :: p, v, h => by
    obtain ⟨q, hq, hqs, hqw, hqi⟩ := exists_simple hg hn h.2.2
    by_cases hu : u ∈ pathVertices g (g.target e) q
    · obtain ⟨q1, q2, hqq, h1, h2⟩ := IsPath.split_at hg hq hu
      have hcyc : IsPath g u (e :: q1) u := ⟨h.1, h.2.1, h1⟩
      have hc := hn u _ hcyc
      rw [pathWeight_cons] at hc
      refine ⟨q2, h2, ?_, ?_, ?_⟩
      · have hv := pathVertices_append q2 h1
        rw [← hqq] at hv
        unfold IsSimple at hqs ⊢
        rw [hv] at hqs
        exact (List.nodup_append.1 hqs).2.1
      · rw [pathWeight_cons]
        rw [hqq, pathWeight_append] at hqw
        linarith
      · intro x hx
        apply interior_subset_cons
        apply hqi
        rw [hqq]
        exact interior_append_right g q1 q2 x hx
    · refine ⟨e :: q, ⟨h.1, h.2.1, hq⟩, ?_, ?_, ?_⟩
      · unfold IsSimple at hqs ⊢
        have : pathVertices g u (e :: q) = u :: pathVertices g (g.target e) q := by
          simp [pathVertices]
        rw [this]
        exact List.nodup_cons.2 ⟨hu, hqs⟩
      · rw [pathWeight_cons, pathWeight_cons]; linarith
      · intro x hx
        cases q with
        | nil => simp [interior] at hx
        | cons a q =>
          have hp0 : p ≠ [] := by
            rintro rfl
            have ht : g.target e = v := h.2.2.1
            have hmem : v ∈ (a :: q).map g.target := by
              rw [map_target_eq hq (by simp)]; simp
            unfold IsSimple pathVertices at hqs
            rw [ht] at hqs
            exact (List.nodup_cons.1 hqs).1 hmem
          rw [interior_cons g e (by simp)] at hx
          rw [interior_cons g e hp0]
          rcases List.mem_cons.1 hx with rfl | hx
          · exact List.mem_cons_self _ _
          · exact List.mem_cons_of_mem _ (hqi x hx)

/-- A simple path splits at any of its inner vertices into two simple paths that avoid it. -/
theorem simple_split {g : Graph} (hg : g.WF) {i : Nat} {p : List Nat} {j k : Nat}
    (h : IsPath g i p j) (hs : IsSimple g i p) (hk : k ∈ interior g p) :
    ∃ p1 p2, p = p1 ++ p2 ∧ IsPath g i p1 k ∧ IsPath g k p2 j ∧
      IsSimple g i p1 ∧ IsSimple g k p2 ∧
      (∀ x ∈ interior g p1, x ∈ interior g p ∧ x ≠ k) ∧
      (∀ x ∈ interior g p2, x ∈ interior g p ∧ x ≠ k) := by
  have hp0 : p ≠ [] := by rintro rfl; simp [interior] at hk
  obtain ⟨p1, p2, hpp, h1, h2⟩ := IsPath.split_at hg h (interior_subset_vertices g i p k hk)
  have hv := pathVertices_append p2 h1
  rw [← hpp] at hv
  have hnd : (pathVertices g i p).Nodup := hs
  have hfull := pathVertices_eq h hp0
  have hp1 : p1 ≠ [] := by
    rintro rfl
    have hik : i = k := h1.1
    rw [hfull, hik] at hnd
    exact (List.nodup_cons.1 hnd).1 (List.mem_append_left _ hk)
  have hp2 : p2 ≠ [] := by
    rintro rfl
    have hkj : k = j := h2.1
    rw [hfull, ← hkj] at hnd
    have := (List.nodup_cons.1 hnd).2
    rw [List.nodup_append] at this
    exact this.2.2 hk (by simp)
  rw [hv] at hnd
  have hd1 : (pathVertices g i p1).dropLast = i :: interior g p1 := by
    rw [pathVertices_eq h1 hp1]
    rw [← List.cons_append, List.dropLast_append_of_ne_nil _ (by simp)]
    simp
  rw [hd1] at hnd
  obtain ⟨hndl, hndr, hdisj⟩ := List.nodup_append.1 hnd
  have hkr : k ∈ pathVertices g k p2 := by simp [pathVertices]
  have hint : interior g p = interior g p1 ++ k :: interior g p2 := by
    rw [hpp]; exact interior_append h1 hp1 hp2
  refine ⟨p1, p2, hpp, h1, h2, ?_, hndr, ?_, ?_⟩
  · unfold IsSimple
    rw [pathVertices_eq h1 hp1, ← List.cons_append]
    rw [List.nodup_append]
    refine ⟨hndl, by simp, ?_⟩
    intro a ha hb
    simp at hb
    subst hb
    exact hdisj ha hkr
  · intro x hx
    refine ⟨by rw [hint]; exact List.mem_append_left _ hx, ?_⟩
    rintro rfl
    exact hdisj (List.mem_cons_of_mem _ hx) hkr
  · intro x hx
    refine ⟨by rw [hint]; exact List.mem_append_right _ (List.mem_cons_of_mem _ hx), ?_⟩
    rintro rfl
    unfold pathVertices at hndr
    exact (List.nodup_cons.1 hndr).1 (List.dropLast_subset _ hx)

end Djp

namespace Djp

theorem not_fwImproved_row {inf : Int} {n k : Nat} {o : FwState} (hz : o.dist.data k k = 0)
    (b : Nat) : ¬ fwImproved inf n k o k b := by
  rintro ⟨-, -, -, -, h⟩
  rw [hz] at h; omega

theorem not_fwImproved_col {inf : Int} {n k : Nat} {o : FwState} (hz : o.dist.data k k = 0)
    (a : Nat) : ¬ fwImproved inf n k o a k := by
  rintro ⟨-, -, -, -, h⟩
  rw [hz] at h; omega

theorem fwPart_zero (inf : Int) (n k : Nat) (o : FwState) : fwPart inf n k o 0 0 = o := by
  simp [fwPart]

theorem fwPart_row_end (inf : Int) (n k : Nat) (o : FwState) (i : Nat) :
    fwPart inf n k o i n = fwPart inf n k o (i + 1) 0 := by
  unfold fwPart
  have key : ∀ a b, ((a < i ∨ (a = i ∧ b < n)) ∧ fwImproved inf n k o a b) ↔
      ((a < i + 1 ∨ (a = i + 1 ∧ b < 0)) ∧ fwImproved inf n k o a b) := by
    intro a b
    constructor
    · rintro ⟨h1, h2⟩
      exact ⟨Or.inl (by omega), h2⟩
    · rintro ⟨h1, h2⟩
      refine ⟨?_, h2⟩
      have hb : b < n := h2.2.1
      omega
  simp only [key]

theorem fwPart_all (inf : Int) (n k : Nat) (o : FwState) :
    fwPart inf n k o n 0 = fwSync inf n k o := by
  unfold fwPart fwSync
  have key : ∀ a b, ((a < n ∨ (a = n ∧ b < 0)) ∧ fwImproved inf n k o a b) ↔
      fwImproved inf n k o a b := by
    intro a b
    constructor
    · rintro ⟨_, h2⟩; exact h2
    · intro h2; exact ⟨Or.inl h2.1, h2⟩
  simp only [key]

theorem fwPart_skip_row {inf : Int} {n k : Nat} {o : FwState} {i : Nat}
    (h : o.dist.data i k = inf) : fwPart inf n k o i 0 = fwPart inf n k o (i + 1) 0 := by
  unfold fwPart
  have key : ∀ a b, ((a < i ∨ (a = i ∧ b < 0)) ∧ fwImproved inf n k o a b) ↔
      ((a < i + 1 ∨ (a = i + 1 ∧ b < 0)) ∧ fwImproved inf n k o a b) := by
    intro a b
    constructor
    · rintro ⟨h1, h2⟩
      exact ⟨Or.inl (by omega), h2⟩
    · rintro ⟨h1, h2⟩
      refine ⟨?_, h2⟩
      have hne : a ≠ i := by
        rintro rfl
        exact h2.2.2.1 h
      omega
  simp only [key]

theorem fw_relax_part {inf : Int} {n k i j : Nat} {o : FwState} (hd : FwDims n o)
    (hk : k < n) (hi : i < n) (hj : j < n) (hz : o.dist.data k k = 0)
    (hik : o.dist.data i k ≠ inf) :
    fw_relax inf k i (fwPart inf n k o i j) j = some (fwPart inf n k o i (j + 1)) := by
  obtain ⟨hd1, hd2, hd3, hd4⟩ := hd
  have hkj : (fwPart inf n k o i j).dist.data k j = o.dist.data k j := by
    simp [fwPart, not_fwImproved_row hz]
  have hik2 : (fwPart inf n k o i j).dist.data i k = o.dist.data i k := by
    simp [fwPart, not_fwImproved_col hz]
  have hij : (fwPart inf n k o i j).dist.data i j = o.dist.data i j := by
    simp [fwPart]
  have hnik : (fwPart inf n k o i j).next.data i k = o.next.data i k := by
    simp [fwPart, not_fwImproved_col hz]
  have r1 : (fwPart inf n k o i j).dist.rows = n := hd1
  have r2 : (fwPart inf n k o i j).dist.cols = n := hd2
  have r3 : (fwPart inf n k o i j).next.rows = n := hd3
  have r4 : (fwPart inf n k o i j).next.cols = n := hd4
  have g1 := matrix.get?_data (fwPart inf n k o i j).dist (i := k) (j := j) (by omega) (by omega)
  have g2 := matrix.get?_data (fwPart inf n k o i j).dist (i := i) (j := k) (by omega) (by omega)
  have g3 := matrix.get?_data (fwPart inf n k o i j).dist (i := i) (j := j) (by omega) (by omega)
  have g4 := matrix.get?_data (fwPart inf n k o i j).next (i := i) (j := k) (by omega) (by omega)
  have s1 : ∀ x, (fwPart inf n k o i j).dist.set? i j x = _ :=
    fun x => matrix.set?_data _ x (by omega) (by omega)
  have s2 : ∀ x, (fwPart inf n k o i j).next.set? i j x = _ :=
    fun x => matrix.set?_data _ x (by omega) (by omega)
  unfold fw_relax
  simp only [g1, g2, g3, g4, s1, s2, Option.some_bind, Option.pure_def, Option.bind_eq_bind,
    hkj, hik2, hij, hnik]
  have key : ∀ a b, ((a < i ∨ (a = i ∧ b < j + 1)) ∧ fwImproved inf n k o a b) ↔
      ((a = i ∧ b = j) ∧ fwImproved inf n k o i j) ∨
      (¬ (a = i ∧ b = j) ∧ (a < i ∨ (a = i ∧ b < j)) ∧ fwImproved inf n k o a b) := by
    intro a b
    constructor
    · rintro ⟨h1, h2⟩
      by_cases hab : a = i ∧ b = j
      · left; obtain ⟨rfl, rfl⟩ := hab; exact ⟨⟨rfl, rfl⟩, h2⟩
      · right; refine ⟨hab, ?_, h2⟩; omega
    · rintro (⟨⟨rfl, rfl⟩, h2⟩ | ⟨_, h1, h2⟩)
      · exact ⟨Or.inr ⟨rfl, Nat.lt_succ_self _⟩, h2⟩
      · refine ⟨?_, h2⟩; omega
  by_cases h1 : o.dist.data k j = inf
  · have hni : ¬ fwImproved inf n k o i j := fun h => h.2.2.2.1 h1
    simp only [h1, ne_eq, not_true_eq_false, if_false]
    congr 1
    unfold fwPart
    simp only [key, hni, and_false, false_or]
    congr 1 <;> congr 1 <;> funext a b <;> by_cases hab : a = i ∧ b = j <;> simp [hab]
  · by_cases h2 : o.dist.data i k + o.dist.data k j < o.dist.data i j
    · have him : fwImproved inf n k o i j := ⟨hi, hj, hik, h1, h2⟩
      simp only [h1, ne_eq, not_false_eq_true, if_true, h2]
      congr 1
      unfold fwPart
      simp only [key, him, and_true]
      congr 1 <;> congr 1 <;> funext a b <;> by_cases hab : a = i ∧ b = j <;> simp [hab]
    · have hni : ¬ fwImproved inf n k o i j := fun h => h2 h.2.2.2.2
      simp only [h1, ne_eq, not_false_eq_true, if_true, h2, if_false]
      congr 1
      unfold fwPart
      simp only [key, hni, and_false, false_or]
      congr 1 <;> congr 1 <;> funext a b <;> by_cases hab : a = i ∧ b = j <;> simp [hab]
  
theorem fw_row_part {inf : Int} {n k i : Nat} {o : FwState} (hd : FwDims n o)
    (hk : k < n) (hi : i < n) (hz : o.dist.data k k = 0) :
    fw_row inf n k (fwPart inf n k o i 0) i = some (fwPart inf n k o (i + 1) 0) := by
  have hik2 : (fwPart inf n k o i 0).dist.data i k = o.dist.data i k := by
    simp [fwPart, not_fwImproved_col hz]
  have g2 := matrix.get?_data (fwPart inf n k o i 0).dist (i := i) (j := k)
    (by have := hd.1; show o.dist.rows > i; omega) (by have := hd.2.1; show o.dist.cols > k; omega)
  unfold fw_row
  simp only [g2, Option.some_bind, Option.bind_eq_bind, hik2]
  by_cases h : o.dist.data i k = inf
  · simp only [h, ne_eq, not_true_eq_false, if_false, Option.pure_def]
    rw [fwPart_skip_row h]
  · simp only [h, ne_eq, not_false_eq_true, if_true]
    obtain ⟨s', hs', hP⟩ := foldlM_range_inv (fw_relax inf k i)
      (fun j st => st = fwPart inf n k o i j) n (fwPart inf n k o i 0) rfl
      (fun j st hj hst => ⟨_, by rw [hst]; exact fw_relax_part hd hk hi hj hz h, rfl⟩)
    rw [hs', hP, fwPart_row_end]

/-- Inside a round the in-place updates never feed back: the round computes `fwSync`. -/
theorem fw_round_eq {inf : Int} {n k : Nat} {o : FwState} (hd : FwDims n o)
    (hk : k < n) (hz : o.dist.data k k = 0) :
    fw_round inf n o k = some (fwSync inf n k o) := by
  obtain ⟨s', hs', hP⟩ := foldlM_range_inv (fw_row inf n k)
    (fun i st => st = fwPart inf n k o i 0) n o (fwPart_zero inf n k o).symm
    (fun i st hi hst => ⟨_, by rw [hst]; exact fw_row_part hd hk hi hz, rfl⟩)
  unfold fw_round
  rw [hs', hP, fwPart_all]

end Djp

namespace Djp

variable {g : Graph} {w : StdVector Int} {inf : Int}

theorem fwSync_dist (n k : Nat) (o : FwState) (i j : Nat) :
    (fwSync inf n k o).dist.data i j =
      if fwImproved inf n k o i j then o.dist.data i k + o.dist.data k j else o.dist.data i j :=
  rfl

theorem fwSync_next (n k : Nat) (o : FwState) (i j : Nat) :
    (fwSync inf n k o).next.data i j =
      if fwImproved inf n k o i j then o.next.data i k else o.next.data i j :=
  rfl

theorem fwSync_dist_le (n k : Nat) (o : FwState) (i j : Nat) :
    (fwSync inf n k o).dist.data i j ≤ o.dist.data i j := by
  rw [fwSync_dist]
  split
  · next h => exact le_of_lt h.2.2.2.2
  · exact le_refl _

/-- Between rounds an entry bounds every walk through low vertices, simple or not, and is
finite as soon as such a walk exists. -/
theorem FwDistLevel.compl_walk {k : Nat} {st : FwState} (hg : g.WF) (hn : NoNegCycle g w)
    (hinf : InfBound g w inf) (hl : FwDistLevel g w inf k st) {i j : Nat} {p : List Nat}
    (h : IsPath g i p j) (hv : Via g k p) :
    st.dist.data i j ≤ pathWeight w p ∧ st.dist.data i j < inf := by
  obtain ⟨q, hq, hqs, hqw, hqi⟩ := exists_simple hg hn h
  have h1 := hl.compl i j q hq hqs (fun x hx => hv x (hqi x hx))
  have h2 := hinf i q j hq hqs
  constructor <;> linarith

/-- An entry that round `k` improves is, before the round, still above a walk through `k`. -/
theorem FwDistLevel.improved_walks {k : Nat} {o : FwState} (hk : k < g.num_vertices)
    (hl : FwDistLevel g w inf k o) {i j : Nat} (h : fwImproved inf g.num_vertices k o i j) :
    ∃ p1 p2, IsPath g i p1 k ∧ IsPath g k p2 j ∧ Via g k p1 ∧ Via g k p2 ∧
      pathWeight w p1 = o.dist.data i k ∧ pathWeight w p2 = o.dist.data k j := by
  obtain ⟨hi, hj, h1, h2, _⟩ := h
  obtain ⟨p1, hp1, hv1, hw1⟩ := hl.real i k hi hk h1
  obtain ⟨p2, hp2, hv2, hw2⟩ := hl.real k j hk hj h2
  exact ⟨p1, p2, hp1, hp2, hv1, hv2, hw1, hw2⟩

theorem FwDistLevel.not_improved_diag {k : Nat} {o : FwState} (hn : NoNegCycle g w)
    (hk : k < g.num_vertices) (hl : FwDistLevel g w inf k o) {v : Nat}
    (hv : v < g.num_vertices) : ¬ fwImproved inf g.num_vertices k o v v := by
  intro h
  obtain ⟨p1, p2, hp1, hp2, -, -, hw1, hw2⟩ := hl.improved_walks hk h
  have hc := hn v _ (hp1.append hp2)
  rw [pathWeight_append, hw1, hw2] at hc
  have := h.2.2.2.2
  rw [hl.diag v hv] at this
  omega

theorem FwDistLevel.dist_step {k : Nat} {o : FwState} (hg : g.WF) (hn : NoNegCycle g w)
    (hinf : InfBound g w inf) (hk : k < g.num_vertices) (hl : FwDistLevel g w inf k o) :
    FwDistLevel g w inf (k + 1) (fwSync inf g.num_vertices k o) := by
  refine ⟨hl.dims, ?_, ?_, ?_, ?_⟩
  · intro v hv
    rw [fwSync_dist, if_neg (hl.not_improved_diag hn hk hv)]
    exact hl.diag v hv
  · intro i j
    exact le_trans (fwSync_dist_le _ _ _ _ _) (hl.le_inf i j)
  · intro i j hi hj hne
    rw [fwSync_dist] at hne ⊢
    by_cases h : fwImproved inf g.num_vertices k o i j
    · rw [if_pos h]
      obtain ⟨p1, p2, hp1, hp2, hv1, hv2, hw1, hw2⟩ := hl.improved_walks hk h
      refine ⟨p1 ++ p2, hp1.append hp2, ?_, ?_⟩
      · exact Via.concat (hv1.mono (Nat.le_succ k)) (hv2.mono (Nat.le_succ k)) hp1
          (Nat.lt_succ_self k)
      · rw [pathWeight_append, hw1, hw2]
    · rw [if_neg h] at hne ⊢
      obtain ⟨p, hp, hv, hw⟩ := hl.real i j hi hj hne
      exact ⟨p, hp, hv.mono (Nat.le_succ k), hw⟩
  · intro i j p hp hs hv
    by_cases hkp : k ∈ interior g p
    · obtain ⟨p1, p2, hpp, h1, h2, hs1, hs2, hi1, hi2⟩ := simple_split hg hp hs hkp
      have hv1 : Via g k p1 := fun x hx => by
        have := hv x (hi1 x hx).1
        have := (hi1 x hx).2
        omega
      have hv2 : Via g k p2 := fun x hx => by
        have := hv x (hi2 x hx).1
        have := (hi2 x hx).2
        omega
      have c1 := hl.compl i k p1 h1 hs1 hv1
      have c2 := hl.compl k j p2 h2 hs2 hv2
      have b1 := hinf i p1 k h1 hs1
      have b2 := hinf k p2 j h2 hs2
      rw [hpp, pathWeight_append, fwSync_dist]
      split
      · linarith
      · next hni =>
        by_contra hlt
        apply hni
        exact ⟨hp.source_lt hg, hp.target_lt hg, by omega, by omega, by omega⟩
    · have hv' : Via g k p := fun x hx => by
        have := hv x hx
        have : x ≠ k := fun h => hkp (h ▸ hx)
        omega
      exact le_trans (fwSync_dist_le _ _ _ _ _) (hl.compl i j p hp hs hv')

end Djp

namespace Djp

variable {g : Graph} {w : StdVector Int} {inf : Int}

/-- If round `k` improves `(x, j)` and the route from `x` to `k` starts at `nx ≠ k`, the round
improves `(nx, j)` as well. -/
theorem fw_improved_next {k : Nat} {o : FwState} (hg : g.WF) (hn : NoNegCycle g w)
    (hinf : InfBound g w inf) (hk : k < g.num_vertices) (hl : FwDistLevel g w inf k o)
    (hN : FwNextLevel g w inf k o) {x j : Nat} (h : fwImproved inf g.num_vertices k o x j)
    (hxk : x ≠ k) (hnk : o.next.data x k ≠ k) :
    fwImproved inf g.num_vertices k o (o.next.data x k) j := by
  have hl' := hl.dist_step hg hn hinf hk
  obtain ⟨hx, hj, h1, h2, h3⟩ := h
  obtain ⟨e, he, hes, het, hlow, hfin, heq⟩ := hN.nxt x k hx hk hxk h1
  have hnx : o.next.data x k < g.num_vertices := het ▸ (hg.2.1 e he).2.1
  have hnlt : o.next.data x k < k := by omega
  by_contra hni
  have hle : o.dist.data (o.next.data x k) j ≤ o.dist.data (o.next.data x k) k + o.dist.data k j := by
    by_contra hlt
    exact hni ⟨hnx, hj, hfin, h2, by omega⟩
  obtain ⟨p1, hp1, hv1, hw1⟩ := hl.real _ k hnx hk hfin
  obtain ⟨p2, hp2, hv2, hw2⟩ := hl.real k j hk hj h2
  have hvia : Via g (k + 1) (p1 ++ p2) :=
    Via.concat (hv1.mono (Nat.le_succ k)) (hv2.mono (Nat.le_succ k)) hp1 (Nat.lt_succ_self k)
  have hs := (hl'.compl_walk hg hn hinf (hp1.append hp2) hvia).2
  rw [fwSync_dist, if_neg hni] at hs
  obtain ⟨q, hq, hvq, hwq⟩ := hl.real _ j hnx hj (ne_of_lt hs)
  have hpe : IsPath g x (e :: q) j := ⟨he, hes, het ▸ hq⟩
  have hve : Via g k (e :: q) := Via.cons hvq (fun _ => het ▸ hnlt)
  have := (hl.compl_walk hg hn hinf hpe hve).1
  rw [pathWeight_cons, hwq] at this
  omega

/-- The route from `k` to `j` is untouched by round `k`. -/
theorem fw_chain_from_k {k : Nat} {o : FwState} (hg : g.WF) (hn : NoNegCycle g w)
    (hk : k < g.num_vertices) (hl : FwDistLevel g w inf k o)
    (hN : FwNextLevel g w inf k o) {j : Nat} (hj : j < g.num_vertices) :
    ∀ x l, NextChain o.next.data j x l → x < g.num_vertices → o.dist.data x j ≠ inf →
      (∃ q, IsPath g k q x ∧ o.dist.data k j = pathWeight w q + o.dist.data x j) →
      NextChain (fwSync inf g.num_vertices k o).next.data j x l := by
  intro x l h
  induction h with
  | done => intro _ _ _; exact NextChain.done
  | @step u l hne _ ih =>
    intro hu hfin hq
    obtain ⟨q, hq, hqw⟩ := hq
    have hni : ¬ fwImproved inf g.num_vertices k o u j := by
      intro him
      obtain ⟨r, hr, -, hrw⟩ := hl.real u k hu hk him.2.2.1
      have hc := hn k _ (hq.append hr)
      rw [pathWeight_append, hrw] at hc
      have := him.2.2.2.2
      omega
    obtain ⟨e, he, hes, het, -, hfin2, heq⟩ := hN.nxt u j hu hj hne hfin
    have hnx : o.next.data u j < g.num_vertices := het ▸ (hg.2.1 e he).2.1
    have hnext : (fwSync inf g.num_vertices k o).next.data u j = o.next.data u j := by
      rw [fwSync_next, if_neg hni]
    refine NextChain.step hne ?_
    rw [hnext]
    refine ih hnx hfin2 ⟨q ++ [e], hq.append ?_, ?_⟩
    · have := IsPath.single hg he
      rw [hes, het] at this
      exact this
    · rw [pathWeight_append, pathWeight_cons, pathWeight_nil]
      omega

/-- An improved pair follows, after the round, its old route to `k` and then the route from
`k` to the target. -/
theorem fw_chain_improved {k : Nat} {o : FwState} (hg : g.WF) (hn : NoNegCycle g w)
    (hinf : InfBound g w inf) (hk : k < g.num_vertices) (hl : FwDistLevel g w inf k o)
    (hN : FwNextLevel g w inf k o) {j : Nat} :
    ∀ x l, NextChain o.next.data k x l → x < g.num_vertices →
      fwImproved inf g.num_vertices k o x j →
      ∃ l', NextChain (fwSync inf g.num_vertices k o).next.data j x l' := by
  intro x l h
  induction h with
  | done => intro _ him; exact absurd him (not_fwImproved_row (hl.diag k hk) j)
  | @step u l hne _ ih =>
    intro hu him
    have hj : j < g.num_vertices := him.2.1
    have huj : u ≠ j := by
      rintro rfl
      exact hl.not_improved_diag hn hk hu him
    have hnext : (fwSync inf g.num_vertices k o).next.data u j = o.next.data u k := by
      rw [fwSync_next, if_pos him]
    by_cases hnk : o.next.data u k = k
    · obtain ⟨l2, hl2⟩ := hN.chain k j hk hj him.2.2.2.1
      have := fw_chain_from_k hg hn hk hl hN hj k l2 hl2 hk him.2.2.2.1
        ⟨[], IsPath.refl hk, by rw [pathWeight_nil]; omega⟩
      refine ⟨u :: l2, NextChain.step huj ?_⟩
      rw [hnext, hnk]
      exact this
    · have him2 := fw_improved_next hg hn hinf hk hl hN him hne hnk
      obtain ⟨l', hl'⟩ := ih him2.1 him2
      refine ⟨u :: l', NextChain.step huj ?_⟩
      rw [hnext]
      exact hl'

theorem fw_chain_kept {k : Nat} {o : FwState} (hg : g.WF) (hn : NoNegCycle g w)
    (hinf : InfBound g w inf) (hk : k < g.num_vertices) (hl : FwDistLevel g w inf k o)
    (hN : FwNextLevel g w inf k o) {j : Nat} (hj : j < g.num_vertices) :
    ∀ x l, NextChain o.next.data j x l → x < g.num_vertices → o.dist.data x j ≠ inf →
      ∃ l', NextChain (fwSync inf g.num_vertices k o).next.data j x l' := by
  intro x l h
  induction h with
  | done => intro _ _; exact ⟨_, NextChain.done⟩
  | @step u l hne _ ih =>
    intro hu hfin
    by_cases him : fwImproved inf g.num_vertices k o u j
    · obtain ⟨l2, hl2⟩ := hN.chain u k hu hk him.2.2.1
      exact fw_chain_improved hg hn hinf hk hl hN u l2 hl2 hu him
    · obtain ⟨e, he, hes, het, -, hfin2, heq⟩ := hN.nxt u j hu hj hne hfin
      have hnx : o.next.data u j < g.num_vertices := het ▸ (hg.2.1 e he).2.1
      obtain ⟨l', hl'⟩ := ih hnx hfin2
      refine ⟨u :: l', NextChain.step hne ?_⟩
      rw [fwSync_next, if_neg him]
      exact hl'

theorem FwNextLevel.next_step {k : Nat} {o : FwState} (hg : g.WF) (hn : NoNegCycle g w)
    (hinf : InfBound g w inf) (hk : k < g.num_vertices) (hl : FwDistLevel g w inf k o)
    (hN : FwNextLevel g w inf k o) :
    FwNextLevel g w inf (k + 1) (fwSync inf g.num_vertices k o) := by
  have hl' := hl.dist_step hg hn hinf hk
  refine ⟨?_, ?_, ?_⟩
  · intro i j hi hj hij hfin
    by_cases him : fwImproved inf g.num_vertices k o i j
    · have hik : i ≠ k := by
        rintro rfl
        exact not_fwImproved_row (hl.diag i hk) j him
      obtain ⟨e, he, hes, het, hlow, hfin2, heq⟩ := hN.nxt i k hi hk hik him.2.2.1
      have hnext : (fwSync inf g.num_vertices k o).next.data i j = o.next.data i k := by
        rw [fwSync_next, if_pos him]
      have hdist : (fwSync inf g.num_vertices k o).dist.data i j =
          o.dist.data i k + o.dist.data k j := by
        rw [fwSync_dist, if_pos him]
      rw [hnext, hdist]
      refine ⟨e, he, hes, het, Or.inr (by omega), ?_⟩
      by_cases hnk : o.next.data i k = k
      · rw [hnk, fwSync_dist, if_neg (not_fwImproved_row (hl.diag k hk) j)]
        rw [hnk, hl.diag k hk] at heq
        exact ⟨him.2.2.2.1, by omega⟩
      · have him2 := fw_improved_next hg hn hinf hk hl hN him hik hnk
        rw [fwSync_dist, if_pos him2]
        have := him2.2.2.2.2
        have := hl.le_inf (o.next.data i k) j
        exact ⟨by omega, by omega⟩
    · have hnext : (fwSync inf g.num_vertices k o).next.data i j = o.next.data i j := by
        rw [fwSync_next, if_neg him]
      have hdist : (fwSync inf g.num_vertices k o).dist.data i j = o.dist.data i j := by
        rw [fwSync_dist, if_neg him]
      rw [hdist] at hfin
      obtain ⟨e, he, hes, het, hlow, hfin2, heq⟩ := hN.nxt i j hi hj hij hfin
      have hnx : o.next.data i j < g.num_vertices := het ▸ (hg.2.1 e he).2.1
      rw [hnext, hdist]
      refine ⟨e, he, hes, het, hlow.imp id (fun h => by omega), ?_⟩
      have hni2 : ¬ fwImproved inf g.num_vertices k o (o.next.data i j) j := by
        intro him2
        have hnj : o.next.data i j ≠ j := by
          intro h
          rw [h] at him2
          exact hl.not_improved_diag hn hk hj him2
        have hlt : o.next.data i j < k := by omega
        have hs : (fwSync inf g.num_vertices k o).dist.data (o.next.data i j) j <
            o.dist.data (o.next.data i j) j := by
          rw [fwSync_dist, if_pos him2]; exact him2.2.2.2.2
        have hb := hl.le_inf (o.next.data i j) j
        obtain ⟨q, hq, hvq, hwq⟩ := hl'.real _ j hnx hj (by omega)
        have hpe : IsPath g i (e :: q) j := ⟨he, hes, het ▸ hq⟩
        have hve : Via g (k + 1) (e :: q) := Via.cons hvq (fun _ => by rw [het]; omega)
        have := (hl'.compl_walk hg hn hinf hpe hve).1
        rw [pathWeight_cons, hwq, hdist] at this
        omega
      rw [fwSync_dist, if_neg hni2]
      exact ⟨hfin2, heq⟩
  · intro i j hi hj hij hd
    rw [fwSync_dist] at hd
    by_cases him : fwImproved inf g.num_vertices k o i j
    · rw [if_pos him] at hd
      have := him.2.2.2.2
      have := hl.le_inf i j
      omega
    · rw [if_neg him] at hd
      rw [fwSync_next, if_neg him]
      exact hN.none i j hi hj hij hd
  · intro i j hi hj hfin
    by_cases him : fwImproved inf g.num_vertices k o i j
    · obtain ⟨l2, hl2⟩ := hN.chain i k hi hk him.2.2.1
      exact fw_chain_improved hg hn hinf hk hl hN i l2 hl2 hi him
    · rw [fwSync_dist, if_neg him] at hfin
      obtain ⟨l2, hl2⟩ := hN.chain i j hi hj hfin
      exact fw_chain_kept hg hn hinf hk hl hN hj i l2 hl2 hi hfin

end Djp

namespace Djp

variable {g : Graph} {w : StdVector Int} {inf : Int}

theorem fw_init_diag_loop (n : Nat) (inf : Int) :
    ∃ st, (List.range n).foldlM fw_init_diag
        (FwState.mk (matrix.assign n n inf) (matrix.assign n n SIZE_MAX)) = some st ∧
      FwDims n st ∧ (∀ a b, st.next.data a b = SIZE_MAX) ∧
      ∀ a b, st.dist.data a b = if a = b ∧ a < n then 0 else inf := by
  have := foldlM_range_inv fw_init_diag
    (fun v st => FwDims n st ∧ (∀ a b, st.next.data a b = SIZE_MAX) ∧
      ∀ a b, st.dist.data a b = if a = b ∧ a < v then 0 else inf) n
    (FwState.mk (matrix.assign n n inf) (matrix.assign n n SIZE_MAX))
    ⟨⟨rfl, rfl, rfl, rfl⟩, fun _ _ => rfl, fun a b => by simp [matrix.assign]⟩
    (by
      rintro v st hv ⟨hd, hnx, hdist⟩
      have s1 := matrix.set?_data st.dist (i := v) (j := v) 0 (by rw [hd.1]; exact hv)
        (by rw [hd.2.1]; exact hv)
      simp only [fw_init_diag, s1, Option.some_bind, Option.bind_eq_bind,
        Option.pure_def, Option.some.injEq, exists_eq_left']
      refine ⟨⟨hd.1, hd.2.1, hd.2.2.1, hd.2.2.2⟩, hnx, ?_⟩
      intro a b
      show (if a = v ∧ b = v then (0 : Int) else st.dist.data a b) = _
      rw [hdist]
      by_cases h1 : a = v ∧ b = v
      · obtain ⟨rfl, rfl⟩ := h1; simp
      · by_cases h2 : a = b
        · subst h2
          have : a ≠ v := fun h => h1 ⟨h, h⟩
          have h3 : (a < v + 1) ↔ a < v := by omega
          simp [h1, h3, this]
        · simp [h1, h2])
  exact this

theorem zero_lt_inf (hinf : InfBound g w inf) {v : Nat} (hv : v < g.num_vertices) : 0 < inf := by
  have := hinf v [] v (IsPath.refl hv) (IsSimple.of_nil g v)
  simpa [pathWeight_nil] using this

theorem fw_edge_inv_zero (hinf : InfBound g w inf) {st : FwState}
    (hd : FwDims g.num_vertices st) (hnx : ∀ a b, st.next.data a b = SIZE_MAX)
    (hdist : ∀ a b, st.dist.data a b = if a = b ∧ a < g.num_vertices then 0 else inf) :
    FwEdgeInv g w inf 0 st := by
  refine ⟨hd, ?_, ?_, ?_, ?_, ?_⟩
  · intro v hv; rw [hdist]; simp [hv]
  · intro i j
    rw [hdist]
    split
    · next h => exact le_of_lt (zero_lt_inf hinf h.2)
    · exact le_refl _
  · intro i j _ _ hij hne
    rw [hdist] at hne
    simp [hij] at hne
  · intro e he; omega
  · intro i j _ _ _ _; exact hnx i j

theorem fw_edge_step (hg : g.WF) (hn : NoNegCycle g w) (hinf : InfBound g w inf)
    (hw : w.size = g.num_edges) {m : Nat} {st : FwState} (hm : m < g.num_edges)
    (h : FwEdgeInv g w inf m st) :
    ∃ st', fw_init_edge g w st m = some st' ∧ FwEdgeInv g w inf (m + 1) st' := by
  obtain ⟨hsl, htl, -⟩ := hg.2.1 m hm
  have hd := h.dims
  have g1 := matrix.get?_data st.dist (i := g.source m) (j := g.target m)
    (by rw [hd.1]; exact hsl) (by rw [hd.2.1]; exact htl)
  have g2 := StdVector.get?_eq w (i := m) (by omega)
  have s1 : ∀ x, st.dist.set? (g.source m) (g.target m) x = _ :=
    fun x => matrix.set?_data _ x (by rw [hd.1]; exact hsl) (by rw [hd.2.1]; exact htl)
  have s2 : ∀ x, st.next.set? (g.source m) (g.target m) x = _ :=
    fun x => matrix.set?_data _ x (by rw [hd.2.2.1]; exact hsl) (by rw [hd.2.2.2]; exact htl)
  simp only [fw_init_edge, g1, g2, s1, s2, Option.some_bind, Option.bind_eq_bind,
    Option.pure_def, Option.some.injEq, exists_eq_left']
  have hdata : ∀ a b, (a = g.source m ∧ b = g.target m →
      (if a = g.source m ∧ b = g.target m then min (st.dist.data (g.source m) (g.target m))
        (w.data m) else st.dist.data a b) = min (st.dist.data a b) (w.data m)) ∧
      (¬ (a = g.source m ∧ b = g.target m) →
      (if a = g.source m ∧ b = g.target m then min (st.dist.data (g.source m) (g.target m))
        (w.data m) else st.dist.data a b) = st.dist.data a b) := by
    intro a b
    constructor
    · rintro ⟨rfl, rfl⟩; simp
    · intro hne; simp [hne]
  have hone := IsPath.single hg hm
  refine ⟨⟨hd.1, hd.2.1, hd.2.2.1, hd.2.2.2⟩, ?_, ?_, ?_, ?_, ?_⟩
  · intro v hv
    show (if v = g.source m ∧ v = g.target m then _ else _) = (0 : Int)
    by_cases hc : v = g.source m ∧ v = g.target m
    · rw [(hdata v v).1 hc, h.diag v hv]
      have hcyc : IsPath g v [m] v := by
        have := hone
        rw [← hc.1, ← hc.2] at this
        exact this
      have := hn v _ hcyc
      rw [pathWeight_cons, pathWeight_nil] at this
      omega
    · rw [(hdata v v).2 hc, h.diag v hv]
  · intro i j
    show (if i = g.source m ∧ j = g.target m then _ else _) ≤ inf
    by_cases hc : i = g.source m ∧ j = g.target m
    · rw [(hdata i j).1 hc]
      exact le_trans (min_le_left _ _) (h.le_inf i j)
    · rw [(hdata i j).2 hc]; exact h.le_inf i j
  · intro i j hi hj hij hne
    show ∃ e, e < g.num_edges ∧ g.source e = i ∧ g.target e = j ∧
      (if i = g.source m ∧ j = g.target m then g.target m else st.next.data i j) = j ∧
      (if i = g.source m ∧ j = g.target m then _ else _) = w.data e
    have hne' : (if i = g.source m ∧ j = g.target m then
        min (st.dist.data (g.source m) (g.target m)) (w.data m) else st.dist.data i j) ≠ inf :=
      hne
    by_cases hc : i = g.source m ∧ j = g.target m
    · rw [(hdata i j).1 hc] at hne' ⊢
      rw [if_pos hc]
      by_cases hle : st.dist.data i j ≤ w.data m
      · rw [min_eq_left hle] at hne' ⊢
        obtain ⟨e, he, hes, het, -, heq⟩ := h.real i j hi hj hij hne'
        exact ⟨e, he, hes, het, hc.2.symm, heq⟩
      · rw [min_eq_right (by omega)]
        exact ⟨m, hm, hc.1.symm, hc.2.symm, hc.2.symm, rfl⟩
    · rw [(hdata i j).2 hc] at hne' ⊢
      rw [if_neg hc]
      exact h.real i j hi hj hij hne'
  · intro e he
    show (if g.source e = g.source m ∧ g.target e = g.target m then _ else _) ≤ w.data e
    by_cases hc : g.source e = g.source m ∧ g.target e = g.target m
    · rw [(hdata _ _).1 hc]
      rcases Nat.lt_succ_iff_lt_or_eq.1 he with he | rfl
      · exact le_trans (min_le_left _ _) (h.compl e he)
      · exact min_le_right _ _
    · rw [(hdata _ _).2 hc]
      rcases Nat.lt_succ_iff_lt_or_eq.1 he with he | rfl
      · exact h.compl e he
      · exact absurd ⟨rfl, rfl⟩ hc
  · intro i j hi hj hij hd
    show (if i = g.source m ∧ j = g.target m then g.target m else st.next.data i j) = SIZE_MAX
    have hd' : (if i = g.source m ∧ j = g.target m then
        min (st.dist.data (g.source m) (g.target m)) (w.data m) else st.dist.data i j) = inf := hd
    by_cases hc : i = g.source m ∧ j = g.target m
    · exfalso
      rw [(hdata i j).1 hc] at hd'
      have hs : IsSimple g (g.source m) [m] := by
        simp only [IsSimple, pathVertices, List.map_cons, List.map_nil, List.nodup_cons,
          List.mem_singleton, List.not_mem_nil, not_false_eq_true, List.nodup_nil, and_true]
        rw [← hc.1, ← hc.2]
        exact hij
      have := hinf _ _ _ hone hs
      rw [pathWeight_cons, pathWeight_nil] at this
      have := min_le_right (st.dist.data i j) (w.data m)
      omega
    · rw [(hdata i j).2 hc] at hd'
      rw [if_neg hc]
      exact h.none i j hi hj hij hd'

theorem via_zero_cases {p : List Nat} (h : Via g 0 p) : p = [] ∨ ∃ e, p = [e] := by
  match p, h with
  | [], _ => exact Or.inl rfl
  | [e], _ => exact Or.inr ⟨e, rfl⟩
  | e :: e2 :: p, h =>
    have := h (g.target e) (by rw [interior_cons g e (by simp)]; exact List.mem_cons_self _ _)
    omega

theorem fw_level_zero (hinf : InfBound g w inf) {st : FwState}
    (h : FwEdgeInv g w inf g.num_edges st) :
    FwDistLevel g w inf 0 st ∧ FwNextLevel g w inf 0 st := by
  refine ⟨⟨h.dims, h.diag, h.le_inf, ?_, ?_⟩, ⟨?_, h.none, ?_⟩⟩
  · intro i j hi hj hne
    by_cases hij : i = j
    · subst hij
      exact ⟨[], IsPath.refl hi, Via.via_nil g 0, by rw [pathWeight_nil, h.diag i hi]⟩
    · obtain ⟨e, he, hes, het, -, heq⟩ := h.real i j hi hj hij hne
      refine ⟨[e], ⟨he, hes, het, het ▸ hj⟩, Via.via_single g 0 e, ?_⟩
      rw [pathWeight_cons, pathWeight_nil, heq]; omega
  · intro i j p hp _ hv
    rcases via_zero_cases hv with rfl | ⟨e, rfl⟩
    · have hij : i = j := hp.1
      subst hij
      rw [h.diag i hp.2, pathWeight_nil]
    · have := h.compl e hp.1
      rw [hp.2.1, hp.2.2.1] at this
      rw [pathWeight_cons, pathWeight_nil]
      omega
  · intro i j hi hj hij hne
    obtain ⟨e, he, hes, het, hnx, heq⟩ := h.real i j hi hj hij hne
    refine ⟨e, he, hes, by rw [hnx]; exact het, Or.inl hnx, ?_, ?_⟩
    · rw [hnx, h.diag j hj]
      exact ne_of_lt (zero_lt_inf hinf hj)
    · rw [hnx, h.diag j hj, heq]; omega
  · intro i j hi hj hne
    by_cases hij : i = j
    · subst hij; exact ⟨_, NextChain.done⟩
    · obtain ⟨e, he, hes, het, hnx, heq⟩ := h.real i j hi hj hij hne
      refine ⟨[i, j], NextChain.step hij ?_⟩
      rw [hnx]
      exact NextChain.done

/-- Floyd–Warshall returns, and its result satisfies the level invariants for `k = V`. -/
theorem fw_levels (hg : g.WF) (hn : NoNegCycle g w) (hinf : InfBound g w inf)
    (hw : w.size = g.num_edges) :
    ∃ st, floyd_warshall_all_pairs_shortest_paths g w inf = some st ∧
      FwDistLevel g w inf g.num_vertices st ∧ FwNextLevel g w inf g.num_vertices st := by
  obtain ⟨st1, h1, hd1, hnx1, hdist1⟩ := fw_init_diag_loop g.num_vertices inf
  obtain ⟨st2, h2, hE⟩ := foldlM_range_inv (fw_init_edge g w)
    (fun m st => FwEdgeInv g w inf m st) g.num_edges st1
    (fw_edge_inv_zero hinf hd1 hnx1 hdist1)
    (fun m st hm h => fw_edge_step hg hn hinf hw hm h)
  obtain ⟨st3, h3, hL⟩ := foldlM_range_inv (fw_round inf g.num_vertices)
    (fun k st => FwDistLevel g w inf k st ∧ FwNextLevel g w inf k st) g.num_vertices st2
    (fw_level_zero hinf hE)
    (fun k st hk h => ⟨_, fw_round_eq h.1.dims hk (h.1.diag k hk),
      h.1.dist_step hg hn hinf hk, h.2.next_step hg hn hinf hk h.1⟩)
  refine ⟨st3, ?_, hL⟩
  unfold floyd_warshall_all_pairs_shortest_paths
  simp only [h1, h2, h3, Option.some_bind, Option.bind_eq_bind]

end Djp

namespace Djp

variable {g : Graph} {w : StdVector Int} {inf : Int}

end Djp

namespace Djp

variable {g : Graph} {w : StdVector Int} {inf : Int}

theorem foldl_min_le (as : List Int) : ∀ a : Int, as.foldl min a ≤ a ∧ ∀ b ∈ as, as.foldl min a ≤ b := by
  induction as with
  | nil => intro a; simp
  | cons c as ih =>
    intro a
    obtain ⟨h1, h2⟩ := ih (min a c)
    simp only [List.foldl_cons, List.mem_cons, forall_eq_or_imp]
    exact ⟨le_trans h1 (min_le_left _ _), le_trans h1 (min_le_right _ _), h2⟩

theorem foldl_min_mem (as : List Int) : ∀ a : Int, as.foldl min a ∈ a :: as := by
  induction as with
  | nil => intro a; simp
  | cons c as ih =>
    intro a
    have := ih (min a c)
    simp only [List.foldl_cons, List.mem_cons] at this ⊢
    rcases this with h | h
    · rcases min_choice a c with h2 | h2
      · left; rw [h, h2]
      · right; left; rw [h, h2]
    · right; right; exact h

theorem mem_edgesBetween {x y e : Nat} :
    e ∈ edgesBetween g x y ↔ e < g.num_edges ∧ g.source e = x ∧ g.target e = y := by
  simp [edgesBetween]

/-- The lightest edge from `x` to `y` is an edge, and no edge from `x` to `y` is lighter. -/
theorem minEdgeWeight_spec {x y e : Nat} (he : e < g.num_edges) (hs : g.source e = x)
    (ht : g.target e = y) :
    minEdgeWeight g w x y ≤ w.data e ∧
      ∃ e', e' < g.num_edges ∧ g.source e' = x ∧ g.target e' = y ∧
        minEdgeWeight g w x y = w.data e' := by
  have hmem : w.data e ∈ (edgesBetween g x y).map w.data :=
    List.mem_map.2 ⟨e, mem_edgesBetween.2 ⟨he, hs, ht⟩, rfl⟩
  unfold minEdgeWeight
  match hl : (edgesBetween g x y).map w.data, hmem with
  | [], hmem => simp at hmem
  | a :: as, hmem =>
    simp only
    have h1 := foldl_min_le as a
    have h2 := foldl_min_mem as a
    constructor
    · rcases List.mem_cons.1 hmem with h | h
      · rw [h]; exact h1.1
      · exact h1.2 _ h
    · rw [← hl] at h2
      obtain ⟨e', he', heq⟩ := List.mem_map.1 h2
      obtain ⟨h3, h4, h5⟩ := mem_edgesBetween.1 he'
      exact ⟨e', h3, h4, h5, heq.symm⟩

theorem via_all (hg : g.WF) {u : Nat} {p : List Nat} {v : Nat} (h : IsPath g u p v) :
    Via g g.num_vertices p := by
  intro x hx
  have hx' : x ∈ p.map g.target := List.dropLast_subset _ hx
  obtain ⟨e, he, rfl⟩ := List.mem_map.1 hx'
  exact (hg.2.1 e (h.edges_lt e he)).2.1

theorem NextChain.head_eq {nx : Nat → Nat → Nat} {v u : Nat} {l : List Nat}
    (h : NextChain nx v u l) : ∃ t, l = u :: t := by
  cases h with
  | done => exact ⟨[], rfl⟩
  | step _ _ => exact ⟨_, rfl⟩

theorem NextChain.getLast_eq {nx : Nat → Nat → Nat} {v u : Nat} {l : List Nat}
    (h : NextChain nx v u l) : l.getLast? = some v := by
  induction h with
  | done => rfl
  | @step u l _ hch ih =>
    obtain ⟨t, rfl⟩ := hch.head_eq
    rw [List.getLast?_cons_cons]; exact ih

theorem NextChain.unique {nx : Nat → Nat → Nat} {v u : Nat} {l1 l2 : List Nat}
    (h1 : NextChain nx v u l1) (h2 : NextChain nx v u l2) : l1 = l2 := by
  induction h1 generalizing l2 with
  | done =>
    cases h2 with
    | done => rfl
    | step hne _ => exact absurd rfl hne
  | @step u l hne _ ih =>
    cases h2 with
    | done => exact absurd rfl hne
    | step _ h2' => rw [ih h2']

/-- From any vertex of a chain the rest of the chain is the chain of that vertex. -/
theorem NextChain.suffix {nx : Nat → Nat → Nat} {v u : Nat} {l : List Nat}
    (h : NextChain nx v u l) : ∀ x ∈ l, ∃ l', NextChain nx v x l' ∧ l'.length ≤ l.length := by
  induction h with
  | done =>
    intro x hx
    simp at hx; subst hx
    exact ⟨_, NextChain.done, le_refl _⟩
  | @step u l hne hch ih =>
    intro x hx
    rcases List.mem_cons.1 hx with rfl | hx
    · exact ⟨_, NextChain.step hne hch, le_refl _⟩
    · obtain ⟨l', hl', hlen⟩ := ih x hx
      exact ⟨l', hl', by simp; omega⟩

theorem NextChain.nodup {nx : Nat → Nat → Nat} {v u : Nat} {l : List Nat}
    (h : NextChain nx v u l) : l.Nodup := by
  induction h with
  | done => simp
  | @step u l hne hch ih =>
    refine List.nodup_cons.2 ⟨?_, ih⟩
    intro hu
    obtain ⟨l', hl', hlen⟩ := hch.suffix u hu
    have := NextChain.unique hl' (NextChain.step hne hch)
    rw [this] at hlen
    simp at hlen

theorem length_le_of_nodup_lt {l : List Nat} {n : Nat} (hnd : l.Nodup) (hlt : ∀ x ∈ l, x < n) :
    l.length ≤ n := by
  have h1 : l.toFinset ⊆ Finset.range n := by
    intro x hx
    exact Finset.mem_range.2 (hlt x (List.mem_toFinset.1 hx))
  have h2 := Finset.card_le_card h1
  rw [List.toFinset_card_of_nodup hnd, Finset.card_range] at h2
  exact h2

/-- The while loop of `floyd_warshall_path` writes the chain of the table. -/
theorem path_loop_chain {next : matrix Nat} {v u : Nat} {l : List Nat}
    (h : NextChain next.data v u l) (hv : v < next.cols) (hl : ∀ x ∈ l, x < next.rows) :
    ∀ (fuel : Nat) (out : List Nat), l.length ≤ fuel →
      path_loop fuel u v next out = some (out ++ l.tail) := by
  induction h with
  | done =>
    intro fuel out hf
    cases fuel with
    | zero => simp at hf
    | succ fuel => simp [path_loop]
  | @step u l hne hch ih =>
    intro fuel out hf
    cases fuel with
    | zero => simp at hf
    | succ fuel =>
      obtain ⟨t, rfl⟩ := hch.head_eq
      have hu : u < next.rows := hl u (List.mem_cons_self _ _)
      have := ih (fun x hx => hl x (List.mem_cons_of_mem _ hx)) fuel (out ++ [next.data u v])
        (by simp at hf ⊢; omega)
      simp only [path_loop, hne, ne_eq, not_false_eq_true, if_true, matrix.get?_data _ hu hv,
        Option.some_bind, Option.bind_eq_bind, this]
      simp

/-- In the final tables the chain from `u` to `v` stays among the vertices, walks along edges
and weighs `dist[{u, v}]`. -/
theorem fw_chain_props {st : FwState} (hg : g.WF) (hn : NoNegCycle g w)
    (hinf : InfBound g w inf) (hl : FwDistLevel g w inf g.num_vertices st)
    (hN : FwNextLevel g w inf g.num_vertices st) {v : Nat} (hv : v < g.num_vertices) :
    ∀ u l, NextChain st.next.data v u l → u < g.num_vertices → st.dist.data u v ≠ inf →
      (∀ x ∈ l, x < g.num_vertices) ∧ List.Chain' (HasEdge g) l ∧
        chainWeight g w l = st.dist.data u v := by
  intro u l h
  induction h with
  | done =>
    intro hu _
    refine ⟨by simpa using hu, by simp, ?_⟩
    rw [hl.diag v hv]; rfl
  | @step u l hne hch ih =>
    intro hu hfin
    obtain ⟨e, he, hes, het, -, hfin2, heq⟩ := hN.nxt u v hu hv hne hfin
    have hnx : st.next.data u v < g.num_vertices := het ▸ (hg.2.1 e he).2.1
    obtain ⟨h1, h2, h3⟩ := ih hnx hfin2
    obtain ⟨t, rfl⟩ := hch.head_eq
    refine ⟨?_, ?_, ?_⟩
    · intro x hx
      rcases List.mem_cons.1 hx with rfl | hx
      · exact hu
      · exact h1 x hx
    · exact List.Chain'.cons ⟨e, he, hes, het⟩ h2
    · show minEdgeWeight g w u (st.next.data u v) + chainWeight g w (st.next.data u v :: t) = _
      rw [h3, heq]
      obtain ⟨hle, e', he', hes', het', hmin⟩ := minEdgeWeight_spec (w := w) he hes het
      obtain ⟨q, hq, -, hqw⟩ := hl.real _ v hnx hv hfin2
      have hpe : IsPath g u (e' :: q) v := ⟨he', hes', het'.symm ▸ hq⟩
      have := (hl.compl_walk hg hn hinf hpe (via_all hg hpe)).1
      rw [pathWeight_cons, hqw, heq] at this
      omega

end Djp

namespace Djp

theorem pathWeight_nonneg {g : Graph} {w : StdVector Int}
    (h : ∀ e, e < g.num_edges → 0 ≤ w.data e) :
    ∀ {u : Nat} {p : List Nat} {v : Nat}, IsPath g u p v → 0 ≤ pathWeight w p
  | _, [], _, _ => by simp [pathWeight_nil]
  | _, e :: p, _, hp => by
    have := pathWeight_nonneg h hp.2.2
    have := h e hp.1
    rw [pathWeight_cons]; omega

theorem noNegCycle_of_nonneg {g : Graph} {w : StdVector Int}
    (h : ∀ e, e < g.num_edges → 0 ≤ w.data e) : NoNegCycle g w :=
  fun _ _ hp => pathWeight_nonneg h hp

theorem pathWeight_le_length {g : Graph} {w : StdVector Int} {W : Int}
    (h : ∀ e, e < g.num_edges → w.data e ≤ W) :
    ∀ {u : Nat} {p : List Nat} {v : Nat}, IsPath g u p v → pathWeight w p ≤ p.length * W
  | _, [], _, _ => by simp [pathWeight_nil]
  | _, e :: p, _, hp => by
    have := pathWeight_le_length h hp.2.2
    have := h e hp.1
    rw [pathWeight_cons, List.length_cons]
    push_cast
    linarith

theorem pathVertices_lt {g : Graph} (hg : g.WF) {u : Nat} {p : List Nat} {v : Nat}
    (h : IsPath g u p v) : ∀ x ∈ pathVertices g u p, x < g.num_vertices := by
  intro x hx
  rcases List.mem_cons.1 hx with rfl | hx
  · exact h.source_lt hg
  · obtain ⟨e, he, rfl⟩ := List.mem_map.1 hx
    exact (hg.2.1 e (h.edges_lt e he)).2.1

/-- A sentinel above `V` times the heaviest edge is above every simple path. -/
theorem infBound_of_bound {g : Graph} {w : StdVector Int} {inf W : Int} (hg : g.WF)
    (h : ∀ e, e < g.num_edges → w.data e ≤ W) (hW : 0 ≤ W) (hb : g.num_vertices * W < inf) :
    InfBound g w inf := by
  intro u p v hp hs
  have h1 := pathWeight_le_length h hp
  have h2 := length_le_of_nodup_lt hs (pathVertices_lt hg hp)
  simp only [pathVertices, List.length_cons, List.length_map] at h2
  have h3 : (p.length : Int) * W ≤ g.num_vertices * W :=
    mul_le_mul_of_nonneg_right (by exact_mod_cast (by omega : p.length ≤ g.num_vertices)) hW
  linarith

/-- C2: with no negative cycle and a sentinel above every simple path weight,
`floyd_warshall_all_pairs_shortest_paths` returns, `dist[{u, v}]` is the minimum total weight
over all walks from `u` to `v` whenever one exists, and it is the sentinel exactly when none
exists. -/
theorem floyd_warshall_dist_correct (g : Graph) (w : StdVector Int) (inf : Int) (hg : g.WF)
    (hw : w.size = g.num_edges) (hn : NoNegCycle g w) (hinf : InfBound g w inf) :
    ∃ st, floyd_warshall_all_pairs_shortest_paths g w inf = some st ∧
      ∀ u v, u < g.num_vertices → v < g.num_vertices →
        (Reachable g u v → IsMinPathWeight g w u v (st.dist.data u v)) ∧
        (st.dist.data u v = inf ↔ ¬ Reachable g u v) := by
  obtain ⟨st, hst, hl, -⟩ := fw_levels hg hn hinf hw
  refine ⟨st, hst, fun u v hu hv => ?_⟩
  have hfin : Reachable g u v → st.dist.data u v ≠ inf := by
    rintro ⟨p, hp⟩
    exact ne_of_lt (hl.compl_walk hg hn hinf hp (via_all hg hp)).2
  refine ⟨fun hr => ?_, ?_⟩
  · obtain ⟨p, hp, -, hpw⟩ := hl.real u v hu hv (hfin hr)
    exact ⟨⟨p, hp, hpw⟩, fun q hq => (hl.compl_walk hg hn hinf hq (via_all hg hq)).1⟩
  · constructor
    · intro h hr; exact hfin hr h
    · intro h
      by_contra hne
      obtain ⟨p, hp, -, -⟩ := hl.real u v hu hv hne
      exact h ⟨p, hp⟩

theorem cycleGraph_noNegCycle : NoNegCycle cycleGraph cycleWeights :=
  noNegCycle_of_nonneg (by decide)

theorem cycleGraph_infBound : InfBound cycleGraph cycleWeights 1000 :=
  infBound_of_bound (W := 7) (by decide) (by decide) (by decide) (by decide)

theorem floyd_warshall_dist_correct_witness :
    ∃ st, floyd_warshall_all_pairs_shortest_paths cycleGraph cycleWeights 1000 = some st ∧
      ∀ u v, u < cycleGraph.num_vertices → v < cycleGraph.num_vertices →
        (Reachable cycleGraph u v →
          IsMinPathWeight cycleGraph cycleWeights u v (st.dist.data u v)) ∧
        (st.dist.data u v = 1000 ↔ ¬ Reachable cycleGraph u v) :=
  floyd_warshall_dist_correct cycleGraph cycleWeights 1000 (by decide) rfl
    cycleGraph_noNegCycle cycleGraph_infBound

theorem fw_reach_iff {g : Graph} {w : StdVector Int} {inf : Int} {st : FwState} (hg : g.WF)
    (hn : NoNegCycle g w) (hinf : InfBound g w inf)
    (hl : FwDistLevel g w inf g.num_vertices st) {u v : Nat} (hu : u < g.num_vertices)
    (hv : v < g.num_vertices) : Reachable g u v ↔ st.dist.data u v ≠ inf := by
  constructor
  · rintro ⟨p, hp⟩
    exact ne_of_lt (hl.compl_walk hg hn hinf hp (via_all hg hp)).2
  · intro hne
    obtain ⟨p, hp, -, -⟩ := hl.real u v hu hv hne
    exact ⟨p, hp⟩

/-- On the final tables `floyd_warshall_path` returns the chain of a finite pair. -/
theorem fw_path_run {g : Graph} {w : StdVector Int} {inf : Int} {st : FwState} (hg : g.WF)
    (hn : NoNegCycle g w) (hinf : InfBound g w inf)
    (hl : FwDistLevel g w inf g.num_vertices st) (hN : FwNextLevel g w inf g.num_vertices st)
    {u v : Nat} (hu : u < g.num_vertices) (hv : v < g.num_vertices)
    (hfin : st.dist.data u v ≠ inf) {fuel : Nat} (hf : g.num_vertices ≤ fuel) :
    ∃ l, NextChain st.next.data v u l ∧ floyd_warshall_path fuel u v st.next = some l ∧
      (u ≠ v → st.next.data u v ≠ SIZE_MAX) := by
  obtain ⟨l, hch⟩ := hN.chain u v hu hv hfin
  obtain ⟨hlt, -, -⟩ := fw_chain_props hg hn hinf hl hN hv u l hch hu hfin
  have hlen := length_le_of_nodup_lt hch.nodup hlt
  have hd := hl.dims
  have hrun := path_loop_chain hch (by rw [hd.2.2.2]; exact hv)
    (fun x hx => by rw [hd.2.2.1]; exact hlt x hx) fuel [u] (by omega)
  obtain ⟨t, rfl⟩ := hch.head_eq
  have hne : u ≠ v → st.next.data u v ≠ SIZE_MAX := by
    intro huv
    obtain ⟨e, he, -, het, -⟩ := hN.nxt u v hu hv huv hfin
    have := (hg.2.1 e he).2.1
    have := hg.1
    omega
  refine ⟨_, hch, ?_, hne⟩
  unfold floyd_warshall_path
  by_cases huv : u = v
  · simpa [huv] using hrun
  · simp only [ne_eq, huv, not_false_eq_true, if_true,
      matrix.get?_data _ (show u < st.next.rows by rw [hd.2.2.1]; exact hu)
        (show v < st.next.cols by rw [hd.2.2.2]; exact hv),
      Option.some_bind, Option.bind_eq_bind, hne huv, if_false]
    simpa using hrun

theorem fw_path_none {g : Graph} {w : StdVector Int} {inf : Int} {st : FwState}
    (hl : FwDistLevel g w inf g.num_vertices st) (hN : FwNextLevel g w inf g.num_vertices st)
    {u v : Nat} (hu : u < g.num_vertices) (hv : v < g.num_vertices) (huv : u ≠ v)
    (hd : st.dist.data u v = inf) (fuel : Nat) :
    floyd_warshall_path fuel u v st.next = some [] := by
  have hdim := hl.dims
  unfold floyd_warshall_path
  simp only [ne_eq, huv, not_false_eq_true, if_true,
    matrix.get?_data _ (show u < st.next.rows by rw [hdim.2.2.1]; exact hu)
      (show v < st.next.cols by rw [hdim.2.2.2]; exact hv),
    Option.some_bind, Option.bind_eq_bind, hN.none u v hu hv huv hd, Option.pure_def]

/-- C5 as amended: round trip of the path reconstruction, in exact arithmetic with no negative
cycle and the sentinel above the weight of every simple path: for a reachable pair `(u, v)`
the sequence that `floyd_warshall_path` writes from the computed `next` table starts at `u`,
ends at `v`, steps along edges of the graph, and its weight (each step counted with the
lightest edge joining it) is `dist[{u, v}]`. -/
theorem floyd_warshall_path_roundtrip (g : Graph) (w : StdVector Int) (inf : Int) (fuel : Nat)
    (hg : g.WF) (hw : w.size = g.num_edges) (hn : NoNegCycle g w) (hinf : InfBound g w inf)
    (hf : g.num_vertices ≤ fuel) :
    ∃ st, floyd_warshall_all_pairs_shortest_paths g w inf = some st ∧
      ∀ u v, u < g.num_vertices → v < g.num_vertices → Reachable g u v →
        ∃ l, floyd_warshall_path fuel u v st.next = some l ∧
          l.head? = some u ∧ l.getLast? = some v ∧ List.Chain' (HasEdge g) l ∧
          chainWeight g w l = st.dist.data u v := by
  obtain ⟨st, hst, hl, hN⟩ := fw_levels hg hn hinf hw
  refine ⟨st, hst, fun u v hu hv hr => ?_⟩
  have hfin := (fw_reach_iff hg hn hinf hl hu hv).1 hr
  obtain ⟨l, hch, hrun, -⟩ := fw_path_run hg hn hinf hl hN hu hv hfin hf
  obtain ⟨-, hedge, hwt⟩ := fw_chain_props hg hn hinf hl hN hv u l hch hu hfin
  obtain ⟨t, rfl⟩ := hch.head_eq
  exact ⟨_, hrun, rfl, hch.getLast_eq, hedge, hwt⟩

theorem floyd_warshall_path_roundtrip_witness :
    ∃ st, floyd_warshall_all_pairs_shortest_paths cycleGraph cycleWeights 1000 = some st ∧
      ∀ u v, u < cycleGraph.num_vertices → v < cycleGraph.num_vertices →
        Reachable cycleGraph u v →
        ∃ l, floyd_warshall_path 4 u v st.next = some l ∧
          l.head? = some u ∧ l.getLast? = some v ∧ List.Chain' (HasEdge cycleGraph) l ∧
          chainWeight cycleGraph cycleWeights l = st.dist.data u v :=
  floyd_warshall_path_roundtrip cycleGraph cycleWeights 1000 4 (by decide) rfl
    cycleGraph_noNegCycle cycleGraph_infBound (by decide)

/-- C6 as amended: absence of a path is an empty sequence, in exact arithmetic with no
negative cycle and the sentinel above the weight of every simple path: `floyd_warshall_path`
on the computed `next` table returns, writes nothing exactly when `v` is not reachable from
`u` (for `u ≠ v` the entry `next[{u, v}]` is `SIZE_MAX` exactly when `dist[{u, v}]` is the
sentinel), and writes `[u]` when `u = v`. -/
theorem floyd_warshall_path_absent (g : Graph) (w : StdVector Int) (inf : Int) (fuel : Nat)
    (hg : g.WF) (hw : w.size = g.num_edges) (hn : NoNegCycle g w) (hinf : InfBound g w inf)
    (hf : g.num_vertices ≤ fuel) :
    ∃ st, floyd_warshall_all_pairs_shortest_paths g w inf = some st ∧
      ∀ u v, u < g.num_vertices → v < g.num_vertices →
        (u ≠ v → (st.next.data u v = SIZE_MAX ↔ st.dist.data u v = inf)) ∧
        ∃ l, floyd_warshall_path fuel u v st.next = some l ∧
          (l = [] ↔ ¬ Reachable g u v) ∧ (u = v → l = [u]) := by
  obtain ⟨st, hst, hl, hN⟩ := fw_levels hg hn hinf hw
  refine ⟨st, hst, fun u v hu hv => ?_⟩
  have hiff := fw_reach_iff hg hn hinf hl hu hv
  by_cases hfin : st.dist.data u v = inf
  · have huv : u ≠ v := by
      rintro rfl
      rw [hl.diag u hu] at hfin
      exact absurd hfin (ne_of_lt (zero_lt_inf hinf hu))
    refine ⟨fun _ => ⟨fun _ => hfin, fun _ => hN.none u v hu hv huv hfin⟩, [],
      fw_path_none hl hN hu hv huv hfin fuel, ?_, fun h => absurd h huv⟩
    simp only [true_iff]
    intro hr; exact hiff.1 hr hfin
  · obtain ⟨l, hch, hrun, hne⟩ := fw_path_run hg hn hinf hl hN hu hv hfin hf
    refine ⟨fun huv => ⟨fun h => absurd h (hne huv), fun h => absurd h hfin⟩, l, hrun, ?_, ?_⟩
    · obtain ⟨t, rfl⟩ := hch.head_eq
      simp only [reduceCtorEq, false_iff, not_not]
      exact hiff.2 hfin
    · rintro rfl
      exact NextChain.unique hch NextChain.done

theorem floyd_warshall_path_absent_witness :
    ∃ st, floyd_warshall_all_pairs_shortest_paths cycleGraph cycleWeights 1000 = some st ∧
      ∀ u v, u < cycleGraph.num_vertices → v < cycleGraph.num_vertices →
        (u ≠ v → (st.next.data u v = SIZE_MAX ↔ st.dist.data u v = 1000)) ∧
        ∃ l, floyd_warshall_path 4 u v st.next = some l ∧
          (l = [] ↔ ¬ Reachable cycleGraph u v) ∧ (u = v → l = [u]) :=
  floyd_warshall_path_absent cycleGraph cycleWeights 1000 4 (by decide) rfl
    cycleGraph_noNegCycle cycleGraph_infBound (by decide)

/-- C7 as amended: triangle inequality, in exact arithmetic with no negative cycle and the
sentinel above the weight of every simple path: the computed matrix satisfies
`dist[{i, j}] ≤ dist[{i, k}] + dist[{k, j}]` whenever the two entries on the right are finite,
and `dist[{v, v}] = 0`. -/
theorem floyd_warshall_triangle (g : Graph) (w : StdVector Int) (inf : Int) (hg : g.WF)
    (hw : w.size = g.num_edges) (hn : NoNegCycle g w) (hinf : InfBound g w inf) :
    ∃ st, floyd_warshall_all_pairs_shortest_paths g w inf = some st ∧
      (∀ i j k, i < g.num_vertices → j < g.num_vertices → k < g.num_vertices →
        st.dist.data i k ≠ inf → st.dist.data k j ≠ inf →
        st.dist.data i j ≤ st.dist.data i k + st.dist.data k j) ∧
      ∀ v, v < g.num_vertices → st.dist.data v v = 0 := by
  obtain ⟨st, hst, hl, -⟩ := fw_levels hg hn hinf hw
  refine ⟨st, hst, ?_, hl.diag⟩
  intro i j k hi hj hk h1 h2
  obtain ⟨p1, hp1, -, hw1⟩ := hl.real i k hi hk h1
  obtain ⟨p2, hp2, -, hw2⟩ := hl.real k j hk hj h2
  have := (hl.compl_walk hg hn hinf (hp1.append hp2) (via_all hg (hp1.append hp2))).1
  rw [pathWeight_append, hw1, hw2] at this
  exact this

theorem floyd_warshall_triangle_witness :
    ∃ st, floyd_warshall_all_pairs_shortest_paths cycleGraph cycleWeights 1000 = some st ∧
      (∀ i j k, i < cycleGraph.num_vertices → j < cycleGraph.num_vertices →
        k < cycleGraph.num_vertices →
        st.dist.data i k ≠ 1000 → st.dist.data k j ≠ 1000 →
        st.dist.data i j ≤ st.dist.data i k + st.dist.data k j) ∧
      ∀ v, v < cycleGraph.num_vertices → st.dist.data v v = 0 :=
  floyd_warshall_triangle cycleGraph cycleWeights 1000 (by decide) rfl
    cycleGraph_noNegCycle cycleGraph_infBound

end Djp

namespace Djp

theorem unvisited_card_mono {n : Nat} {vis vis' : Nat → Bool}
    (h : ∀ v, vis v = true → vis' v = true) :
    (unvisited n vis').card ≤ (unvisited n vis).card := by
  apply Finset.card_le_card
  intro v hv
  simp only [unvisited, Finset.mem_filter, Finset.mem_range] at hv ⊢
  refine ⟨hv.1, ?_⟩
  cases hvis : vis v with
  | false => rfl
  | true => rw [h v hvis] at hv; exact absurd hv.2 (by simp)

theorem unvisited_card_lt {n : Nat} {vis vis' : Nat → Bool}
    (h : ∀ v, vis v = true → vis' v = true) {x : Nat} (hx : x < n) (h1 : vis x = false)
    (h2 : vis' x = true) : (unvisited n vis').card < (unvisited n vis).card := by
  apply Finset.card_lt_card
  rw [Finset.ssubset_iff_of_subset]
  · refine ⟨x, ?_, ?_⟩
    · simp [unvisited, hx, h1]
    · simp [unvisited, h2]
  · intro v hv
    simp only [unvisited, Finset.mem_filter, Finset.mem_range] at hv ⊢
    refine ⟨hv.1, ?_⟩
    cases hvis : vis v with
    | false => rfl
    | true => rw [h v hvis] at hv; exact absurd hv.2 (by simp)

theorem Reachable.self {g : Graph} {u : Nat} (h : u < g.num_vertices) : Reachable g u u :=
  ⟨[], IsPath.refl h⟩

theorem Reachable.trans {g : Graph} {u v x : Nat} (h1 : Reachable g u v)
    (h2 : Reachable g v x) : Reachable g u x := by
  obtain ⟨p, hp⟩ := h1
  obtain ⟨q, hq⟩ := h2
  exact ⟨p ++ q, hp.append hq⟩

theorem Reachable.edge {g : Graph} (hg : g.WF) {e : Nat} (he : e < g.num_edges) :
    Reachable g (g.source e) (g.target e) := ⟨[e], IsPath.single hg he⟩

theorem Reachable.out_edge {g : Graph} (hg : g.WF) {v e : Nat} (hv : v < g.num_vertices)
    (he : e ∈ g.out_edges v) : Reachable g v (g.target e) := by
  obtain ⟨h1, h2⟩ := hg.2.2 v hv e he
  have := Reachable.edge hg h1
  rwa [h2] at this

/-- In an acyclic graph no out-edge of `v` leads to a vertex that reaches `v`. -/
theorem Acyclic.no_back_edge {g : Graph} (hg : g.WF) (hac : Acyclic g) {v e : Nat}
    (hv : v < g.num_vertices) (he : e ∈ g.out_edges v) : ¬ Reachable g (g.target e) v := by
  rintro ⟨p, hp⟩
  obtain ⟨h1, h2⟩ := hg.2.2 v hv e he
  have hcyc : IsPath g v (e :: p) v := ⟨h1, h2, hp⟩
  have := hac v _ hcyc
  simp at this

theorem PostOrdered.snoc {g : Graph} {r : List Nat} {v : Nat} (h : PostOrdered g r)
    (hv : v ∉ r) (hout : ∀ e ∈ g.out_edges v, g.target e ∈ r) : PostOrdered g (r ++ [v]) := by
  have key : ∀ x ∈ r, ∀ a b, r ++ [v] = a ++ x :: b → ∃ b', b = b' ++ [v] ∧ r = a ++ x :: b' := by
    intro x hx a b hab
    rcases List.eq_nil_or_concat b with rfl | ⟨b', c, hb⟩
    on_goal 2 => rw [List.concat_eq_append] at hb; subst hb
    · have h1 : r ++ [v] = (a ++ []) ++ [x] := by simpa using hab
      have h2 := List.append_inj' h1 rfl
      have : v = x := by simpa using h2.2
      subst this
      exact absurd hx hv
    · have h1 : r ++ [v] = (a ++ x :: b') ++ [c] := by simpa using hab
      have h2 := List.append_inj' h1 rfl
      have : v = c := by simpa using h2.2
      subst this
      exact ⟨b', rfl, h2.1⟩
  intro y hy e he
  rcases List.mem_append.1 hy with hy | hy
  · obtain ⟨h1, h2⟩ := h y hy e he
    refine ⟨List.mem_append_left _ h1, ?_⟩
    intro a b hab
    obtain ⟨b', rfl, hr⟩ := key _ h1 a b hab
    exact List.mem_append_left _ (h2 a b' hr)
  · simp only [List.mem_singleton] at hy
    subst hy
    refine ⟨List.mem_append_left _ (hout e he), ?_⟩
    intro a b hab
    obtain ⟨b', rfl, -⟩ := key _ (hout e he) a b hab
    simp

theorem DfsInv.enter {g : Graph} {st : DfsState} {gs : List Nat} (h : DfsInv g st gs)
    {src : Nat} (hsrc : src < g.num_vertices) (hun : st.visited.data src = false) :
    DfsInv g ⟨⟨st.visited.size, fun j => if j = src then true else st.visited.data j⟩,
      st.rev_topo⟩ (src :: gs) := by
  refine ⟨h.size, ?_, ?_, h.nodup, ?_, h.closed⟩
  · intro v
    show (if v = src then true else st.visited.data v) = true ↔ _
    by_cases hv : v = src
    · simp [hv]
    · simp [hv, h.split v]
  · intro v
    show (if v = src then true else st.visited.data v) = true → _
    by_cases hv : v = src
    · simp [hv, hsrc]
    · simp only [hv, if_false]; exact h.lt v
  · intro x hx
    rcases List.mem_cons.1 hx with rfl | hx
    · intro hr
      have := (h.split x).2 (Or.inl hr)
      rw [hun] at this
      exact absurd this (by simp)
    · exact h.disj x hx

theorem dfs_succ (fuel : Nat) (g : Graph) (st : DfsState) (src : Nat) :
    dfs (fuel + 1) g st src =
      (st.visited.set? src true).bind (fun visited =>
        ((g.out_edges src).foldlM (dfsEdge fuel g) (DfsState.mk visited st.rev_topo)).bind
          (fun st1 => some ⟨st1.visited, st1.rev_topo ++ [src]⟩)) := rfl

/-- The recursive lambda `dfs` returns when the fuel covers the unvisited vertices; it appends
to `rev_topo` vertices reachable from `src`, `src` last, and keeps the list post-ordered. -/
theorem dfs_spec {g : Graph} (hg : g.WF) (hac : Acyclic g) :
    ∀ (fuel : Nat) (st : DfsState) (src : Nat) (gs : List Nat), DfsInv g st gs →
      st.visited.data src = false → src < g.num_vertices → (∀ x ∈ gs, Reachable g x src) →
      (unvisited g.num_vertices st.visited.data).card ≤ fuel →
      ∃ st', dfs fuel g st src = some st' ∧ DfsInv g st' gs ∧
        (∃ new, st'.rev_topo = st.rev_topo ++ new ∧ src ∈ new ∧
          ∀ x ∈ new, Reachable g src x) ∧
        (∀ v, st.visited.data v = true → st'.visited.data v = true) := by
  intro fuel
  induction fuel with
  | zero =>
    intro st src gs _ hun hsrc _ hcard
    exfalso
    have hmem : src ∈ unvisited g.num_vertices st.visited.data := by
      simp [unvisited, hsrc, hun]
    have := Finset.card_pos.2 ⟨src, hmem⟩
    omega
  | succ fuel ih =>
    intro st src gs hI hun hsrc hreach hcard
    have hset := StdVector.set?_eq st.visited true
      (show src < st.visited.size by rw [hI.size]; exact hsrc)
    have hI1 := hI.enter hsrc hun
    generalize hst1 : (DfsState.mk ⟨st.visited.size, fun j => if j = src then true
      else st.visited.data j⟩ st.rev_topo) = st1 at hI1
    have hvis1 : ∀ v, st1.visited.data v = if v = src then true else st.visited.data v := by
      intro v; rw [← hst1]
    have hrt1 : st1.rev_topo = st.rev_topo := by rw [← hst1]
    have hmono1 : ∀ v, st.visited.data v = true → st1.visited.data v = true := by
      intro v hv; rw [hvis1]; split <;> simp [hv]
    have hcard1 : (unvisited g.num_vertices st1.visited.data).card ≤ fuel := by
      have := unvisited_card_lt (n := g.num_vertices) hmono1 hsrc hun (by rw [hvis1]; simp)
      omega
    obtain ⟨st2, hloop, hI2, ⟨new, hnew, hnr⟩, hdone, hmono2⟩ := foldlM_list_inv (dfsEdge fuel g)
      (fun done stc => DfsInv g stc (src :: gs) ∧
        (∃ new, stc.rev_topo = st.rev_topo ++ new ∧ ∀ x ∈ new, Reachable g src x) ∧
        (∀ e ∈ done, g.target e ∈ stc.rev_topo) ∧
        (∀ v, st1.visited.data v = true → stc.visited.data v = true))
      (g.out_edges src) st1
      ⟨hI1, ⟨[], by simp [hrt1], by simp⟩, by simp, fun _ h => h⟩
      (by
        rintro pre e suf stc hsplit ⟨hIc, ⟨new, hnew, hnr⟩, hdone, hmonoc⟩
        have he : e ∈ g.out_edges src := by rw [hsplit]; simp
        have het := hg.2.2 src hsrc e he
        have ht : g.target e < g.num_vertices := (hg.2.1 e het.1).2.1
        have hget := StdVector.get?_eq stc.visited
          (show g.target e < stc.visited.size by rw [hIc.size]; exact ht)
        unfold dfsEdge
        simp only [hget, Option.some_bind, Option.bind_eq_bind]
        cases hvis : stc.visited.data (g.target e) with
        | false =>
          have hr : ∀ x ∈ src :: gs, Reachable g x (g.target e) := by
            intro x hx
            have hsx : Reachable g x src := by
              rcases List.mem_cons.1 hx with rfl | hx
              · exact Reachable.self hsrc
              · exact hreach x hx
            exact hsx.trans (Reachable.out_edge hg hsrc he)
          have hc : (unvisited g.num_vertices stc.visited.data).card ≤ fuel :=
            le_trans (unvisited_card_mono hmonoc) hcard1
          obtain ⟨s', hs', hI', ⟨new', hnew', htin, hreach'⟩, hmono'⟩ :=
            ih stc (g.target e) (src :: gs) hIc hvis ht hr hc
          refine ⟨s', by simpa using hs', hI', ⟨new ++ new', ?_, ?_⟩, ?_, ?_⟩
          · rw [hnew', hnew, List.append_assoc]
          · intro x hx
            rcases List.mem_append.1 hx with hx | hx
            · exact hnr x hx
            · exact (Reachable.out_edge hg hsrc he).trans (hreach' x hx)
          · intro e' he'
            rw [hnew']
            rcases List.mem_append.1 he' with he' | he'
            · exact List.mem_append_left _ (hdone e' he')
            · simp only [List.mem_singleton] at he'
              subst he'
              exact List.mem_append_right _ htin
          · intro v hv; exact hmono' v (hmonoc v hv)
        | true =>
          refine ⟨stc, by simp, hIc, ⟨new, hnew, hnr⟩, ?_, hmonoc⟩
          intro e' he'
          rcases List.mem_append.1 he' with he' | he'
          · exact hdone e' he'
          · simp only [List.mem_singleton] at he'
            subst he'
            rcases (hIc.split _).1 hvis with h | h
            · exact h
            · exfalso
              apply Acyclic.no_back_edge hg hac hsrc he
              rcases List.mem_cons.1 h with h | h
              · rw [h]; exact Reachable.self hsrc
              · exact hreach _ h)
    have hsrcR : src ∉ st2.rev_topo := hI2.disj src (List.mem_cons_self _ _)
    refine ⟨⟨st2.visited, st2.rev_topo ++ [src]⟩, ?_, ?_, ⟨new ++ [src], ?_, by simp, ?_⟩, ?_⟩
    · rw [dfs_succ, hset]
      simp only [Option.some_bind, Option.bind_eq_bind, hst1, hloop]
    · refine ⟨hI2.size, ?_, hI2.lt, ?_, ?_, ?_⟩
      · intro v
        rw [hI2.split v]
        simp only [List.mem_append, List.mem_cons, List.mem_singleton, List.not_mem_nil, or_false]
        tauto
      · exact List.nodup_append.2 ⟨hI2.nodup, by simp, by
          intro a ha hb
          simp only [List.mem_singleton] at hb
          subst hb
          exact hsrcR ha⟩
      · intro x hx hmem
        rcases List.mem_append.1 hmem with h | h
        · exact hI2.disj x (List.mem_cons_of_mem _ hx) h
        · simp only [List.mem_singleton] at h
          subst h
          have := (hI.split x).2 (Or.inr hx)
          rw [hun] at this
          exact absurd this (by simp)
      · exact PostOrdered.snoc hI2.closed hsrcR hdone
    · show st2.rev_topo ++ [src] = _
      rw [hnew, List.append_assoc]
    · intro x hx
      rcases List.mem_append.1 hx with hx | hx
      · exact hnr x hx
      · simp only [List.mem_singleton] at hx
        subst hx
        exact Reachable.self hsrc
    · intro v hv
      exact hmono2 v (hmono1 v hv)

end Djp

namespace Djp

theorem relax_out_edges_eq (g : Graph) (w : StdVector Int) (dist : StdVector Int) (src : Nat) :
    relax_out_edges g w dist src = (g.out_edges src).foldlM (relaxEdge g w src) dist := rfl

/-- A non-empty walk ends with an edge. -/
theorem IsPath.last_edge {g : Graph} (hg : g.WF) : ∀ {u : Nat} {p : List Nat} {v : Nat},
    IsPath g u p v → p ≠ [] →
    ∃ p0 e, p = p0 ++ [e] ∧ IsPath g u p0 (g.source e) ∧ e < g.num_edges ∧ g.target e = v
  | _, [], _, _, hp => absurd rfl hp
  | u, [e], v, h, _ => ⟨[], e, rfl, by
      have := h.2.1
      rw [this]
      exact IsPath.refl (IsPath.source_lt hg h), h.1, h.2.2.1⟩
  | u, e :: e2 :: p, v, h, _ => by
    obtain ⟨p0, e', hp, h1, h2, h3⟩ := IsPath.last_edge hg h.2.2 (by simp)
    exact ⟨e :: p0, e', by rw [hp]; rfl, ⟨h.1, h.2.1, h1⟩, h2, h3⟩

theorem PostOrdered.reach_mem {g : Graph} (hg : g.WF) {r : List Nat} (h : PostOrdered g r) :
    ∀ {u : Nat} {p : List Nat} {v : Nat}, IsPath g u p v → u ∈ r → v ∈ r
  | _, [], _, hp, hu => hp.1 ▸ hu
  | _, e :: p, _, hp, hu => by
    have he : e ∈ g.out_edges (g.source e) := (hg.2.1 e hp.1).2.2
    rw [hp.2.1] at he
    exact PostOrdered.reach_mem hg h hp.2.2 (h _ hu e he).1

theorem relax_edge_step {g : Graph} {w : StdVector Int} {inf : Int} {s x : Nat}
    {d : StdVector Int} {e : Nat} (hg : g.WF) (hac : Acyclic g) (hw : w.size = g.num_edges)
    (hx : x < g.num_vertices) (he : e ∈ g.out_edges x) (hsize : d.size = g.num_vertices)
    (hreal : ∀ v, v < g.num_vertices → d.data v ≠ inf →
      ∃ p, IsPath g s p v ∧ pathWeight w p = d.data v)
    (hfin : d.data x ≠ inf) :
    ∃ d', relaxEdge g w x d e = some d' ∧ d'.size = g.num_vertices ∧
      d'.data x = d.data x ∧ (∀ v, d'.data v ≤ d.data v) ∧
      d'.data (g.target e) ≤ d.data x + w.data e ∧
      ∀ v, v < g.num_vertices → d'.data v ≠ inf →
        ∃ p, IsPath g s p v ∧ pathWeight w p = d'.data v := by
  obtain ⟨hen, hes⟩ := hg.2.2 x hx e he
  have ht : g.target e < g.num_vertices := (hg.2.1 e hen).2.1
  have htx : g.target e ≠ x := by
    intro h
    apply Acyclic.no_back_edge hg hac hx he
    rw [h]; exact Reachable.self hx
  have g1 := StdVector.get?_eq d (show g.target e < d.size by omega)
  have g2 := StdVector.get?_eq d (show x < d.size by omega)
  have g3 := StdVector.get?_eq w (show e < w.size by omega)
  have s1 : ∀ y, d.set? (g.target e) y = _ := fun y => StdVector.set?_eq d y (by omega)
  simp only [relaxEdge, g1, g2, g3, s1, Option.some_bind, Option.bind_eq_bind,
    Option.some.injEq, exists_eq_left']
  refine ⟨hsize, ?_, ?_, ?_, ?_⟩
  · show (if x = g.target e then _ else d.data x) = d.data x
    rw [if_neg (Ne.symm htx)]
  · intro v
    show (if v = g.target e then _ else d.data v) ≤ d.data v
    split
    · next h => rw [h]; exact min_le_left _ _
    · exact le_refl _
  · rw [if_pos trivial]; exact min_le_right _ _
  · intro v hv
    show (if v = g.target e then _ else d.data v) ≠ inf → ∃ p, IsPath g s p v ∧
      pathWeight w p = (if v = g.target e then _ else d.data v)
    by_cases hvt : v = g.target e
    · rw [if_pos hvt]
      intro hne
      by_cases hle : d.data (g.target e) ≤ d.data x + w.data e
      · rw [min_eq_left hle] at hne ⊢
        rw [hvt]
        exact hreal _ ht hne
      · rw [min_eq_right (by omega)]
        obtain ⟨p, hp, hpw⟩ := hreal x hx hfin
        refine ⟨p ++ [e], hp.append ?_, ?_⟩
        · have := IsPath.single hg hen
          rw [hes, ← hvt] at this
          exact this
        · rw [pathWeight_append, pathWeight_cons, pathWeight_nil, hpw]; omega
    · rw [if_neg hvt]
      exact hreal v hv

theorem relax_vertex_step {g : Graph} {w : StdVector Int} {inf : Int} {s x : Nat}
    {pre suf r : List Nat} {dist : StdVector Int} (hg : g.WF) (hac : Acyclic g)
    (hw : w.size = g.num_edges) (hinf : InfAbovePaths g w s inf)
    (hr : PostOrdered g r) (hsr : s ∈ r) (hrs : ∀ v ∈ r, Reachable g s v)
    (hsplit : r.reverse = pre ++ x :: suf) (h : RelaxInv g w inf s pre dist) :
    ∃ d', relax_out_edges g w dist x = some d' ∧ RelaxInv g w inf s (pre ++ [x]) d' := by
  have hxr : x ∈ r := by
    have : x ∈ r.reverse := by rw [hsplit]; simp
    simpa using this
  obtain ⟨px, hpx⟩ := hrs x hxr
  have hx : x < g.num_vertices := hpx.target_lt hg
  have hrsplit : r = suf.reverse ++ x :: pre.reverse := by
    have := congrArg List.reverse hsplit
    simpa using this
  have hfx : ∀ p, IsPath g s p x → dist.data x ≤ pathWeight w p := by
    intro p hp
    by_cases hp0 : p = []
    · subst hp0
      have : s = x := hp.1
      subst this
      rw [pathWeight_nil]; exact h.src
    · obtain ⟨p0, e, hpe, hp0, hen, het⟩ := IsPath.last_edge hg hp hp0
      have hyr : g.source e ∈ r := PostOrdered.reach_mem hg hr hp0 hsr
      have heo : e ∈ g.out_edges (g.source e) := (hg.2.1 e hen).2.2
      have hyb := (hr _ hyr e heo).2 suf.reverse pre.reverse (by rw [het]; exact hrsplit)
      have hypre : g.source e ∈ pre := by simpa using hyb
      have := h.edge _ hypre e heo p0 hp0
      rw [het] at this
      rw [hpe, pathWeight_append, pathWeight_cons, pathWeight_nil]
      omega
  have hfin : dist.data x ≠ inf := by
    have := hfx px hpx
    have := hinf px x hpx
    omega
  obtain ⟨d', hd', hsize, hdx, hmono, hreal, hdone⟩ := foldlM_list_inv (relaxEdge g w x)
    (fun done d => d.size = g.num_vertices ∧ d.data x = dist.data x ∧
      (∀ v, d.data v ≤ dist.data v) ∧
      (∀ v, v < g.num_vertices → d.data v ≠ inf →
        ∃ p, IsPath g s p v ∧ pathWeight w p = d.data v) ∧
      ∀ e ∈ done, d.data (g.target e) ≤ dist.data x + w.data e)
    (g.out_edges x) dist
    ⟨h.size, rfl, fun _ => le_refl _, h.real, by simp⟩
    (by
      rintro done e rest d hsp ⟨hsize, hdx, hmono, hreal, hdone⟩
      have he : e ∈ g.out_edges x := by rw [hsp]; simp
      obtain ⟨d', hd', h1, h2, h3, h4, h5⟩ := relax_edge_step hg hac hw hx he hsize hreal
        (by rw [hdx]; exact hfin)
      refine ⟨d', hd', h1, by rw [h2, hdx], fun v => le_trans (h3 v) (hmono v), h5, ?_⟩
      intro e' he'
      rcases List.mem_append.1 he' with he' | he'
      · exact le_trans (h3 _) (hdone e' he')
      · simp only [List.mem_singleton] at he'
        subst he'
        rw [← hdx]; exact h4)
  refine ⟨d', by rw [relax_out_edges_eq]; exact hd', hsize, le_trans (hmono s) h.src, hreal,
    ?_, ?_⟩
  · intro y hy p hp
    rcases List.mem_append.1 hy with hy | hy
    · exact le_trans (hmono y) (h.final y hy p hp)
    · simp only [List.mem_singleton] at hy
      subst hy
      rw [hdx]; exact hfx p hp
  · intro y hy e he p hp
    rcases List.mem_append.1 hy with hy | hy
    · exact le_trans (hmono _) (h.edge y hy e he p hp)
    · simp only [List.mem_singleton] at hy
      subst hy
      have := hdone e he
      have := hfx p hp
      omega

/-- C1: on an acyclic graph, with a sentinel above every path weight from the source,
`dag_shortest_paths` returns a vector of length `num_vertices` with `dist[s] = 0`, holding for
every vertex the minimum total weight over all paths from `s`, or the sentinel when the
vertex is not reachable from `s`. -/
theorem dag_shortest_paths_correct (g : Graph) (w : StdVector Int) (inf : Int) (s fuel : Nat)
    (hg : g.WF) (hw : w.size = g.num_edges) (hac : Acyclic g) (hs : s < g.num_vertices)
    (hinf : InfAbovePaths g w s inf) (hf : g.num_vertices ≤ fuel) :
    ∃ dist, dag_shortest_paths fuel g s w inf = some dist ∧
      dist.size = g.num_vertices ∧ dist.data s = 0 ∧
      ∀ v, v < g.num_vertices →
        (Reachable g s v → IsMinPathWeight g w s v (dist.data v)) ∧
        (¬ Reachable g s v → dist.data v = inf) := by
  have hI0 : DfsInv g ⟨StdVector.assign g.num_vertices false, []⟩ [] :=
    ⟨rfl, by simp [StdVector.assign], by simp [StdVector.assign], by simp, by simp,
      by intro y hy; simp at hy⟩
  have hcard : (unvisited g.num_vertices
      (DfsState.mk (StdVector.assign g.num_vertices false) []).visited.data).card ≤ fuel := by
    have := Finset.card_filter_le (Finset.range g.num_vertices)
      (fun v => (StdVector.assign g.num_vertices false).data v = false)
    rw [Finset.card_range] at this
    exact le_trans this hf
  obtain ⟨st, hst, hI, ⟨new, hnew, hsn, hreach⟩, -⟩ :=
    dfs_spec hg hac fuel _ s [] hI0 rfl hs (by simp) hcard
  have hr : st.rev_topo = new := by simpa using hnew
  have hsr : s ∈ st.rev_topo := by rw [hr]; exact hsn
  have hrs : ∀ v ∈ st.rev_topo, Reachable g s v := by rw [hr]; exact hreach
  have hset := StdVector.set?_eq (StdVector.assign g.num_vertices inf) (0 : Int)
    (show s < (StdVector.assign g.num_vertices inf).size from hs)
  have hR0 : RelaxInv g w inf s []
      ⟨g.num_vertices, fun j => if j = s then 0 else (StdVector.assign g.num_vertices inf).data j⟩ := by
    refine ⟨rfl, by simp, ?_, by simp, by simp⟩
    intro v hv hne
    by_cases hvs : v = s
    · subst hvs
      exact ⟨[], IsPath.refl hv, by simp [pathWeight_nil]⟩
    · simp [hvs, StdVector.assign] at hne
  obtain ⟨dist, hdist, hR⟩ := foldlM_list_inv (relax_out_edges g w)
    (fun pre d => RelaxInv g w inf s pre d) st.rev_topo.reverse _ hR0
    (fun pre x suf d hsp h => relax_vertex_step hg hac hw hinf hI.closed hsr hrs hsp h)
  have hmin : ∀ v, Reachable g s v → IsMinPathWeight g w s v (dist.data v) := by
    rintro v ⟨p, hp⟩
    have hvr : v ∈ st.rev_topo.reverse := by
      simpa using PostOrdered.reach_mem hg hI.closed hp hsr
    have hle := hR.final v hvr
    have hne : dist.data v ≠ inf := by
      have := hle p hp
      have := hinf p v hp
      omega
    obtain ⟨q, hq, hqw⟩ := hR.real v (hp.target_lt hg) hne
    exact ⟨⟨q, hq, hqw⟩, hle⟩
  refine ⟨dist, ?_, hR.size, ?_, fun v hv => ⟨hmin v, ?_⟩⟩
  · unfold dag_shortest_paths
    simp only [hst, hset, Option.some_bind, Option.bind_eq_bind]
    exact hdist
  · obtain ⟨⟨q, hq, hqw⟩, -⟩ := hmin s (Reachable.self hs)
    rw [← hqw, hac s q hq, pathWeight_nil]
  · intro hnr
    by_contra hne
    obtain ⟨q, hq, -⟩ := hR.real v hv hne
    exact hnr ⟨q, hq⟩

/-- When every edge leads to a vertex with a larger id, a walk is shorter than the distance
between the ids of its endpoints. -/
theorem IsPath.length_le_of_increasing {g : Graph}
    (h : ∀ e, e < g.num_edges → g.source e < g.target e) :
    ∀ {u : Nat} {p : List Nat} {v : Nat}, IsPath g u p v → u + p.length ≤ v
  | _, [], _, hp => by simp [hp.1]
  | _, e :: p, _, hp => by
    have := IsPath.length_le_of_increasing h hp.2.2
    have := h e hp.1
    rw [hp.2.1] at this
    simp only [List.length_cons]
    omega

theorem acyclic_of_increasing {g : Graph}
    (h : ∀ e, e < g.num_edges → g.source e < g.target e) : Acyclic g := by
  intro v p hp
  have := IsPath.length_le_of_increasing h hp
  exact List.length_eq_zero.1 (by omega)

theorem infAbovePaths_of_increasing {g : Graph} {w : StdVector Int} {inf W : Int} (hg : g.WF)
    (h : ∀ e, e < g.num_edges → g.source e < g.target e)
    (hb : ∀ e, e < g.num_edges → w.data e ≤ W) (hW : 0 ≤ W) (hlt : g.num_vertices * W < inf)
    (s : Nat) : InfAbovePaths g w s inf := by
  intro p v hp
  have h1 := IsPath.length_le_of_increasing h hp
  have h2 := hp.target_lt hg
  have h3 : pathWeight w p ≤ p.length * W := by
    clear h1
    induction p generalizing s with
    | nil => simp [pathWeight_nil]
    | cons e p ih =>
      have := ih _ hp.2.2
      have := hb e hp.1
      rw [pathWeight_cons, List.length_cons]
      push_cast
      linarith
  have h4 : (p.length : Int) * W ≤ g.num_vertices * W :=
    mul_le_mul_of_nonneg_right (by exact_mod_cast (by omega : p.length ≤ g.num_vertices)) hW
  linarith

theorem dag_shortest_paths_correct_witness :
    (∃ dist, dag_shortest_paths 5 specDag 0 specDagWeights 1000 = some dist ∧
      dist.size = specDag.num_vertices ∧ dist.data 0 = 0 ∧
      ∀ v, v < specDag.num_vertices →
        (Reachable specDag 0 v → IsMinPathWeight specDag specDagWeights 0 v (dist.data v)) ∧
        (¬ Reachable specDag 0 v → dist.data v = 1000)) ∧
    (dag_shortest_paths 5 specDag 0 specDagWeights 1000).map StdVector.toList =
      some [0, 3, 4, 5, 1000] :=
  ⟨dag_shortest_paths_correct specDag specDagWeights 1000 0 5 (by decide) rfl
    (acyclic_of_increasing (by decide)) (by decide)
    (infAbovePaths_of_increasing (W := 5) (by decide) (by decide) (by decide) (by decide)
      (by decide) 0) (by decide), by decide⟩

end Djp

namespace Djp

theorem dfs_visit_succ (fuel : Nat) (g : Graph) (st : SccState) (v : Nat) :
    dfs_visit (fuel + 1) g st v =
      (enter_visit st v).bind (fun st1 =>
        ((g.out_edges v).foldlM (sccEdge fuel g v) st1).bind (fun st2 => finish_visit st2 v)) :=
  rfl

/-- The pop loop removes the part of the stack above `v` and `v` itself, labelling it. -/
theorem pop_component_spec (v cnt : Nat) (rest : List Nat) :
    ∀ (above : List Nat) (comp : StdVector Nat), v ∉ above →
      (∀ x ∈ above, x < comp.size) → v < comp.size →
      ∃ comp', pop_component v cnt (above ++ v :: rest) comp = some (rest, comp') ∧
        comp'.size = comp.size ∧
        ∀ x, comp'.data x = if x ∈ above ∨ x = v then cnt else comp.data x := by
  intro above
  induction above with
  | nil =>
    intro comp _ _ hv
    refine ⟨⟨comp.size, fun j => if j = v then cnt else comp.data j⟩,
      by simp [pop_component, StdVector.set?_eq comp cnt hv], rfl, ?_⟩
    intro x; simp
  | cons a above ih =>
    intro comp hva hlt hv
    have hne : a ≠ v := fun h => hva (h ▸ List.mem_cons_self _ _)
    have ha : a < comp.size := hlt a (List.mem_cons_self _ _)
    obtain ⟨comp', h1, h2, h3⟩ := ih ⟨comp.size, fun j => if j = a then cnt else comp.data j⟩
      (fun h => hva (List.mem_cons_of_mem _ h))
      (fun x hx => hlt x (List.mem_cons_of_mem _ hx)) hv
    refine ⟨comp', ?_, h2, ?_⟩
    · simp only [List.cons_append, pop_component, StdVector.set?_eq comp cnt ha,
        Option.some_bind, Option.bind_eq_bind, ne_eq, hne, not_false_eq_true, if_true]
      exact h1
    · intro x
      rw [h3]
      by_cases hxa : x = a
      · simp [hxa]
      · simp [hxa]

theorem finalFlag_iff (st : SccState) (x : Nat) : finalFlag st x = true ↔ Final st x := by
  simp [finalFlag, Final]

theorem seenFlag_iff (st : SccState) (x : Nat) : seenFlag st x = true ↔ st.dtm.data x ≠ 0 := by
  simp [seenFlag]

theorem SccInv.not_mem_of_unseen {g : Graph} {st : SccState} {gs : List Nat}
    (h : SccInv g st gs) {v : Nat} (hv : st.dtm.data v = 0) : v ∉ st.s :=
  fun hm => ((h.stk v).1 hm).1 hv

theorem SccInv.cnt_le {g : Graph} {st : SccState} {gs : List Nat} (hg : g.WF)
    (h : SccInv g st gs) : st.comp_cnt ≤ SIZE_MAX := by
  have := h.cntb
  have := hg.1
  omega

theorem enter_visit_eq {g : Graph} {st : SccState} {gs : List Nat} {v : Nat}
    (h : SccInv g st gs) (hv : v < g.num_vertices) :
    enter_visit st v = some (enterState st v) := by
  have e1 : ∀ y, st.dtm.set? v y = _ :=
    fun y => StdVector.set?_eq st.dtm y (by rw [h.size_dtm]; exact hv)
  have e2 : ∀ y, st.low.set? v y = _ :=
    fun y => StdVector.set?_eq st.low y (by rw [h.size_low]; exact hv)
  have e3 : ∀ y, st.comp.set? v y = _ :=
    fun y => StdVector.set?_eq st.comp y (by rw [h.size_comp]; exact hv)
  have e4 : ∀ y, (StdVector.mk st.dtm.size (fun j => if j = v then y else st.dtm.data j)).get? v
      = some y := fun y => by
    simp [StdVector.get?, h.size_dtm, hv]
  simp only [enter_visit, e1, e2, e3, e4, Option.some_bind, Option.bind_eq_bind,
    Option.pure_def, enterState]

/-- Entering `dfs_visit(v)` for an undiscovered `v`: the state after the stamping and the push
satisfies the loop invariant for no edge handled. -/
theorem scc_enter {g : Graph} {st : SccState} {gs : List Nat} {v : Nat}
    (h : SccInv g st gs) (hv : v < g.num_vertices) (hw : st.dtm.data v = 0)
    (hr : ∀ x ∈ gs, Reachable g x v) : VisitInv g st v gs [] (enterState st v) := by
  have hvs : v ∉ st.s := h.not_mem_of_unseen hw
  have hgsv : ∀ x ∈ gs, x ≠ v := fun x hx hxv => hvs (hxv ▸ h.gss x hx)
  have hsv : ∀ x ∈ st.s, x ≠ v := fun x hx hxv => hvs (hxv ▸ hx)
  have hd : ∀ x, (enterState st v).dtm.data x = if x = v then st.time + 1 else st.dtm.data x :=
    fun _ => rfl
  have hl : ∀ x, (enterState st v).low.data x = if x = v then st.time + 1 else st.low.data x :=
    fun _ => rfl
  have hc : ∀ x, (enterState st v).comp.data x = if x = v then SIZE_MAX else st.comp.data x :=
    fun _ => rfl
  have hs : (enterState st v).s = v :: st.s := rfl
  have hdv : (enterState st v).dtm.data v = st.time + 1 := by rw [hd, if_pos rfl]
  have hdn : ∀ x, x ≠ v → (enterState st v).dtm.data x = st.dtm.data x :=
    fun x hx => by rw [hd, if_neg hx]
  have hcn : ∀ x, x ≠ v → (enterState st v).comp.data x = st.comp.data x :=
    fun x hx => by rw [hc, if_neg hx]
  have hln : ∀ x, x ≠ v → (enterState st v).low.data x = st.low.data x :=
    fun x hx => by rw [hl, if_neg hx]
  have hfne : ∀ x, Final st x → x ≠ v := fun x hx hxv => hx.1 (hxv ▸ hw)
  have hfin : ∀ x, Final (enterState st v) x ↔ Final st x := by
    intro x
    unfold Final
    rw [hs]
    by_cases hxv : x = v
    · subst hxv; simp [hw]
    · rw [hdn x hxv]; simp [hxv]
  refine ⟨?_, ?_, hdv, ?_, ⟨[], rfl, by simp⟩, by simp, by simp⟩
  · refine ⟨h.size_low, h.size_dtm, h.size_comp, ?_, ?_, ?_, ?_, ?_, ?_, ?_, ?_, ?_, ?_, ?_,
      ?_, ?_, ?_⟩
    · intro x
      by_cases hxv : x = v
      · intro _; rw [hxv]; exact hv
      · rw [hdn x hxv]; exact h.vlt x
    · intro x
      show _ ≤ st.time + 1
      by_cases hxv : x = v
      · rw [hxv, hdv]
      · rw [hdn x hxv]; exact Nat.le_succ_of_le (h.tm x)
    · intro x
      rw [hs]
      by_cases hxv : x = v
      · subst hxv; rw [hdv, hc, if_pos rfl]; simp
      · rw [hdn x hxv, hcn x hxv]
        simp only [List.mem_cons, hxv, false_or]; exact h.stk x
    · intro x
      rw [hs]
      by_cases hxv : x = v
      · intro _ hn; exact absurd (hxv ▸ List.mem_cons_self _ _) hn
      · rw [hdn x hxv, hcn x hxv]
        simp only [List.mem_cons, hxv, false_or]; exact h.cmp x
    · refine le_trans (Nat.add_le_add_left (unvisited_card_mono ?_) _) h.cntb
      intro x hx
      rw [finalFlag_iff] at hx ⊢
      exact (hfin x).2 hx
    · rw [hs]
      refine List.pairwise_cons.2 ⟨?_, ?_⟩
      · intro b hb
        rw [hdn b (hsv b hb), hdv]
        exact Nat.lt_succ_of_le (h.tm b)
      · refine h.srt.imp_of_mem ?_
        intro a b ha hb hab
        rw [hdn a (hsv a ha), hdn b (hsv b hb)]; exact hab
    · intro x hx
      rw [hs]
      rcases List.mem_cons.1 hx with rfl | hx
      · exact List.mem_cons_self _ _
      · exact List.mem_cons_of_mem _ (h.gss x hx)
    · intro x hx y hy
      rw [hs] at hy
      rcases List.mem_cons.1 hy with rfl | hy
      · intro _
        rcases List.mem_cons.1 hx with rfl | hx
        · exact Reachable.self hv
        · exact hr x hx
      · rw [hdn y (hsv y hy)]
        rcases List.mem_cons.1 hx with rfl | hx
        · rw [hdv]
          intro hle
          have := h.tm y
          omega
        · rw [hdn x (hgsv x hx)]
          exact h.g7 x hx y hy
    · intro y hy
      rw [hs] at hy
      rcases List.mem_cons.1 hy with rfl | hy
      · exact ⟨y, List.mem_cons_self _ _, le_refl _, Reachable.self hv⟩
      · obtain ⟨x, hx, hle, hre⟩ := h.g8 y hy
        refine ⟨x, List.mem_cons_of_mem _ hx, ?_, hre⟩
        rw [hdn x (hgsv x hx), hdn y (hsv y hy)]; exact hle
    · intro y hy hyg e he
      have hyv : y ≠ v := fun hyv => hyg (hyv ▸ List.mem_cons_self _ _)
      rw [hdn y hyv] at hy
      have := h.nbw y hy (fun hm => hyg (List.mem_cons_of_mem _ hm)) e he
      by_cases ht : g.target e = v
      · rw [ht, hdv]; omega
      · rw [hdn _ ht]; exact this
    · intro y hy e he
      rw [hfin] at hy ⊢
      obtain ⟨h1, h2⟩ := h.fcl y hy e he
      rw [hcn _ (hfne _ h1), hcn y (hfne y hy)]
      exact ⟨h1, h2⟩
    · intro y hy u
      rw [hfin] at hy ⊢
      rw [h.scc y hy u, hcn y (hfne y hy)]
      constructor
      · rintro ⟨h1, h2⟩; exact ⟨h1, by rw [hcn u (hfne u h1)]; exact h2⟩
      · rintro ⟨h1, h2⟩; exact ⟨h1, by rw [hcn u (hfne u h1)] at h2; exact h2⟩
    · intro c hc'
      obtain ⟨x, hx, hxc⟩ := h.sur c hc'
      exact ⟨x, (hfin x).2 hx, by rw [hcn x (hfne x hx)]; exact hxc⟩
    · intro y hy
      rw [hs] at hy ⊢
      rcases List.mem_cons.1 hy with rfl | hy
      · rw [hl, if_pos rfl, hdv]
        exact ⟨le_refl _, y, List.mem_cons_self _ _, hdv, Reachable.self hv⟩
      · have hyv := hsv y hy
        rw [hln y hyv, hdn y hyv]
        obtain ⟨h1, z, hz, hz1, hz2⟩ := h.lowle y hy
        exact ⟨h1, z, List.mem_cons_of_mem _ hz, by rw [hdn z (hsv z hz)]; exact hz1, hz2⟩
  · intro x hx
    have hxv : x ≠ v := fun hxv => hx (hxv ▸ hw)
    exact ⟨hdn x hxv, hln x hxv, hcn x hxv⟩
  · intro x hx hx0
    by_cases hxv : x = v
    · rw [hxv]; exact Reachable.self hv
    · rw [hdn x hxv] at hx; exact absurd hx0 hx

end Djp

namespace Djp

theorem fold_low_eq {g : Graph} {st : SccState} {gs : List Nat} {v w : Nat}
    (h : SccInv g st gs) (hv : v < g.num_vertices) (hw : w < g.num_vertices) :
    fold_low st v w = some (foldState st v w) := by
  have g1 := StdVector.get?_eq st.comp (i := w) (by rw [h.size_comp]; exact hw)
  have g2 := StdVector.get?_eq st.low (i := v) (by rw [h.size_low]; exact hv)
  have g3 := StdVector.get?_eq st.low (i := w) (by rw [h.size_low]; exact hw)
  have e1 : ∀ y, st.low.set? v y = _ :=
    fun y => StdVector.set?_eq st.low y (by rw [h.size_low]; exact hv)
  simp only [fold_low, g1, g2, g3, e1, Option.some_bind, Option.bind_eq_bind, Option.pure_def,
    foldState]
  split <;> rfl

theorem VisitInv.toMid {g : Graph} {st : SccState} {v : Nat} {gs done : List Nat}
    {stc : SccState} (h : VisitInv g st v gs done stc) {w : Nat}
    (hw : stc.dtm.data w ≠ 0) : VisitMid g st v gs done w stc := by
  obtain ⟨above, h1, h2⟩ := h.stack
  exact ⟨h.inv, h.frame, h.dv, h.reach, ⟨above, h1, fun y hy e he ht => Or.inl (h2 y hy e he ht)⟩,
    h.done_seen, h.done_low, hw⟩

/-- After the recursive call for the target `w` of an out-edge of `v` has returned. -/
theorem VisitMid.of_post {g : Graph} {st : SccState} {v : Nat} {gs done : List Nat}
    {stc st' : SccState} {w : Nat} (h : VisitInv g st v gs done stc)
    (hvw : Reachable g v w) (hp : VisitPost g stc w (v :: gs) st') :
    VisitMid g st v gs done w st' := by
  obtain ⟨above, h1, h2⟩ := h.stack
  obtain ⟨new, p1, p2, p3⟩ := hp.stack
  have hvseen : stc.dtm.data v ≠ 0 := by rw [h.dv]; omega
  have hseen : ∀ t, t ∈ v :: st.s → t ∈ stc.s := by
    intro t ht; rw [h1]; exact List.mem_append_right _ ht
  have hdt : ∀ t, t ∈ stc.s → st'.dtm.data t = stc.dtm.data t :=
    fun t ht => (hp.frame t ((h.inv.stk t).1 ht).1).1
  refine ⟨hp.inv, ?_, ?_, ?_, ⟨new ++ above, by rw [p1, h1, List.append_assoc], ?_⟩, ?_, ?_,
    hp.seen⟩
  · intro x hx
    obtain ⟨a1, a2, a3⟩ := h.frame x hx
    obtain ⟨b1, b2, b3⟩ := hp.frame x (by rw [a1]; exact hx)
    exact ⟨by rw [b1, a1], by rw [b2, a2], by rw [b3, a3]⟩
  · rw [(hp.frame v hvseen).1]; exact h.dv
  · intro x hx hx0
    by_cases hxc : stc.dtm.data x = 0
    · exact hvw.trans (hp.reach x hx hxc)
    · exact h.reach x hxc hx0
  · intro y hy e he ht
    rcases List.mem_append.1 hy with hy | hy
    · right
      have hwn : w ∈ new := by
        rcases p2 with rfl | hw
        · simp at hy
        · exact hw
      exact ⟨by rw [p1]; exact List.mem_append_left _ hwn, p3 y hy e he (hseen _ ht)⟩
    · left
      rw [(hp.frame v hvseen).2.1, hdt _ (hseen _ ht)]
      exact h2 y hy e he ht
  · intro e he
    rw [(hp.frame _ (h.done_seen e he)).1]
    exact h.done_seen e he
  · intro e he ht
    rw [(hp.frame v hvseen).2.1, hdt _ (hseen _ ht)]
    exact h.done_low e he ht

/-- The second statement of the loop body re-establishes the loop invariant. -/
theorem VisitMid.fold {g : Graph} {st : SccState} {v : Nat} {gs done : List Nat}
    {sm : SccState} {w e : Nat} (h : VisitMid g st v gs done w sm)
    (hun : st.dtm.data v = 0) (hvw : Reachable g v w) (hew : g.target e = w) :
    VisitInv g st v gs (done ++ [e]) (foldState sm v w) := by
  obtain ⟨above, h1, h2⟩ := h.stack
  have hvs : v ∈ sm.s := h.inv.gss v (List.mem_cons_self _ _)
  have hvst : ∀ t, t ∈ v :: st.s → t ∈ sm.s := by
    intro t ht; rw [h1]; exact List.mem_append_right _ ht
  by_cases hc : sm.comp.data w = SIZE_MAX
  · have hws : w ∈ sm.s := (h.inv.stk w).2 ⟨h.seen, hc⟩
    have hfs : foldState sm v w = ⟨sm.time, sm.comp_cnt, sm.s,
        ⟨sm.low.size, fun j => if j = v then min (sm.low.data v) (sm.low.data w)
          else sm.low.data j⟩, sm.dtm, sm.comp⟩ := by
      unfold foldState; rw [if_pos hc]
    rw [hfs]
    have hlv : ∀ x, x ≠ v → (if x = v then min (sm.low.data v) (sm.low.data w)
        else sm.low.data x) = sm.low.data x := fun x hx => if_neg hx
    refine ⟨⟨h.inv.size_low, h.inv.size_dtm, h.inv.size_comp, h.inv.vlt, h.inv.tm, h.inv.stk,
      h.inv.cmp, h.inv.cntb, h.inv.srt, h.inv.gss, h.inv.g7, h.inv.g8, h.inv.nbw, h.inv.fcl,
      h.inv.scc, h.inv.sur, ?_⟩, ?_, h.dv, h.reach, ⟨above, h1, ?_⟩, ?_, ?_⟩
    · intro y hy
      show (if y = v then min (sm.low.data v) (sm.low.data w) else sm.low.data y) ≤ _ ∧
        ∃ z ∈ sm.s, sm.dtm.data z =
          (if y = v then min (sm.low.data v) (sm.low.data w) else sm.low.data y) ∧ _
      by_cases hyv : y = v
      · subst hyv
        rw [if_pos rfl]
        obtain ⟨a1, z, a2, a3, a4⟩ := h.inv.lowle y hy
        refine ⟨le_trans (min_le_left _ _) a1, ?_⟩
        by_cases hle : sm.low.data y ≤ sm.low.data w
        · rw [min_eq_left hle]; exact ⟨z, a2, a3, a4⟩
        · rw [min_eq_right (by omega)]
          obtain ⟨-, z', b2, b3, b4⟩ := h.inv.lowle w hws
          exact ⟨z', b2, b3, hvw.trans b4⟩
      · rw [if_neg hyv]; exact h.inv.lowle y hy
    · intro x hx
      have hxv : x ≠ v := fun hxv => hx (hxv ▸ hun)
      obtain ⟨a1, a2, a3⟩ := h.frame x hx
      exact ⟨a1, by show (if x = v then _ else _) = _; rw [if_neg hxv]; exact a2, a3⟩
    · intro y hy e' he' ht
      show (if v = v then min (sm.low.data v) (sm.low.data w) else sm.low.data v) ≤ _
      rw [if_pos rfl]
      rcases h2 y hy e' he' ht with hh | ⟨-, hh⟩
      · exact le_trans (min_le_left _ _) hh
      · exact le_trans (min_le_right _ _) hh
    · intro e' he'
      rcases List.mem_append.1 he' with he' | he'
      · exact h.done_seen e' he'
      · simp only [List.mem_singleton] at he'
        rw [he', hew]; exact h.seen
    · intro e' he' ht
      show (if v = v then min (sm.low.data v) (sm.low.data w) else sm.low.data v) ≤ _
      rw [if_pos rfl]
      rcases List.mem_append.1 he' with he' | he'
      · exact le_trans (min_le_left _ _) (h.done_low e' he' ht)
      · simp only [List.mem_singleton] at he'
        rw [he', hew]
        exact le_trans (min_le_right _ _) (h.inv.lowle w hws).1
  · have hws : w ∉ sm.s := fun hm => hc ((h.inv.stk w).1 hm).2
    have hfs : foldState sm v w = sm := by unfold foldState; rw [if_neg hc]
    rw [hfs]
    refine ⟨h.inv, h.frame, h.dv, h.reach, ⟨above, h1, ?_⟩, ?_, ?_⟩
    · intro y hy e' he' ht
      rcases h2 y hy e' he' ht with hh | ⟨hh, -⟩
      · exact hh
      · exact absurd hh hws
    · intro e' he'
      rcases List.mem_append.1 he' with he' | he'
      · exact h.done_seen e' he'
      · simp only [List.mem_singleton] at he'
        rw [he', hew]; exact h.seen
    · intro e' he' ht
      rcases List.mem_append.1 he' with he' | he'
      · exact h.done_low e' he' ht
      · simp only [List.mem_singleton] at he'
        rw [he', hew] at ht
        exact absurd (hvst w ht) hws

end Djp

namespace Djp

/-- What has left the stack is closed under reachability, and labels do not grow along it. -/
theorem final_reach {g : Graph} (hg : g.WF) {st : SccState}
    (hf : ∀ y, Final st y → ∀ e ∈ g.out_edges y,
      Final st (g.target e) ∧ st.comp.data (g.target e) ≤ st.comp.data y) :
    ∀ {y : Nat} {p : List Nat} {u : Nat}, IsPath g y p u → Final st y →
      Final st u ∧ st.comp.data u ≤ st.comp.data y
  | _, [], _, hp, hy => by
    have := hp.1
    subst this
    exact ⟨hy, le_refl _⟩
  | _, e :: p, _, hp, hy => by
    have he : e ∈ g.out_edges (g.source e) := (hg.2.1 e hp.1).2.2
    rw [hp.2.1] at he
    obtain ⟨h1, h2⟩ := hf _ hy e he
    obtain ⟨h3, h4⟩ := final_reach hg hf hp.2.2 h1
    exact ⟨h3, le_trans h4 h2⟩

/-- Leaving `dfs_visit(v)` when `v` is not the root of its component. -/
theorem finish_nonroot {g : Graph} {st : SccState} {v : Nat} {gs : List Nat} {st2 : SccState}
    (h : VisitInv g st v gs (g.out_edges v) st2) (hlt : st2.low.data v ≠ st2.dtm.data v) :
    VisitPost g st v gs st2 := by
  obtain ⟨above, h1, h2⟩ := h.stack
  have hI := h.inv
  have hvs : v ∈ st2.s := hI.gss v (List.mem_cons_self _ _)
  obtain ⟨l1, z, hz, hz1, hz2⟩ := hI.lowle v hvs
  have hzlt : st2.dtm.data z < st2.dtm.data v := by omega
  obtain ⟨x', hx', hx1, hx2⟩ := hI.g8 z hz
  have hx'g : x' ∈ gs := by
    rcases List.mem_cons.1 hx' with rfl | hx'
    · omega
    · exact hx'
  refine ⟨⟨hI.size_low, hI.size_dtm, hI.size_comp, hI.vlt, hI.tm, hI.stk, hI.cmp, hI.cntb,
    hI.srt, fun x hx => hI.gss x (List.mem_cons_of_mem _ hx),
    fun x hx => hI.g7 x (List.mem_cons_of_mem _ hx), ?_, ?_, hI.fcl, hI.scc, hI.sur, hI.lowle⟩,
    h.frame, by rw [h.dv]; omega, h.reach, ⟨above ++ [v], by rw [h1]; simp, Or.inr (by simp), ?_⟩⟩
  · intro y hy
    obtain ⟨x, hx, hx3, hx4⟩ := hI.g8 y hy
    rcases List.mem_cons.1 hx with rfl | hx
    · exact ⟨x', hx'g, by omega, hx4.trans (hz2.trans hx2)⟩
    · exact ⟨x, hx, hx3, hx4⟩
  · intro y hy hyg e he
    by_cases hyv : y = v
    · subst hyv; exact h.done_seen e he
    · exact hI.nbw y hy (fun hm => by
        rcases List.mem_cons.1 hm with hm | hm
        · exact hyv hm
        · exact hyg hm) e he
  · intro y hy e he ht
    rcases List.mem_append.1 hy with hy | hy
    · exact h2 y hy e he (List.mem_cons_of_mem _ ht)
    · simp only [List.mem_singleton] at hy
      subst hy
      exact h.done_low e he (List.mem_cons_of_mem _ ht)

/-- Leaving `dfs_visit(v)` when `v` is the root of its component: the pop loop runs, and what
it pops is exactly the strongly connected component of `v`. -/
theorem finish_root {g : Graph} {st : SccState} {v : Nat} {gs : List Nat} {st2 : SccState}
    (hg : g.WF) (h0 : SccInv g st gs) (hv : v < g.num_vertices)
    (h : VisitInv g st v gs (g.out_edges v) st2) (hroot : st2.low.data v = st2.dtm.data v) :
    ∃ st', finish_visit st2 v = some st' ∧ VisitPost g st v gs st' := by
  obtain ⟨above, h1, h2⟩ := h.stack
  have hI := h.inv
  have hsrt := hI.srt
  rw [h1] at hsrt
  obtain ⟨-, hp2, hp3⟩ := List.pairwise_append.1 hsrt
  obtain ⟨hp4, hp5⟩ := List.pairwise_cons.1 hp2
  have habove : ∀ a ∈ above, st2.dtm.data v < st2.dtm.data a :=
    fun a ha => hp3 a ha v (List.mem_cons_self _ _)
  have hva : v ∉ above := fun hm => lt_irrefl _ (habove v hm)
  have hCns : ∀ x, (x ∈ above ∨ x = v) → x ∉ st.s := by
    rintro x (hx | rfl) hm
    · have := habove x hx
      have := hp4 x hm
      omega
    · exact lt_irrefl _ (hp4 x hm)
  have hmem2 : ∀ x, x ∈ st2.s ↔ ((x ∈ above ∨ x = v) ∨ x ∈ st.s) := by
    intro x
    rw [h1]
    simp only [List.mem_append, List.mem_cons]
    tauto
  have hCseen : ∀ x, (x ∈ above ∨ x = v) → st2.dtm.data x ≠ 0 :=
    fun x hx => ((hI.stk x).1 ((hmem2 x).2 (Or.inl hx))).1
  have hCge : ∀ x, (x ∈ above ∨ x = v) → st2.dtm.data v ≤ st2.dtm.data x := by
    rintro x (hx | rfl)
    · exact le_of_lt (habove x hx)
    · exact le_refl _
  have hvs2 : v ∈ st2.s := (hmem2 v).2 (Or.inl (Or.inr rfl))
  have hgs : ∀ x ∈ gs, x ∈ st.s := h0.gss
  have hcnt : st2.comp_cnt < SIZE_MAX := by
    have hmem : v ∈ unvisited g.num_vertices (finalFlag st2) := by
      simp only [unvisited, Finset.mem_filter, Finset.mem_range]
      refine ⟨hv, ?_⟩
      cases hf : finalFlag st2 v with
      | false => rfl
      | true => exact absurd hvs2 ((finalFlag_iff st2 v).1 hf).2
    have := Finset.card_pos.2 ⟨v, hmem⟩
    have := hI.cntb
    have := hg.1
    omega
  obtain ⟨comp', hpop, hsz, hcomp⟩ := pop_component_spec v st2.comp_cnt st.s above st2.comp hva
    (fun x hx => by rw [hI.size_comp]; exact hI.vlt x (hCseen x (Or.inl hx)))
    (by rw [hI.size_comp]; exact hv)
  have hcC : ∀ x, (x ∈ above ∨ x = v) → comp'.data x = st2.comp_cnt :=
    fun x hx => by rw [hcomp, if_pos hx]
  have hcN : ∀ x, ¬ (x ∈ above ∨ x = v) → comp'.data x = st2.comp.data x :=
    fun x hx => by rw [hcomp, if_neg hx]
  have hF2 : ∀ x, Final st2 x → ¬ (x ∈ above ∨ x = v) ∧ x ∉ st.s :=
    fun x hx => ⟨fun hC => hx.2 ((hmem2 x).2 (Or.inl hC)), fun hm => hx.2 ((hmem2 x).2 (Or.inr hm))⟩
  have hFN : ∀ x, st2.dtm.data x ≠ 0 → x ∉ st.s → ¬ (x ∈ above ∨ x = v) → Final st2 x :=
    fun x hx hs hC => ⟨hx, fun hm => ((hmem2 x).1 hm).elim hC hs⟩
  have hCv : ∀ x, (x ∈ above ∨ x = v) → Reachable g v x ∧ Reachable g x v := by
    intro x hx
    have hxs : x ∈ st2.s := (hmem2 x).2 (Or.inl hx)
    refine ⟨hI.g7 v (List.mem_cons_self _ _) x hxs (hCge x hx), ?_⟩
    obtain ⟨x', hx', -, hx2⟩ := hI.g8 x hxs
    rcases List.mem_cons.1 hx' with rfl | hx'
    · exact hx2
    · exact hx2.trans (hI.g7 x' (List.mem_cons_of_mem _ hx') v hvs2
        (le_of_lt (hp4 x' (hgs x' hx'))))
  have hfcl : ∀ y, st2.dtm.data y ≠ 0 ∧ y ∉ st.s → ∀ e ∈ g.out_edges y,
      (st2.dtm.data (g.target e) ≠ 0 ∧ g.target e ∉ st.s) ∧
        comp'.data (g.target e) ≤ comp'.data y := by
    intro y hy e he
    by_cases hC : y ∈ above ∨ y = v
    · have hts : st2.dtm.data (g.target e) ≠ 0 := by
        rcases hC with hya | rfl
        · refine hI.nbw y hy.1 ?_ e he
          intro hm
          rcases List.mem_cons.1 hm with rfl | hm
          · exact hva hya
          · exact hCns y (Or.inl hya) (hgs y hm)
        · exact h.done_seen e he
      have htn : g.target e ∉ st.s := by
        intro hm
        have hlow : st2.low.data v ≤ st2.dtm.data (g.target e) := by
          rcases hC with hya | rfl
          · exact h2 y hya e he (List.mem_cons_of_mem _ hm)
          · exact h.done_low e he (List.mem_cons_of_mem _ hm)
        have := hp4 _ hm
        omega
      refine ⟨⟨hts, htn⟩, ?_⟩
      rw [hcC y hC]
      by_cases hCt : g.target e ∈ above ∨ g.target e = v
      · rw [hcC _ hCt]
      · rw [hcN _ hCt]
        exact le_of_lt (hI.cmp _ hts (hFN _ hts htn hCt).2)
    · have hy2 := hFN y hy.1 hy.2 hC
      obtain ⟨a1, a2⟩ := hI.fcl y hy2 e he
      obtain ⟨b1, b2⟩ := hF2 _ a1
      rw [hcN _ b1, hcN y hC]
      exact ⟨⟨a1.1, b2⟩, a2⟩
  refine ⟨⟨st2.time, st2.comp_cnt + 1, st.s, st2.low, st2.dtm, comp'⟩, ?_, ?_⟩
  · have g1 := StdVector.get?_eq st2.dtm (i := v) (by rw [hI.size_dtm]; exact hv)
    have g2 := StdVector.get?_eq st2.low (i := v) (by rw [hI.size_low]; exact hv)
    simp only [finish_visit, g1, g2, Option.some_bind, Option.bind_eq_bind, hroot, ne_eq,
      not_true_eq_false, if_false, h1, hpop, Option.pure_def]
  · refine ⟨⟨hI.size_low, hI.size_dtm, hsz.trans hI.size_comp, hI.vlt, hI.tm, ?_, ?_, ?_, hp5,
      hgs, ?_, ?_, ?_, hfcl, ?_, ?_, ?_⟩, ?_, hCseen v (Or.inr rfl), h.reach,
      ⟨[], rfl, Or.inl rfl, by simp⟩⟩
    · intro x
      show x ∈ st.s ↔ (st2.dtm.data x ≠ 0 ∧ comp'.data x = SIZE_MAX)
      by_cases hC : x ∈ above ∨ x = v
      · rw [hcC x hC]
        constructor
        · intro hm; exact absurd hm (hCns x hC)
        · rintro ⟨-, hh⟩; omega
      · rw [hcN x hC, ← hI.stk x, hmem2 x]
        tauto
    · intro x hx hxs
      show comp'.data x < st2.comp_cnt + 1
      by_cases hC : x ∈ above ∨ x = v
      · rw [hcC x hC]; omega
      · rw [hcN x hC]
        exact Nat.lt_succ_of_lt (hI.cmp x hx (hFN x hx hxs hC).2)
    · show st2.comp_cnt + 1 + _ ≤ _
      have hlt := @unvisited_card_lt g.num_vertices (finalFlag st2)
        (finalFlag ⟨st2.time, st2.comp_cnt + 1, st.s, st2.low, st2.dtm, comp'⟩)
        (by
          intro x hx
          rw [finalFlag_iff] at hx ⊢
          exact ⟨hx.1, (hF2 x hx).2⟩) v hv
        (by
          cases hf : finalFlag st2 v with
          | false => rfl
          | true => exact absurd hvs2 ((finalFlag_iff st2 v).1 hf).2)
        (by
          rw [finalFlag_iff]
          exact ⟨hCseen v (Or.inr rfl), hCns v (Or.inr rfl)⟩)
      have := hI.cntb
      omega
    · intro x hx y hy
      exact hI.g7 x (List.mem_cons_of_mem _ hx) y ((hmem2 y).2 (Or.inr hy))
    · intro y hy
      obtain ⟨x, hx, hx1, hx2⟩ := hI.g8 y ((hmem2 y).2 (Or.inr hy))
      rcases List.mem_cons.1 hx with rfl | hx
      · have := hp4 y hy
        exact absurd hx1 (by omega)
      · exact ⟨x, hx, hx1, hx2⟩
    · intro y hy hyg e he
      by_cases hyv : y = v
      · subst hyv; exact h.done_seen e he
      · exact hI.nbw y hy (fun hm => by
          rcases List.mem_cons.1 hm with hm | hm
          · exact hyv hm
          · exact hyg hm) e he
    · intro y hy u
      show (Reachable g y u ∧ Reachable g u y) ↔
        ((st2.dtm.data u ≠ 0 ∧ u ∉ st.s) ∧ comp'.data u = comp'.data y)
      by_cases hC : y ∈ above ∨ y = v
      · rw [hcC y hC]
        constructor
        · rintro ⟨⟨p, hp⟩, ⟨q, hq⟩⟩
          have hu := (@final_reach g hg ⟨st2.time, st2.comp_cnt + 1, st.s, st2.low, st2.dtm,
            comp'⟩ hfcl _ _ _ hp hy).1
          refine ⟨hu, ?_⟩
          by_cases hCu : u ∈ above ∨ u = v
          · exact hcC u hCu
          · exfalso
            have hu2 := hFN u hu.1 hu.2 hCu
            have := (final_reach hg hI.fcl hq hu2).1
            exact (hF2 y this).1 hC
        · rintro ⟨hu, hcu⟩
          have hCu : u ∈ above ∨ u = v := by
            by_contra hCu
            rw [hcN u hCu] at hcu
            have := hI.cmp u hu.1 (hFN u hu.1 hu.2 hCu).2
            omega
          exact ⟨(hCv y hC).2.trans (hCv u hCu).1, (hCv u hCu).2.trans (hCv y hC).1⟩
      · have hy2 := hFN y hy.1 hy.2 hC
        rw [hcN y hC, hI.scc y hy2 u]
        constructor
        · rintro ⟨hu, hcu⟩
          obtain ⟨b1, b2⟩ := hF2 u hu
          exact ⟨⟨hu.1, b2⟩, by rw [hcN u b1]; exact hcu⟩
        · rintro ⟨hu, hcu⟩
          have hCu : ¬ (u ∈ above ∨ u = v) := by
            intro hCu
            rw [hcC u hCu] at hcu
            have := hI.cmp y hy2.1 hy2.2
            omega
          exact ⟨hFN u hu.1 hu.2 hCu, by rw [hcN u hCu] at hcu; exact hcu⟩
    · intro c hc
      show ∃ x, (st2.dtm.data x ≠ 0 ∧ x ∉ st.s) ∧ comp'.data x = c
      rcases Nat.lt_succ_iff_lt_or_eq.1 hc with hc | rfl
      · obtain ⟨x, hx, hxc⟩ := hI.sur c hc
        obtain ⟨b1, b2⟩ := hF2 x hx
        exact ⟨x, ⟨hx.1, b2⟩, by rw [hcN x b1]; exact hxc⟩
      · exact ⟨v, ⟨hCseen v (Or.inr rfl), hCns v (Or.inr rfl)⟩, hcC v (Or.inr rfl)⟩
    · intro y hy
      show st2.low.data y ≤ st2.dtm.data y ∧
        ∃ z ∈ st.s, st2.dtm.data z = st2.low.data y ∧ Reachable g y z
      obtain ⟨a1, z, a2, a3, a4⟩ := hI.lowle y ((hmem2 y).2 (Or.inr hy))
      refine ⟨a1, z, ?_, a3, a4⟩
      rcases (hmem2 z).1 a2 with hCz | hz
      · have := hCge z hCz
        have := hp4 y hy
        omega
      · exact hz
    · intro x hx
      obtain ⟨a1, a2, a3⟩ := h.frame x hx
      refine ⟨a1, a2, ?_⟩
      show comp'.data x = st.comp.data x
      have hCx : ¬ (x ∈ above ∨ x = v) := by
        intro hCx
        have hx2 := (hI.stk x).1 ((hmem2 x).2 (Or.inl hCx))
        rw [a3] at hx2
        exact hCns x hCx ((h0.stk x).2 ⟨hx, hx2.2⟩)
      rw [hcN x hCx, a3]

end Djp

namespace Djp

theorem finish_visit_nonroot {g : Graph} {st2 : SccState} {gs : List Nat} {v : Nat}
    (hI : SccInv g st2 gs) (hv : v < g.num_vertices)
    (hlt : st2.low.data v ≠ st2.dtm.data v) : finish_visit st2 v = some st2 := by
  have g1 := StdVector.get?_eq st2.dtm (i := v) (by rw [hI.size_dtm]; exact hv)
  have g2 := StdVector.get?_eq st2.low (i := v) (by rw [hI.size_low]; exact hv)
  simp only [finish_visit, g1, g2, Option.some_bind, Option.bind_eq_bind, ne_eq,
    Ne.symm hlt, not_false_eq_true, if_true, Option.pure_def]

/-- The recursive lambda `dfs_visit` returns when the fuel covers the undiscovered vertices,
and the state it returns satisfies `VisitPost`. -/
theorem dfs_visit_spec {g : Graph} (hg : g.WF) :
    ∀ (fuel : Nat) (st : SccState) (v : Nat) (gs : List Nat), SccInv g st gs →
      st.dtm.data v = 0 → v < g.num_vertices → (∀ x ∈ gs, Reachable g x v) →
      (unvisited g.num_vertices (seenFlag st)).card ≤ fuel →
      ∃ st', dfs_visit fuel g st v = some st' ∧ VisitPost g st v gs st' := by
  intro fuel
  induction fuel with
  | zero =>
    intro st v gs _ hun hv _ hcard
    exfalso
    have hmem : v ∈ unvisited g.num_vertices (seenFlag st) := by
      simp [unvisited, hv, seenFlag, hun]
    have := Finset.card_pos.2 ⟨v, hmem⟩
    omega
  | succ fuel ih =>
    intro st v gs h hun hv hr hcard
    have hVI := scc_enter h hv hun hr
    have hseen1 : ∀ {stc : SccState} {done : List Nat}, VisitInv g st v gs done stc →
        ∀ x, seenFlag (enterState st v) x = true → seenFlag stc x = true := by
      intro stc done hc x hx
      rw [seenFlag_iff] at hx ⊢
      by_cases hxv : x = v
      · rw [hxv, hc.dv]; omega
      · have hx' : st.dtm.data x ≠ 0 := by
          have : (enterState st v).dtm.data x = st.dtm.data x := if_neg hxv
          rw [this] at hx; exact hx
        rw [(hc.frame x hx').1]; exact hx'
    have hcard1 : (unvisited g.num_vertices (seenFlag (enterState st v))).card ≤ fuel := by
      have := @unvisited_card_lt g.num_vertices (seenFlag st) (seenFlag (enterState st v))
        (by
          intro x hx
          rw [seenFlag_iff] at hx ⊢
          rw [(hVI.frame x hx).1]; exact hx) v hv
        (by simp [seenFlag, hun])
        (by rw [seenFlag_iff, hVI.dv]; omega)
      omega
    obtain ⟨st2, hloop, hV2⟩ := foldlM_list_inv (sccEdge fuel g v)
      (fun done stc => VisitInv g st v gs done stc) (g.out_edges v) (enterState st v) hVI
      (by
        intro pre e suf stc hsplit hc
        have he : e ∈ g.out_edges v := by rw [hsplit]; simp
        have hwn : g.target e < g.num_vertices := (hg.2.1 e (hg.2.2 v hv e he).1).2.1
        have hvw : Reachable g v (g.target e) := Reachable.out_edge hg hv he
        have g1 := StdVector.get?_eq stc.dtm (i := g.target e)
          (by rw [hc.inv.size_dtm]; exact hwn)
        unfold sccEdge
        simp only [g1, Option.some_bind, Option.bind_eq_bind]
        by_cases hdw : stc.dtm.data (g.target e) = 0
        · have hrw : ∀ x ∈ v :: gs, Reachable g x (g.target e) := by
            intro x hx
            rcases List.mem_cons.1 hx with rfl | hx
            · exact hvw
            · exact (hr x hx).trans hvw
          obtain ⟨st', hst', hp⟩ := ih stc (g.target e) (v :: gs) hc.inv hdw hwn hrw
            (le_trans (unvisited_card_mono (hseen1 hc)) hcard1)
          have hm := VisitMid.of_post hc hvw hp
          refine ⟨foldState st' v (g.target e), ?_, hm.fold hun hvw rfl⟩
          simp only [hdw, if_true, hst', Option.some_bind]
          exact fold_low_eq hp.inv hv hwn
        · have hm := hc.toMid hdw
          refine ⟨foldState stc v (g.target e), ?_, hm.fold hun hvw rfl⟩
          simp only [hdw, if_false, Option.pure_def, Option.some_bind]
          exact fold_low_eq hc.inv hv hwn)
    have henter := enter_visit_eq (v := v) h hv
    by_cases hroot : st2.low.data v = st2.dtm.data v
    · obtain ⟨st', hst', hp⟩ := finish_root hg h hv hV2 hroot
      refine ⟨st', ?_, hp⟩
      rw [dfs_visit_succ, henter]
      simp only [Option.some_bind, hloop]
      exact hst'
    · refine ⟨st2, ?_, finish_nonroot hV2 hroot⟩
      rw [dfs_visit_succ, henter]
      simp only [Option.some_bind, hloop]
      exact finish_visit_nonroot hV2.inv hv hroot

/-- The state `strong_components` starts from. -/
theorem scc_init_inv (g : Graph) (comp : StdVector Nat) :
    SccInv g ⟨0, 0, [], StdVector.assign g.num_vertices 0, StdVector.assign g.num_vertices 0,
      comp.resize g.num_vertices 0⟩ [] := by
  refine ⟨rfl, rfl, rfl, ?_, ?_, ?_, ?_, ?_, List.Pairwise.nil, ?_, ?_, ?_, ?_, ?_, ?_, ?_, ?_⟩
  · intro x hx; exact absurd rfl hx
  · intro x; exact le_refl _
  · intro x
    constructor
    · intro hm; simp at hm
    · rintro ⟨hx, -⟩; exact absurd rfl hx
  · intro x hx; exact absurd rfl hx
  · have := Finset.card_filter_le (Finset.range g.num_vertices)
      (fun v => finalFlag ⟨0, 0, [], StdVector.assign g.num_vertices 0,
        StdVector.assign g.num_vertices 0, comp.resize g.num_vertices 0⟩ v = false)
    rw [Finset.card_range] at this
    simpa [unvisited] using this
  · intro x hx; simp at hx
  · intro x hx; simp at hx
  · intro y hy; simp at hy
  · intro y hy; exact absurd rfl hy
  · intro y hy; exact absurd rfl hy.1
  · intro y hy; exact absurd rfl hy.1
  · intro c hc; exact absurd hc (Nat.not_lt_zero c)
  · intro y hy; simp at hy

/-- The function `strong_components` returns; at its end every vertex is discovered, the stack
is empty and the invariant holds. -/
theorem strong_components_run {g : Graph} (hg : g.WF) (fuel : Nat)
    (hf : g.num_vertices ≤ fuel) (comp : StdVector Nat) :
    ∃ st, strong_components fuel g comp = some (st.comp_cnt, st.comp) ∧ SccInv g st [] ∧
      st.s = [] ∧ ∀ x, x < g.num_vertices → Final st x := by
  obtain ⟨st, hst, hI, hseen⟩ := foldlM_range_inv (scc_outer fuel g)
    (fun i st => SccInv g st [] ∧ ∀ x, x < i → st.dtm.data x ≠ 0) g.num_vertices _
    ⟨scc_init_inv g comp, fun x hx => absurd hx (Nat.not_lt_zero x)⟩
    (by
      rintro i st hi ⟨hI, hseen⟩
      have g1 := StdVector.get?_eq st.dtm (i := i) (by rw [hI.size_dtm]; exact hi)
      unfold scc_outer
      simp only [g1, Option.some_bind, Option.bind_eq_bind]
      by_cases hd : st.dtm.data i = 0
      · have hcard : (unvisited g.num_vertices (seenFlag st)).card ≤ fuel := by
          have := Finset.card_filter_le (Finset.range g.num_vertices)
            (fun v => seenFlag st v = false)
          rw [Finset.card_range] at this
          exact le_trans this hf
        obtain ⟨st', hst', hp⟩ := dfs_visit_spec hg fuel st i [] hI hd hi (by simp) hcard
        refine ⟨st', by simp only [hd, if_true]; exact hst', hp.inv, ?_⟩
        intro x hx
        rcases Nat.lt_succ_iff_lt_or_eq.1 hx with hx | rfl
        · rw [(hp.frame x (hseen x hx)).1]; exact hseen x hx
        · exact hp.seen
      · refine ⟨st, by simp only [hd, if_false, Option.pure_def], hI, ?_⟩
        intro x hx
        rcases Nat.lt_succ_iff_lt_or_eq.1 hx with hx | rfl
        · exact hseen x hx
        · exact hd)
  have hs : st.s = [] := by
    cases hss : st.s with
    | nil => rfl
    | cons y t =>
      obtain ⟨x, hx, -⟩ := hI.g8 y (by rw [hss]; exact List.mem_cons_self _ _)
      simp at hx
  refine ⟨st, ?_, hI, hs, fun x hx => ⟨hseen x hx, by rw [hs]; simp⟩⟩
  unfold strong_components
  simp only [hst, Option.some_bind, Option.bind_eq_bind, Option.pure_def]

end Djp

namespace Djp

/-- C3: after `strong_components`, two vertices carry the same label exactly when each is
reachable from the other, for every well-formed graph view (any out-edge order) and whatever
the caller's `comp` vector held. -/
theorem strong_components_mutual (g : Graph) (comp0 : StdVector Nat) (fuel : Nat) (hg : g.WF)
    (hf : g.num_vertices ≤ fuel) :
    ∃ C comp, strong_components fuel g comp0 = some (C, comp) ∧
      ∀ u v, u < g.num_vertices → v < g.num_vertices →
        (comp.data u = comp.data v ↔ (Reachable g u v ∧ Reachable g v u)) := by
  obtain ⟨st, hst, hI, -, hfin⟩ := strong_components_run hg fuel hf comp0
  refine ⟨st.comp_cnt, st.comp, hst, fun u v hu hv => ?_⟩
  rw [hI.scc u (hfin u hu) v]
  constructor
  · intro h; exact ⟨hfin v hv, h.symm⟩
  · rintro ⟨-, h⟩; exact h.symm

theorem strong_components_mutual_witness :
    (∃ C comp, strong_components 2 backEdgeGraph (StdVector.assign 0 0) = some (C, comp) ∧
      ∀ u v, u < backEdgeGraph.num_vertices → v < backEdgeGraph.num_vertices →
        (comp.data u = comp.data v ↔
          (Reachable backEdgeGraph u v ∧ Reachable backEdgeGraph v u))) ∧
    (strong_components 2 backEdgeGraph (StdVector.assign 0 0)).map
      (fun r => (r.1, r.2.toList)) = some (2, [0, 1]) :=
  ⟨strong_components_mutual backEdgeGraph (StdVector.assign 0 0) 2 (by decide) (by decide),
    by decide⟩

/-- C4: `strong_components` returns the number `C` of strongly connected components: every
label lies in `[0, C)` (none is left at `SIZE_MAX`), every id below `C` labels some vertex,
and there are `C` vertices that represent the components, one for each. -/
theorem strong_components_count (g : Graph) (comp0 : StdVector Nat) (fuel : Nat) (hg : g.WF)
    (hf : g.num_vertices ≤ fuel) :
    ∃ C comp, strong_components fuel g comp0 = some (C, comp) ∧
      comp.size = g.num_vertices ∧
      (∀ v, v < g.num_vertices → comp.data v < C ∧ comp.data v ≠ SIZE_MAX) ∧
      (∀ c, c < C → ∃ v, v < g.num_vertices ∧ comp.data v = c) ∧
      ∃ reps : Finset Nat, reps.card = C ∧ (∀ r ∈ reps, r < g.num_vertices) ∧
        (∀ v, v < g.num_vertices → ∃ r ∈ reps, Reachable g v r ∧ Reachable g r v) ∧
        (∀ r1 ∈ reps, ∀ r2 ∈ reps, Reachable g r1 r2 → Reachable g r2 r1 → r1 = r2) := by
  obtain ⟨st, hst, hI, hs, hfin⟩ := strong_components_run hg fuel hf comp0
  have hlt : ∀ v, v < g.num_vertices → st.comp.data v < st.comp_cnt :=
    fun v hv => hI.cmp v (hfin v hv).1 (hfin v hv).2
  have hsur : ∀ c, ∃ x, c < st.comp_cnt → (x < g.num_vertices ∧ st.comp.data x = c) := by
    intro c
    by_cases hc : c < st.comp_cnt
    · obtain ⟨x, hx, hxc⟩ := hI.sur c hc
      exact ⟨x, fun _ => ⟨hI.vlt x hx.1, hxc⟩⟩
    · exact ⟨0, fun h => absurd h hc⟩
  choose f hf' using hsur
  refine ⟨st.comp_cnt, st.comp, hst, hI.size_comp, ?_, ?_, (Finset.range st.comp_cnt).image f,
    ?_, ?_, ?_, ?_⟩
  · intro v hv
    have := hlt v hv
    have := hI.cnt_le hg
    exact ⟨hlt v hv, by omega⟩
  · intro c hc
    exact ⟨f c, hf' c hc⟩
  · rw [Finset.card_image_of_injOn, Finset.card_range]
    intro a ha b hb hab
    have ha' := (hf' a (Finset.mem_range.1 ha)).2
    have hb' := (hf' b (Finset.mem_range.1 hb)).2
    exact ha'.symm.trans ((congrArg st.comp.data hab).trans hb')
  · intro r hr
    obtain ⟨c, hc, rfl⟩ := Finset.mem_image.1 hr
    exact (hf' c (Finset.mem_range.1 hc)).1
  · intro v hv
    have hc := hlt v hv
    obtain ⟨h1, h2⟩ := hf' _ hc
    refine ⟨f (st.comp.data v), Finset.mem_image.2 ⟨_, Finset.mem_range.2 hc, rfl⟩, ?_⟩
    exact (hI.scc v (hfin v hv) _).2 ⟨hfin _ h1, h2⟩
  · intro r1 hr1 r2 hr2 h12 h21
    obtain ⟨c1, hc1, rfl⟩ := Finset.mem_image.1 hr1
    obtain ⟨c2, hc2, rfl⟩ := Finset.mem_image.1 hr2
    obtain ⟨a1, a2⟩ := hf' c1 (Finset.mem_range.1 hc1)
    obtain ⟨b1, b2⟩ := hf' c2 (Finset.mem_range.1 hc2)
    have := ((hI.scc _ (hfin _ a1) _).1 ⟨h12, h21⟩).2
    rw [a2, b2] at this
    rw [this]

theorem strong_components_count_witness :
    (∃ C comp, strong_components 5 cyclePlusIsolated (StdVector.assign 0 0) = some (C, comp) ∧
      comp.size = cyclePlusIsolated.num_vertices ∧
      (∀ v, v < cyclePlusIsolated.num_vertices → comp.data v < C ∧ comp.data v ≠ SIZE_MAX) ∧
      (∀ c, c < C → ∃ v, v < cyclePlusIsolated.num_vertices ∧ comp.data v = c) ∧
      ∃ reps : Finset Nat, reps.card = C ∧ (∀ r ∈ reps, r < cyclePlusIsolated.num_vertices) ∧
        (∀ v, v < cyclePlusIsolated.num_vertices →
          ∃ r ∈ reps, Reachable cyclePlusIsolated v r ∧ Reachable cyclePlusIsolated r v) ∧
        (∀ r1 ∈ reps, ∀ r2 ∈ reps, Reachable cyclePlusIsolated r1 r2 →
          Reachable cyclePlusIsolated r2 r1 → r1 = r2)) ∧
    (strong_components 5 cyclePlusIsolated (StdVector.assign 0 0)).map
      (fun r => (r.1, r.2.toList)) = some (2, [0, 0, 0, 0, 1]) :=
  ⟨strong_components_count cyclePlusIsolated (StdVector.assign 0 0) 5 (by decide) (by decide),
    by decide⟩

/-- C9: the labels are a reverse topological numbering of the condensation: an edge between
two components leads to the smaller label, labels never grow along a walk, and so two
vertices that reach each other through any cycle carry the same label. -/
theorem strong_components_rev_topo (g : Graph) (comp0 : StdVector Nat) (fuel : Nat)
    (hg : g.WF) (hf : g.num_vertices ≤ fuel) :
    ∃ C comp, strong_components fuel g comp0 = some (C, comp) ∧
      (∀ e, e < g.num_edges → comp.data (g.source e) ≠ comp.data (g.target e) →
        comp.data (g.target e) < comp.data (g.source e)) ∧
      (∀ u v, Reachable g u v → comp.data v ≤ comp.data u) ∧
      (∀ u v, Reachable g u v → Reachable g v u → comp.data u = comp.data v) := by
  obtain ⟨st, hst, hI, -, hfin⟩ := strong_components_run hg fuel hf comp0
  have hle : ∀ u v, Reachable g u v → st.comp.data v ≤ st.comp.data u := by
    rintro u v ⟨p, hp⟩
    exact (final_reach hg hI.fcl hp (hfin u (hp.source_lt hg))).2
  refine ⟨st.comp_cnt, st.comp, hst, ?_, hle, fun u v h1 h2 => le_antisymm (hle v u h2) (hle u v h1)⟩
  intro e he hne
  have := hle _ _ (Reachable.edge hg he)
  omega

theorem strong_components_rev_topo_witness :
    ∃ C comp, strong_components 2 backEdgeGraph (StdVector.assign 0 0) = some (C, comp) ∧
      (∀ e, e < backEdgeGraph.num_edges →
        comp.data (backEdgeGraph.source e) ≠ comp.data (backEdgeGraph.target e) →
        comp.data (backEdgeGraph.target e) < comp.data (backEdgeGraph.source e)) ∧
      (∀ u v, Reachable backEdgeGraph u v → comp.data v ≤ comp.data u) ∧
      (∀ u v, Reachable backEdgeGraph u v → Reachable backEdgeGraph v u →
        comp.data u = comp.data v) :=
  strong_components_rev_topo backEdgeGraph (StdVector.assign 0 0) 2 (by decide) (by decide)

theorem dag_shortest_paths_no_vertex (fuel source : Nat) (w : StdVector Int) (inf : Int) :
    dag_shortest_paths fuel emptyGraph source w inf = none := by
  cases fuel with
  | zero => rfl
  | succ fuel => rfl

/-- C10 fails for `dag_shortest_paths` on the graph without vertices: with source `0` (and
fuel to spare) the first statement of `dfs` writes `visited[0]` out of range, and nothing is
returned. -/
theorem dag_shortest_paths_empty_graph :
    emptyGraph.num_vertices = 0 ∧ emptyGraph.num_edges = 0 ∧
      dag_shortest_paths 5 emptyGraph 0 (mkWeights []) 1000 = none :=
  ⟨rfl, rfl, rfl⟩

/-- C10 as amended: on the graph without vertices Floyd–Warshall returns `0 × 0` tables and
`strong_components` returns `0` with an empty `comp`; on the graph with one isolated vertex
`dag_shortest_paths` from source `0` returns `[0]`, Floyd–Warshall returns `dist[{0,0}] = 0`
with `next[{0,0}] = SIZE_MAX`, and `strong_components` returns `1` with `comp = [0]`; every
access is in range (a result is returned). The graph without vertices has no source vertex to
call `dag_shortest_paths` with, and the call returns nothing whatever source it is given. -/
theorem boundary_graphs :
    (∀ (w : StdVector Int) (inf : Int),
      ∃ st, floyd_warshall_all_pairs_shortest_paths emptyGraph w inf = some st ∧
        st.dist.rows = 0 ∧ st.dist.cols = 0 ∧ st.next.rows = 0 ∧ st.next.cols = 0) ∧
    (∀ (fuel : Nat) (comp0 : StdVector Nat),
      ∃ comp, strong_components fuel emptyGraph comp0 = some (0, comp) ∧ comp.toList = []) ∧
    (∀ (fuel : Nat) (w : StdVector Int) (inf : Int),
      ∃ dist, dag_shortest_paths (fuel + 1) singletonGraph 0 w inf = some dist ∧
        dist.toList = [0]) ∧
    (∀ (w : StdVector Int) (inf : Int),
      ∃ st, floyd_warshall_all_pairs_shortest_paths singletonGraph w inf = some st ∧
        st.dist.rows = 1 ∧ st.dist.cols = 1 ∧ st.next.rows = 1 ∧ st.next.cols = 1 ∧
        st.dist.data 0 0 = 0 ∧ st.next.data 0 0 = SIZE_MAX) ∧
    (∀ (fuel : Nat) (comp0 : StdVector Nat),
      ∃ comp, strong_components (fuel + 1) singletonGraph comp0 = some (1, comp) ∧
        comp.toList = [0]) ∧
    (∀ s, ¬ s < emptyGraph.num_vertices) ∧
    (∀ (fuel s : Nat) (w : StdVector Int) (inf : Int),
      dag_shortest_paths fuel emptyGraph s w inf = none) := by
  refine ⟨fun w inf => ⟨_, rfl, rfl, rfl, rfl, rfl⟩, fun fuel comp0 => ⟨_, rfl, rfl⟩,
    fun fuel w inf => ⟨_, rfl, rfl⟩, ?_, fun fuel comp0 => ⟨_, rfl, rfl⟩,
    fun s hs => absurd hs (Nat.not_lt_zero s), dag_shortest_paths_no_vertex⟩
  intro w inf
  by_cases h : (0 : Int) = inf
  · subst h
    exact ⟨_, rfl, rfl, rfl, rfl, rfl, rfl, rfl⟩
  · refine ⟨⟨⟨1, 1, fun a b => if a = 0 ∧ b = 0 then 0 else inf⟩, ⟨1, 1, fun _ _ => SIZE_MAX⟩⟩,
      ?_, rfl, rfl, rfl, rfl, rfl, rfl⟩
    simp [floyd_warshall_all_pairs_shortest_paths, singletonGraph, mkGraph, List.range_succ,
      fw_init_diag, fw_round, fw_row, fw_relax, matrix.set?, matrix.get?, matrix.assign, h]

end Djp

namespace Djp

/-- C16 as amended: path reconstruction terminates within `V` steps, in exact arithmetic with
no negative cycle (zero-weight cycles allowed) and the sentinel above the weight of every
simple path: on the tables computed by Floyd–Warshall, for every pair `(u, v)` the loop of
`floyd_warshall_path` returns with fuel `V`, every index it reads is a vertex (never the
`SIZE_MAX` marker), and what it writes has at most `V` entries, none repeated. -/
theorem floyd_warshall_path_terminates (g : Graph) (w : StdVector Int) (inf : Int) (fuel : Nat)
    (hg : g.WF) (hw : w.size = g.num_edges) (hn : NoNegCycle g w) (hinf : InfBound g w inf)
    (hf : g.num_vertices ≤ fuel) :
    ∃ st, floyd_warshall_all_pairs_shortest_paths g w inf = some st ∧
      ∀ u v, u < g.num_vertices → v < g.num_vertices →
        ∃ l, floyd_warshall_path fuel u v st.next = some l ∧
          l.length ≤ g.num_vertices ∧ l.Nodup ∧ ∀ x ∈ l, x < g.num_vertices ∧ x ≠ SIZE_MAX := by
  obtain ⟨st, hst, hl, hN⟩ := fw_levels hg hn hinf hw
  refine ⟨st, hst, fun u v hu hv => ?_⟩
  by_cases hfin : st.dist.data u v = inf
  · have huv : u ≠ v := by
      rintro rfl
      rw [hl.diag u hu] at hfin
      exact absurd hfin (ne_of_lt (zero_lt_inf hinf hu))
    exact ⟨[], fw_path_none hl hN hu hv huv hfin fuel, by simp, by simp, by simp⟩
  · obtain ⟨l, hch, hrun, -⟩ := fw_path_run hg hn hinf hl hN hu hv hfin hf
    obtain ⟨hlt, -, -⟩ := fw_chain_props hg hn hinf hl hN hv u l hch hu hfin
    refine ⟨l, hrun, length_le_of_nodup_lt hch.nodup hlt, hch.nodup, fun x hx => ⟨hlt x hx, ?_⟩⟩
    have := hlt x hx
    have := hg.1
    omega

theorem floyd_warshall_path_terminates_witness :
    ∃ st, floyd_warshall_all_pairs_shortest_paths cycleGraph cycleWeights 1000 = some st ∧
      ∀ u v, u < cycleGraph.num_vertices → v < cycleGraph.num_vertices →
        ∃ l, floyd_warshall_path 4 u v st.next = some l ∧
          l.length ≤ cycleGraph.num_vertices ∧ l.Nodup ∧
          ∀ x ∈ l, x < cycleGraph.num_vertices ∧ x ≠ SIZE_MAX :=
  floyd_warshall_path_terminates cycleGraph cycleWeights 1000 4 (by decide) rfl
    cycleGraph_noNegCycle cycleGraph_infBound (by decide)

theorem dfs_last {fuel : Nat} {g : Graph} {st0 st : DfsState} {s : Nat}
    (h : dfs fuel g st0 s = some st) : ∃ r, st.rev_topo = r ++ [s] := by
  cases fuel with
  | zero => simp [dfs] at h
  | succ fuel =>
    rw [dfs_succ] at h
    obtain ⟨vis, -, h⟩ := Option.bind_eq_some.1 h
    obtain ⟨st1, -, h⟩ := Option.bind_eq_some.1 h
    simp only [Option.some.injEq] at h
    exact ⟨st1.rev_topo, by rw [← h]⟩

/-- C17: on an acyclic graph the post-order list `rev_topo` that the DFS of
`dag_shortest_paths` builds from the source `s` holds exactly the vertices reachable from
`s`, each once, and read in reverse it is a topological order: `s` comes first and every edge
out of a reachable vertex leads from an earlier to a later entry. -/
theorem dfs_rev_topo (g : Graph) (s fuel : Nat) (hg : g.WF) (hac : Acyclic g)
    (hs : s < g.num_vertices) (hf : g.num_vertices ≤ fuel) :
    ∃ st, dfs fuel g ⟨StdVector.assign g.num_vertices false, []⟩ s = some st ∧
      st.rev_topo.Nodup ∧ (∀ v, v ∈ st.rev_topo ↔ Reachable g s v) ∧
      st.rev_topo.reverse.head? = some s ∧
      ∀ e, e < g.num_edges → Reachable g s (g.source e) →
        ∃ a b c, st.rev_topo.reverse = a ++ g.source e :: b ++ g.target e :: c := by
  have hI0 : DfsInv g ⟨StdVector.assign g.num_vertices false, []⟩ [] :=
    ⟨rfl, by simp [StdVector.assign], by simp [StdVector.assign], by simp, by simp,
      by intro y hy; simp at hy⟩
  have hcard : (unvisited g.num_vertices
      (DfsState.mk (StdVector.assign g.num_vertices false) []).visited.data).card ≤ fuel := by
    have := Finset.card_filter_le (Finset.range g.num_vertices)
      (fun v => (StdVector.assign g.num_vertices false).data v = false)
    rw [Finset.card_range] at this
    exact le_trans this hf
  obtain ⟨st, hst, hI, ⟨new, hnew, hsn, hreach⟩, -⟩ :=
    dfs_spec hg hac fuel _ s [] hI0 rfl hs (by simp) hcard
  have hr : st.rev_topo = new := by simpa using hnew
  have hsr : s ∈ st.rev_topo := by rw [hr]; exact hsn
  have hmem : ∀ v, v ∈ st.rev_topo ↔ Reachable g s v := by
    intro v
    constructor
    · intro hv; rw [hr] at hv; exact hreach v hv
    · rintro ⟨p, hp⟩; exact PostOrdered.reach_mem hg hI.closed hp hsr
  obtain ⟨r, hlast⟩ := dfs_last hst
  refine ⟨st, hst, hI.nodup, hmem, by rw [hlast]; simp, ?_⟩
  intro e he hre
  have hx : g.source e ∈ st.rev_topo := (hmem _).2 hre
  obtain ⟨hy, hord⟩ := hI.closed _ hx e (hg.2.1 e he).2.2
  obtain ⟨a, b, hab⟩ := List.append_of_mem hy
  obtain ⟨b1, b2, hb⟩ := List.append_of_mem (hord a b hab)
  refine ⟨b2.reverse, b1.reverse, a.reverse, ?_⟩
  rw [hab, hb]
  simp

theorem dfs_rev_topo_witness :
    ∃ st, dfs 5 specDag ⟨StdVector.assign specDag.num_vertices false, []⟩ 0 = some st ∧
      st.rev_topo.Nodup ∧ (∀ v, v ∈ st.rev_topo ↔ Reachable specDag 0 v) ∧
      st.rev_topo.reverse.head? = some 0 ∧
      ∀ e, e < specDag.num_edges → Reachable specDag 0 (specDag.source e) →
        ∃ a b c, st.rev_topo.reverse = a ++ specDag.source e :: b ++ specDag.target e :: c :=
  dfs_rev_topo specDag 0 5 (by decide) (acyclic_of_increasing (by decide)) (by decide)
    (by decide)

end Djp

namespace Djp

theorem noNegCycle_of_acyclic {g : Graph} (w : StdVector Int) (h : Acyclic g) :
    NoNegCycle g w := by
  intro v p hp
  rw [h v p hp]
  exact le_refl _

theorem lineGraph_acyclic : Acyclic lineGraph := acyclic_of_increasing (by decide)

theorem lineGraph_reach_0_3 : Reachable lineGraph 0 3 := ⟨[0, 1, 2], by simp [IsPath]; decide⟩

theorem lineGraph_reach_1_3 : Reachable lineGraph 1 3 := ⟨[1, 2], by simp [IsPath]; decide⟩

/-- The tables Floyd–Warshall computes on `lineGraph` with `lineWeightsA` and the sentinel
`INT_MAX`: the path `1 → 2 → 3` weighs exactly the sentinel, so the test
`dist[{1, 2}] + dist[{2, 3}] < dist[{1, 3}]` fails and `next[{1, 3}]` stays `SIZE_MAX`, while
`next[{0, 3}]` becomes `1`. -/
theorem lineGraph_tables :
    (floyd_warshall_all_pairs_shortest_paths lineGraph lineWeightsA INT_MAX).map
      (fun st => (st.dist.data 0 3, st.dist.data 1 3, st.next.get? 0 3, st.next.get? 1 3,
        st.next.get? SIZE_MAX 3)) =
      some (1147483647, INT_MAX, some 1, some SIZE_MAX, none) := by
  decide

/-- On those tables the reconstruction of the path from `0` to `3` has no result whatever the
fuel: its second read returns `SIZE_MAX`, and the third read is out of range. -/
theorem lineGraph_path_none (fuel : Nat) :
    (floyd_warshall_all_pairs_shortest_paths lineGraph lineWeightsA INT_MAX).map
      (fun st => floyd_warshall_path fuel 0 3 st.next) = some none := by
  have h := lineGraph_tables
  cases hst : floyd_warshall_all_pairs_shortest_paths lineGraph lineWeightsA INT_MAX with
  | none => rw [hst] at h; simp at h
  | some st =>
    rw [hst] at h
    simp only [Option.map_some', Option.some.injEq, Prod.mk.injEq] at h ⊢
    obtain ⟨-, -, h1, h2, h3⟩ := h
    have hne : (1 : Nat) ≠ SIZE_MAX := by decide
    have hne3 : SIZE_MAX ≠ 3 := by decide
    simp only [floyd_warshall_path, ne_eq, OfNat.zero_ne_ofNat, not_false_eq_true, if_true, h1,
      Option.some_bind, Option.bind_eq_bind, hne, if_false]
    match fuel with
    | 0 => rfl
    | 1 => simp [path_loop, h1]
    | 2 => simp [path_loop, h1, h2]
    | fuel + 3 => simp [path_loop, h1, h2, h3, hne3]

/-- C5 fails as stated: `lineGraph` with `lineWeightsA` has no cycle at all, every sum lies
within the range of `int`, and `3` is reachable from `0` with `dist[{0, 3}] = 1147483647`; yet
with the sentinel `INT_MAX` the reconstruction of the path from `0` to `3` does not end in
`3`: it has no result. -/
theorem floyd_warshall_path_roundtrip_counterexample :
    lineGraph.WF ∧ lineWeightsA.size = lineGraph.num_edges ∧
      NoNegCycle lineGraph lineWeightsA ∧ Reachable lineGraph 0 3 ∧
      (floyd_warshall_all_pairs_shortest_paths lineGraph lineWeightsA INT_MAX).map
        (fun st => (st.dist.data 0 3, floyd_warshall_path 4 0 3 st.next)) =
        some (1147483647, none) :=
  ⟨by decide, rfl, noNegCycle_of_acyclic _ lineGraph_acyclic, lineGraph_reach_0_3, by decide⟩

/-- C6 fails as stated: in `lineGraph` with `lineWeightsA` the vertex `3` is reachable from
`1`, yet with the sentinel `INT_MAX` the entry `next[{1, 3}]` is `SIZE_MAX`, `dist[{1, 3}]` is
the sentinel and `floyd_warshall_path(1, 3, next)` writes nothing. -/
theorem floyd_warshall_path_absent_counterexample :
    lineGraph.WF ∧ lineWeightsA.size = lineGraph.num_edges ∧
      NoNegCycle lineGraph lineWeightsA ∧ Reachable lineGraph 1 3 ∧
      (floyd_warshall_all_pairs_shortest_paths lineGraph lineWeightsA INT_MAX).map
        (fun st => (st.next.data 1 3, st.dist.data 1 3, floyd_warshall_path 4 1 3 st.next)) =
        some (SIZE_MAX, INT_MAX, some []) :=
  ⟨by decide, rfl, noNegCycle_of_acyclic _ lineGraph_acyclic, lineGraph_reach_1_3, by decide⟩

/-- C7 fails as stated: in `lineGraph` with `lineWeightsB` the path `0 → 1 → 2` weighs exactly
the sentinel `INT_MAX`, so `dist[{0, 2}]` and then `dist[{0, 3}]` stay at the sentinel, while
`dist[{0, 1}] = 1000000000` and `dist[{1, 3}] = 1147483644` are finite with a smaller sum. -/
theorem floyd_warshall_triangle_counterexample :
    lineGraph.WF ∧ lineWeightsB.size = lineGraph.num_edges ∧
      NoNegCycle lineGraph lineWeightsB ∧
      (floyd_warshall_all_pairs_shortest_paths lineGraph lineWeightsB INT_MAX).map
        (fun st => (st.dist.data 0 3, st.dist.data 0 1, st.dist.data 1 3,
          decide (st.dist.data 0 3 ≤ st.dist.data 0 1 + st.dist.data 1 3))) =
        some (INT_MAX, 1000000000, 1147483644, false) :=
  ⟨by decide, rfl, noNegCycle_of_acyclic _ lineGraph_acyclic, by decide⟩

/-- C16 fails as stated: on `lineGraph` with `lineWeightsA` and the sentinel `INT_MAX` the loop
of `floyd_warshall_path(0, 3, next)` reads `next[{0, 3}] = 1` and then the marker
`next[{1, 3}] = SIZE_MAX` as its next vertex; the read that follows is out of the table, and
the call has no result with fuel `4` nor with fuel `1000`. -/
theorem floyd_warshall_path_terminates_counterexample :
    lineGraph.WF ∧ lineWeightsA.size = lineGraph.num_edges ∧
      NoNegCycle lineGraph lineWeightsA ∧
      (floyd_warshall_all_pairs_shortest_paths lineGraph lineWeightsA INT_MAX).map
        (fun st => (st.next.get? 0 3, st.next.get? 1 3, st.next.get? SIZE_MAX 3)) =
        some (some 1, some SIZE_MAX, none) ∧
      (floyd_warshall_all_pairs_shortest_paths lineGraph lineWeightsA INT_MAX).map
        (fun st => (floyd_warshall_path 4 0 3 st.next, floyd_warshall_path 1000 0 3 st.next)) =
        some (none, none) :=
  ⟨by decide, rfl, noNegCycle_of_acyclic _ lineGraph_acyclic, by decide, by decide⟩

end Djp

namespace Djp

theorem ts_bracket_contains (f : ℚ → ℚ) (tol xs : ℚ) :
    ∀ (i : Nat) (a b : ℚ), a ≤ xs → xs ≤ b →
      (∀ x y, a ≤ x → x < y → y ≤ xs → f x < f y) →
      (∀ x y, xs ≤ x → x < y → y ≤ b → f y < f x) →
      (ts_bracket f tol i a b).1 ≤ xs ∧ xs ≤ (ts_bracket f tol i a b).2 := by
  intro i
  induction i with
  | zero => intro a b ha hb _ _; exact ⟨ha, hb⟩
  | succ i ih =>
    intro a b ha hb hinc hdec
    rw [ts_bracket]
    by_cases hw : b - a ≤ 2 * tol
    · rw [if_pos hw]; exact ⟨ha, hb⟩
    · rw [if_neg hw]
      by_cases hab : a = b
      · subst hab
        have h1 : (2 * a + a) / 3 = a := by ring
        have h2 : (a + 2 * a) / 3 = a := by ring
        simp only [h1, h2, lt_irrefl, if_false]
        exact ih a a ha hb hinc hdec
      have hlt : a < b := lt_of_le_of_ne (le_trans ha hb) hab
      have hl : a < (2 * a + b) / 3 := by linarith
      have hlr : (2 * a + b) / 3 < (a + 2 * b) / 3 := by linarith
      have hr : (a + 2 * b) / 3 < b := by linarith
      by_cases hc : f ((2 * a + b) / 3) < f ((a + 2 * b) / 3)
      · simp only [hc, if_true]
        have hx : (2 * a + b) / 3 ≤ xs := by
          by_contra hx
          push_neg at hx
          exact absurd (hdec _ _ hx.le hlr hr.le) (not_lt.2 hc.le)
        exact ih _ _ hx hb (fun x y h1 h2 h3 => hinc x y (le_trans hl.le h1) h2 h3) hdec
      · simp only [hc, if_false]
        have hx : xs ≤ (a + 2 * b) / 3 := by
          by_contra hx
          push_neg at hx
          exact hc (hinc _ _ hl.le hlr hx.le)
        exact ih _ _ ha hx hinc (fun x y h1 h2 h3 => hdec x y h1 h2 (le_trans h3 hr.le))

theorem ternary_search_loop_ok (f : ℚ → ℚ) (tol : ℚ) :
    ∀ (n : Nat) (a b r : ℚ), ternary_search_loop f tol n a b = .ok r →
      ∃ i, i < n ∧ (ts_bracket f tol i a b).2 - (ts_bracket f tol i a b).1 ≤ 2 * tol ∧
        r = ((ts_bracket f tol i a b).1 + (ts_bracket f tol i a b).2) / 2 := by
  intro n
  induction n with
  | zero => intro a b r h; simp [ternary_search_loop] at h
  | succ n ih =>
    intro a b r h
    rw [ternary_search_loop] at h
    by_cases hab : a ≤ b
    · rw [if_neg (not_not.2 hab)] at h
      by_cases hw : b - a ≤ 2 * tol
      · rw [if_pos hw] at h
        refine ⟨0, Nat.succ_pos n, hw, ?_⟩
        simpa [ts_bracket] using (Except.ok.inj h).symm
      · rw [if_neg hw] at h
        by_cases hc : f ((2 * a + b) / 3) < f ((a + 2 * b) / 3)
        · simp only [hc, if_true] at h
          obtain ⟨i, hi, h1, h2⟩ := ih _ _ _ h
          refine ⟨i + 1, Nat.succ_lt_succ hi, ?_⟩
          simp only [ts_bracket, if_neg hw, hc, if_true]
          exact ⟨h1, h2⟩
        · simp only [hc, if_false] at h
          obtain ⟨i, hi, h1, h2⟩ := ih _ _ _ h
          refine ⟨i + 1, Nat.succ_lt_succ hi, ?_⟩
          simp only [ts_bracket, if_neg hw, hc, if_false]
          exact ⟨h1, h2⟩
    · rw [if_pos hab] at h
      exact absurd h (by simp)

/-- With `a ≤ b`, the loop returns as soon as it is given one iteration more than the number
of narrowing steps that bring the width down to `2 * tol`. -/
theorem ternary_search_loop_returns (f : ℚ → ℚ) (tol : ℚ) :
    ∀ (k n : Nat) (a b : ℚ), a ≤ b → (b - a) * (2 / 3) ^ k ≤ 2 * tol → k < n →
      ∃ r, ternary_search_loop f tol n a b = .ok r := by
  intro k
  induction k with
  | zero =>
    intro n a b hab hk hn
    obtain ⟨n, rfl⟩ := Nat.exists_eq_succ_of_ne_zero (Nat.pos_iff_ne_zero.1 hn)
    rw [ternary_search_loop, if_neg (not_not.2 hab), if_pos (by simpa using hk)]
    exact ⟨_, rfl⟩
  | succ k ih =>
    intro n a b hab hk hn
    obtain ⟨n, rfl⟩ := Nat.exists_eq_succ_of_ne_zero (Nat.pos_iff_ne_zero.1 (by omega : 0 < n))
    rw [ternary_search_loop, if_neg (not_not.2 hab)]
    by_cases hw : b - a ≤ 2 * tol
    · rw [if_pos hw]; exact ⟨_, rfl⟩
    · rw [if_neg hw]
      have hk' : (b - a) * (2 / 3) * (2 / 3) ^ k ≤ 2 * tol := by
        rw [pow_succ] at hk; linarith [hk, mul_comm ((2:ℚ)/3) ((2/3)^k)]
      by_cases hc : f ((2 * a + b) / 3) < f ((a + 2 * b) / 3)
      · simp only [hc, if_true]
        refine ih n _ _ (by linarith) ?_ (by omega)
        have : b - (2 * a + b) / 3 = (b - a) * (2 / 3) := by ring
        rw [this]; exact hk'
      · simp only [hc, if_false]
        refine ih n _ _ (by linarith) ?_ (by omega)
        have : (a + 2 * b) / 3 - a = (b - a) * (2 / 3) := by ring
        rw [this]; exact hk'

/-- While the bracket is still wider than `2 * tol` after `n` narrowing steps, the loop with
`n` iterations ends in the `throw` after it, whatever `f` is. -/
theorem ternary_search_loop_throws (f : ℚ → ℚ) (tol : ℚ) :
    ∀ (n : Nat) (a b : ℚ), a ≤ b → 2 * tol < (b - a) * (2 / 3) ^ n →
      ternary_search_loop f tol n a b = .error .runtime_error := by
  intro n
  induction n with
  | zero => intro a b _ _; rfl
  | succ n ih =>
    intro a b hab hk
    have hp : (0:ℚ) ≤ (2 / 3) ^ n := by positivity
    have hp1 : ((2:ℚ) / 3) ^ n ≤ 1 := pow_le_one₀ (by norm_num) (by norm_num)
    have hk' : 2 * tol < (b - a) * (2 / 3) * (2 / 3) ^ n := by
      rw [pow_succ] at hk; linarith [hk, mul_comm ((2:ℚ)/3) ((2/3)^n)]
    have hw : ¬ b - a ≤ 2 * tol := by
      have : (b - a) * (2 / 3) * (2 / 3) ^ n ≤ (b - a) := by
        have h0 : 0 ≤ b - a := by linarith
        nlinarith [mul_nonneg h0 hp, mul_le_mul_of_nonneg_left hp1 h0]
      linarith
    rw [ternary_search_loop, if_neg (not_not.2 hab), if_neg hw]
    by_cases hc : f ((2 * a + b) / 3) < f ((a + 2 * b) / 3)
    · simp only [hc, if_true]
      refine ih _ _ (by linarith) ?_
      have : b - (2 * a + b) / 3 = (b - a) * (2 / 3) := by ring
      rw [this]; exact hk'
    · simp only [hc, if_false]
      refine ih _ _ (by linarith) ?_
      have : (a + 2 * b) / 3 - a = (b - a) * (2 / 3) := by ring
      rw [this]; exact hk'

end Djp

namespace Djp

theorem exists_narrowing_steps (a b tol : ℚ) (hab : a ≤ b) (htol : 0 < tol) :
    ∃ k : Nat, (b - a) * (2 / 3) ^ k ≤ 2 * tol := by
  have h0 : 0 ≤ b - a := by linarith
  have hc : 0 < 2 * tol / (b - a + 1) := by positivity
  obtain ⟨k, hk⟩ := exists_pow_lt_of_lt_one hc (by norm_num : (2:ℚ) / 3 < 1)
  refine ⟨k, ?_⟩
  have h1 : (b - a) * (2 / 3) ^ k ≤ (b - a) * (2 * tol / (b - a + 1)) :=
    mul_le_mul_of_nonneg_left hk.le h0
  have h2 : (b - a) * (2 * tol / (b - a + 1)) ≤ 2 * tol := by
    rw [mul_div_assoc', div_le_iff₀ (by linarith)]
    nlinarith
  exact le_trans h1 h2

/-- One iteration fewer than `ternary_search_loop_returns` asks for is not enough: with `n + 1`
iterations the loop still throws when the width after `n` narrowing steps exceeds `2 * tol`,
and it throws with exactly `n + 1` iterations when `n + 1` is the least number of narrowing
steps that reaches `2 * tol`. -/
theorem ternary_search_loop_throws_at_budget (f : ℚ → ℚ) (tol : ℚ) (n : Nat) (a b : ℚ)
    (hab : a ≤ b) (hw : 2 * tol < (b - a) * (2 / 3) ^ n) :
    ternary_search_loop f tol (n + 1) a b = .error .runtime_error := by
  induction n generalizing a b with
  | zero =>
    have hw0 : ¬ b - a ≤ 2 * tol := by
      rw [pow_zero, mul_one] at hw; exact not_le.2 hw
    rw [ternary_search_loop, if_neg (not_not.2 hab), if_neg hw0]
    by_cases hc : f ((2 * a + b) / 3) < f ((a + 2 * b) / 3) <;> simp [hc, ternary_search_loop]
  | succ n ih =>
    have hp : (0:ℚ) ≤ (2 / 3) ^ n := by positivity
    have hp1 : ((2:ℚ) / 3) ^ n ≤ 1 := pow_le_one₀ (by norm_num) (by norm_num)
    have hk : 2 * tol < (b - a) * (2 / 3) * (2 / 3) ^ n := by
      rw [pow_succ] at hw; linarith [hw, mul_comm ((2:ℚ)/3) ((2/3)^n)]
    have hw0 : ¬ b - a ≤ 2 * tol := by
      have h0 : 0 ≤ b - a := by linarith
      nlinarith [mul_nonneg h0 hp, mul_le_mul_of_nonneg_left hp1 h0]
    rw [ternary_search_loop, if_neg (not_not.2 hab), if_neg hw0]
    by_cases hc : f ((2 * a + b) / 3) < f ((a + 2 * b) / 3)
    · simp only [hc, if_true]
      refine ih _ _ (by linarith) ?_
      have : b - (2 * a + b) / 3 = (b - a) * (2 / 3) := by ring
      rw [this]; exact hk
    · simp only [hc, if_false]
      refine ih _ _ (by linarith) ?_
      have : (a + 2 * b) / 3 - a = (b - a) * (2 / 3) := by ring
      rw [this]; exact hk

theorem tsExample_increasing (x y : ℚ) (_ : 0 ≤ x) (hxy : x < y) (hy : y ≤ 2) :
    tsExample x < tsExample y := by
  unfold tsExample
  nlinarith

theorem tsExample_decreasing (x y : ℚ) (hx : 2 ≤ x) (hxy : x < y) (_ : y ≤ 5) :
    tsExample y < tsExample x := by
  unfold tsExample
  nlinarith

/-- C11: over exact arithmetic, when `f` increases strictly on `[a, x*]` and decreases strictly
on `[x*, b]`, every value `r` that `ternary_search` returns has `|r - x*| ≤ tol`, the maximizer
`x*` lies in the bracket held at every iteration, and the call does return once `max_iter` is
large enough. -/
theorem ternary_search_accuracy (f : ℚ → ℚ) (a b tol xs : ℚ) (htol : 0 < tol)
    (hxa : a ≤ xs) (hxb : xs ≤ b)
    (hinc : ∀ x y, a ≤ x → x < y → y ≤ xs → f x < f y)
    (hdec : ∀ x y, xs ≤ x → x < y → y ≤ b → f y < f x) :
    (∀ (max_iter : Int) (r : ℚ),
        ternary_search f a b tol max_iter = .ok r → |r - xs| ≤ tol) ∧
      (∀ i, (ts_bracket f tol i a b).1 ≤ xs ∧ xs ≤ (ts_bracket f tol i a b).2) ∧
      ∃ N : Int, ∀ max_iter, N ≤ max_iter →
        ∃ r, ternary_search f a b tol max_iter = .ok r := by
  have hbr := fun i => ts_bracket_contains f tol xs i a b hxa hxb hinc hdec
  refine ⟨fun max_iter r hr => ?_, hbr, ?_⟩
  · obtain ⟨i, -, hw, rfl⟩ := ternary_search_loop_ok f tol _ a b r hr
    obtain ⟨h1, h2⟩ := hbr i
    rw [abs_le]
    constructor <;> linarith
  · obtain ⟨k, hk⟩ := exists_narrowing_steps a b tol (le_trans hxa hxb) htol
    refine ⟨(k : Int) + 1, fun max_iter hm => ?_⟩
    exact ternary_search_loop_returns f tol k _ a b (le_trans hxa hxb) hk (by omega)

theorem ternary_search_accuracy_witness :
    (∀ (max_iter : Int) (r : ℚ),
        ternary_search tsExample 0 5 (1 / 1000) max_iter = .ok r → |r - 2| ≤ 1 / 1000) ∧
      (∀ i, (ts_bracket tsExample (1 / 1000) i 0 5).1 ≤ 2 ∧
        2 ≤ (ts_bracket tsExample (1 / 1000) i 0 5).2) ∧
      ∃ N : Int, ∀ max_iter, N ≤ max_iter →
        ∃ r, ternary_search tsExample 0 5 (1 / 1000) max_iter = .ok r :=
  ternary_search_accuracy tsExample 0 5 (1 / 1000) 2 (by norm_num) (by norm_num) (by norm_num)
    tsExample_increasing tsExample_decreasing

/-- C12 (what the code does): the width test sits inside the loop body, so a call whose
`max_iter` equals the documented number of iterations throws. With `b - a ≤ 2 * tol` the
documented number is `0`, and `ternary_search(f, 0, 1, 1, 0)` throws instead of returning
`1/2`; on `[0, 3]` with `tol = 1` the documented number is `1` (`3 * (2/3) ≤ 2 < 3`) and the
call with `max_iter = 1` throws, while `max_iter = 2` returns. -/
theorem ternary_search_budget_off_by_one :
    ((1:ℚ) - 0 ≤ 2 * 1 ∧ ternary_search tsExample 0 1 1 0 = .error .runtime_error) ∧
      (((3:ℚ) - 0) * (2 / 3) ^ 1 ≤ 2 * 1 ∧ ¬ ((3:ℚ) - 0) * (2 / 3) ^ 0 ≤ 2 * 1 ∧
        ternary_search tsExample 0 3 1 1 = .error .runtime_error ∧
        ternary_search tsExample 0 3 1 2 = .ok 2) := by
  refine ⟨⟨by norm_num, rfl⟩, by norm_num, by norm_num, ?_, ?_⟩
  · exact ternary_search_loop_throws_at_budget tsExample 1 0 0 3 (by norm_num) (by norm_num)
  · norm_num [ternary_search, ternary_search_loop, tsExample]

/-- C13: when `a ≤ b`, `tol > 0`, `max_iter ≥ 0` and the bracket is still wider than `2 * tol`
after `max_iter` narrowing steps, `ternary_search` throws the iteration-exceeded error for
every `f`. -/
theorem ternary_search_budget_exceeded (f : ℚ → ℚ) (a b tol : ℚ) (max_iter : Int)
    (hab : a ≤ b) (_htol : 0 < tol) (_hm : 0 ≤ max_iter)
    (hw : 2 * tol < (b - a) * (2 / 3) ^ max_iter.toNat) :
    ternary_search f a b tol max_iter = .error .runtime_error :=
  ternary_search_loop_throws f tol _ a b hab hw

theorem ternary_search_budget_exceeded_witness :
    ternary_search tsExample 0 5 (1 / 10) 3 = .error .runtime_error :=
  ternary_search_budget_exceeded tsExample 0 5 (1 / 10) 3 (by norm_num) (by norm_num)
    (by norm_num) (by norm_num [Int.toNat])

end Djp

namespace Djp

theorem OptRel.bind_of_eq {α α' β β' : Type} {r : α → α' → Prop} {r' : β → β' → Prop}
    {oa : Option α} {ob : Option α'} {f : α → Option β} {f' : α' → Option β'} (h : OptRel r oa ob)
    (hf : ∀ a b, oa = some a → ob = some b → r a b → OptRel r' (f a) (f' b)) :
    OptRel r' (oa.bind f) (ob.bind f') := by
  cases oa <;> cases ob <;> simp [OptRel] at h ⊢
  exact hf _ _ rfl rfl h

theorem OptRel.bind {α α' β β' : Type} {r : α → α' → Prop} {r' : β → β' → Prop}
    {oa : Option α} {ob : Option α'} {f : α → Option β} {f' : α' → Option β'} (h : OptRel r oa ob)
    (hf : ∀ a b, r a b → OptRel r' (f a) (f' b)) : OptRel r' (oa.bind f) (ob.bind f') :=
  OptRel.bind_of_eq h (fun a b _ _ hab => hf a b hab)

theorem OptRel.foldlM {σ σ' α : Type} {r : σ → σ' → Prop} {f : σ → α → Option σ}
    {f' : σ' → α → Option σ'} (l : List α)
    (hf : ∀ a b x, x ∈ l → r a b → OptRel r (f a x) (f' b x)) :
    ∀ a b, r a b → OptRel r (l.foldlM f a) (l.foldlM f' b) := by
  induction l with
  | nil => intro a b h; simpa [OptRel] using h
  | cons x l ih =>
    intro a b h
    simp only [List.foldlM_cons, Option.bind_eq_bind]
    exact OptRel.bind (hf a b x (List.mem_cons_self _ _) h)
      (fun a' b' h' => ih (fun a b y hy => hf a b y (List.mem_cons_of_mem _ hy)) a' b' h')

theorem foldlM_some_inv {σ α : Type} (f : σ → α → Option σ) (P : σ → Prop) (l : List α)
    (hstep : ∀ s x s', x ∈ l → f s x = some s' → P s → P s') :
    ∀ s0 s', l.foldlM f s0 = some s' → P s0 → P s' := by
  induction l with
  | nil => intro s0 s' h hP; simp at h; subst h; exact hP
  | cons x l ih =>
    intro s0 s' h hP
    simp only [List.foldlM_cons, Option.bind_eq_bind] at h
    obtain ⟨s1, h1, h2⟩ := Option.bind_eq_some.1 h
    exact ih (fun s y s' hy => hstep s y s' (List.mem_cons_of_mem _ hy)) s1 s' h2
      (hstep s0 x s1 (List.mem_cons_self _ _) h1 hP)

theorem sccEdge_eq (fuel : Nat) (g : Graph) (v : Nat) (st : SccState) (e : Nat) :
    sccEdge fuel g v st e = (st.dtm.get? (g.target e)).bind (fun dw =>
      (if dw = 0 then dfs_visit fuel g st (g.target e) else some st).bind
        (fun st => fold_low st v (g.target e))) := by
  unfold sccEdge
  simp only [Option.bind_eq_bind, Option.pure_def]
  congr 1
  funext dw
  split <;> simp

theorem enter_visit_dtm {st st1 : SccState} {v : Nat} (h : enter_visit st v = some st1) :
    st1.dtm.data v ≠ 0 ∧ ∀ x, st.dtm.data x ≠ 0 → st1.dtm.data x ≠ 0 := by
  unfold enter_visit at h
  simp only [StdVector.set?, StdVector.get?, Option.bind_eq_bind, Option.pure_def] at h
  by_cases h1 : v < st.dtm.size <;> by_cases h2 : v < st.low.size <;>
    by_cases h3 : v < st.comp.size <;> simp [h1, h2, h3] at h
  subst h
  refine ⟨by simp, fun x hx => ?_⟩
  simp only
  split
  · omega
  · exact hx

theorem fold_low_dtm {st st1 : SccState} {v w : Nat} (h : fold_low st v w = some st1) :
    st1.dtm = st.dtm := by
  unfold fold_low at h
  obtain ⟨cw, -, h⟩ := Option.bind_eq_some.1 h
  split at h
  · obtain ⟨lv, -, h⟩ := Option.bind_eq_some.1 h
    obtain ⟨lw, -, h⟩ := Option.bind_eq_some.1 h
    obtain ⟨low, -, h⟩ := Option.bind_eq_some.1 h
    simp only [Option.pure_def, Option.some.injEq] at h
    rw [← h]
  · simp only [Option.pure_def, Option.some.injEq] at h
    rw [h]

theorem finish_visit_dtm {st st1 : SccState} {v : Nat} (h : finish_visit st v = some st1) :
    st1.dtm = st.dtm := by
  unfold finish_visit at h
  obtain ⟨dv, -, h⟩ := Option.bind_eq_some.1 h
  obtain ⟨lv, -, h⟩ := Option.bind_eq_some.1 h
  split at h
  · simp only [Option.pure_def, Option.some.injEq] at h
    rw [h]
  · obtain ⟨r, -, h⟩ := Option.bind_eq_some.1 h
    simp only [Option.pure_def, Option.some.injEq] at h
    rw [← h]

/-- A call of `dfs_visit` that returns has given its vertex a discovery time and has reset
none. -/
theorem dfs_visit_dtm (g : Graph) :
    ∀ (fuel : Nat) (st : SccState) (v : Nat) (st' : SccState),
      dfs_visit fuel g st v = some st' →
      st'.dtm.data v ≠ 0 ∧ ∀ x, st.dtm.data x ≠ 0 → st'.dtm.data x ≠ 0 := by
  intro fuel
  induction fuel with
  | zero => intro st v st' h; simp [dfs_visit] at h
  | succ fuel ih =>
    intro st v st' h
    rw [dfs_visit_succ] at h
    obtain ⟨st1, h1, h⟩ := Option.bind_eq_some.1 h
    obtain ⟨st2, h2, h3⟩ := Option.bind_eq_some.1 h
    obtain ⟨e1, e2⟩ := enter_visit_dtm h1
    have hloop : ∀ x, st1.dtm.data x ≠ 0 → st2.dtm.data x ≠ 0 := by
      intro x
      refine foldlM_some_inv (sccEdge fuel g v) (fun s => st1.dtm.data x ≠ 0 → s.dtm.data x ≠ 0)
        _ ?_ st1 st2 h2 id
      intro s e s' _ hs hP hx
      rw [sccEdge_eq] at hs
      obtain ⟨dw, -, hs⟩ := Option.bind_eq_some.1 hs
      obtain ⟨s1, hs1, hs⟩ := Option.bind_eq_some.1 hs
      rw [fold_low_dtm hs]
      split at hs1
      · exact (ih _ _ _ hs1).2 x (hP hx)
      · simp only [Option.some.injEq] at hs1
        rw [← hs1]; exact hP hx
    rw [finish_visit_dtm h3]
    exact ⟨hloop v e1, fun x hx => hloop x (e2 x hx)⟩

theorem CompRel.enter_rel {a b : SccState} (h : CompRel a b) (v : Nat) :
    OptRel CompRel (enter_visit a v) (enter_visit b v) := by
  obtain ⟨t, c, s, low, dtm, ca⟩ := a
  obtain ⟨t', c', s', low', dtm', cb⟩ := b
  obtain ⟨h1, h2, h3, h4, h5, h6, h7⟩ := h
  simp only at h1 h2 h3 h4 h5 h6 h7
  subst h1 h2 h3 h4 h5
  unfold enter_visit
  simp only [StdVector.set?, StdVector.get?, Option.bind_eq_bind, Option.pure_def, ← h6]
  by_cases k1 : v < dtm.size <;> by_cases k2 : v < low.size <;>
    by_cases k3 : v < ca.size <;> simp [k1, k2, k3, OptRel]
  refine ⟨rfl, rfl, rfl, rfl, rfl, rfl, fun x hx => ?_⟩
  simp only at hx ⊢
  by_cases hxv : x = v
  · simp [hxv]
  · rw [if_neg hxv] at hx ⊢
    rw [if_neg hxv]
    exact h7 x hx

theorem CompRel.fold_rel {a b : SccState} (h : CompRel a b) (v w : Nat)
    (hw : a.dtm.data w ≠ 0) : OptRel CompRel (fold_low a v w) (fold_low b v w) := by
  obtain ⟨t, c, s, low, dtm, ca⟩ := a
  obtain ⟨t', c', s', low', dtm', cb⟩ := b
  obtain ⟨h1, h2, h3, h4, h5, h6, h7⟩ := h
  simp only at h1 h2 h3 h4 h5 h6 h7 hw
  subst h1 h2 h3 h4 h5
  have hc := h7 w hw
  unfold fold_low
  simp only [StdVector.set?, StdVector.get?, Option.bind_eq_bind, Option.pure_def, ← h6, ← hc]
  by_cases k1 : w < ca.size
  · simp only [k1, if_true, Option.some_bind]
    by_cases k2 : ca.data w = SIZE_MAX
    · simp only [k2, if_true]
      by_cases k3 : v < low.size <;> by_cases k4 : w < low.size <;> simp [k3, k4, OptRel]
      exact ⟨rfl, rfl, rfl, rfl, rfl, h6, h7⟩
    · simp only [k2, if_false, OptRel]
      exact ⟨rfl, rfl, rfl, rfl, rfl, h6, h7⟩
  · simp [k1, OptRel]

theorem pop_component_rel (v cnt : Nat) (S : Nat → Prop) :
    ∀ (s : List Nat) (ca cb : StdVector Nat), ca.size = cb.size →
      (∀ x, S x → ca.data x = cb.data x) →
      OptRel (fun r1 r2 => r1.1 = r2.1 ∧ r1.2.size = r2.2.size ∧
          ∀ x, S x → r1.2.data x = r2.2.data x)
        (pop_component v cnt s ca) (pop_component v cnt s cb) := by
  intro s
  induction s with
  | nil => intro ca cb _ _; simp [pop_component, OptRel]
  | cons w s ih =>
    intro ca cb hsz hS
    simp only [pop_component, StdVector.set?, Option.bind_eq_bind, Option.pure_def, ← hsz]
    by_cases k1 : w < ca.size
    · simp only [k1, if_true, Option.some_bind]
      have hS' : ∀ x, S x → (if x = w then cnt else ca.data x) = (if x = w then cnt else cb.data x) := by
        intro x hx
        by_cases hxw : x = w
        · simp [hxw]
        · simp [hxw, hS x hx]
      by_cases k2 : w = v
      · simp only [k2, ne_eq, not_true_eq_false, if_false, OptRel]
        exact ⟨trivial, trivial, by simpa [k2] using hS'⟩
      · simp only [ne_eq, k2, not_false_eq_true, if_true]
        exact ih _ _ rfl hS'
    · simp [k1, OptRel]

theorem CompRel.finish {a b : SccState} (h : CompRel a b) (v : Nat) :
    OptRel CompRel (finish_visit a v) (finish_visit b v) := by
  obtain ⟨t, c, s, low, dtm, ca⟩ := a
  obtain ⟨t', c', s', low', dtm', cb⟩ := b
  obtain ⟨h1, h2, h3, h4, h5, h6, h7⟩ := h
  simp only at h1 h2 h3 h4 h5 h6 h7
  subst h1 h2 h3 h4 h5
  unfold finish_visit
  simp only [Option.bind_eq_bind, Option.pure_def]
  cases dtm.get? v with
  | none => simp [OptRel]
  | some dv =>
    cases low.get? v with
    | none => simp [OptRel]
    | some lv =>
      simp only [Option.some_bind]
      by_cases k : dv = lv
      · simp only [k, ne_eq, not_true_eq_false, if_false]
        refine OptRel.bind (pop_component_rel v _ (fun x => dtm.data x ≠ 0) s ca cb h6 h7) ?_
        rintro r1 r2 ⟨e1, e2, e3⟩
        simp only [OptRel]
        exact ⟨rfl, rfl, e1, rfl, rfl, e2, e3⟩
      · simp only [ne_eq, k, not_false_eq_true, if_true, OptRel]
        exact ⟨rfl, rfl, rfl, rfl, rfl, h6, h7⟩

theorem get?_data_ne_zero {v : StdVector Nat} {i d : Nat} (h : v.get? i = some d)
    (hd : d ≠ 0) : v.data i ≠ 0 := by
  unfold StdVector.get? at h
  split at h
  · simp only [Option.some.injEq] at h
    rw [h]; exact hd
  · exact absurd h (by simp)

/-- Run side by side from two states that differ only in `comp` entries of undiscovered
vertices, `dfs_visit` fails in both or returns two states that again differ only there. -/
theorem CompRel.visit (g : Graph) :
    ∀ (fuel : Nat) (a b : SccState) (v : Nat), CompRel a b →
      OptRel CompRel (dfs_visit fuel g a v) (dfs_visit fuel g b v) := by
  intro fuel
  induction fuel with
  | zero => intro a b v _; simp [dfs_visit, OptRel]
  | succ fuel ih =>
    intro a b v h
    rw [dfs_visit_succ, dfs_visit_succ]
    refine OptRel.bind (h.enter_rel v) (fun a1 b1 h1 => ?_)
    refine OptRel.bind (OptRel.foldlM _ ?_ a1 b1 h1) (fun a2 b2 h2 => h2.finish v)
    intro a b e _ hab
    rw [sccEdge_eq, sccEdge_eq, ← hab.2.2.2.2.1]
    cases hget : a.dtm.get? (g.target e) with
    | none => simp [OptRel]
    | some dw =>
      simp only [Option.some_bind]
      by_cases hdw : dw = 0
      · simp only [hdw, if_true]
        exact OptRel.bind_of_eq (ih a b _ hab)
          (fun a' b' ha' _ h' => h'.fold_rel v _ (dfs_visit_dtm g fuel a _ a' ha').1)
      · simp only [hdw, if_false, Option.some_bind]
        exact hab.fold_rel v _ (get?_data_ne_zero hget hdw)

theorem scc_outer_dtm {fuel : Nat} {g : Graph} {st st' : SccState} {v : Nat}
    (h : scc_outer fuel g st v = some st') :
    st'.dtm.data v ≠ 0 ∧ ∀ x, st.dtm.data x ≠ 0 → st'.dtm.data x ≠ 0 := by
  unfold scc_outer at h
  obtain ⟨dv, hdv, h⟩ := Option.bind_eq_some.1 h
  split at h
  · exact dfs_visit_dtm g fuel st v st' h
  · simp only [Option.pure_def, Option.some.injEq] at h
    subst h
    exact ⟨get?_data_ne_zero hdv (by assumption), fun x hx => hx⟩

theorem scc_loop_dtm {fuel : Nat} {g : Graph} :
    ∀ (l : List Nat) (st st' : SccState), l.foldlM (scc_outer fuel g) st = some st' →
      (∀ x ∈ l, st'.dtm.data x ≠ 0) ∧ ∀ x, st.dtm.data x ≠ 0 → st'.dtm.data x ≠ 0 := by
  intro l
  induction l with
  | nil => intro st st' h; simp at h; subst h; exact ⟨by simp, fun x hx => hx⟩
  | cons v l ih =>
    intro st st' h
    simp only [List.foldlM_cons, Option.bind_eq_bind] at h
    obtain ⟨s1, h1, h2⟩ := Option.bind_eq_some.1 h
    obtain ⟨e1, e2⟩ := scc_outer_dtm h1
    obtain ⟨i1, i2⟩ := ih s1 st' h2
    refine ⟨fun x hx => ?_, fun x hx => i2 x (e2 x hx)⟩
    rcases List.mem_cons.1 hx with rfl | hx
    · exact i2 x e1
    · exact i1 x hx

theorem CompRel.outer {fuel : Nat} {g : Graph} {a b : SccState} (h : CompRel a b) (v : Nat) :
    OptRel CompRel (scc_outer fuel g a v) (scc_outer fuel g b v) := by
  unfold scc_outer
  simp only [Option.bind_eq_bind, Option.pure_def, ← h.2.2.2.2.1]
  cases a.dtm.get? v with
  | none => simp [OptRel]
  | some dv =>
    simp only [Option.some_bind]
    split
    · exact CompRel.visit g fuel a b v h
    · exact h

/-- Whatever the two initial `comp` vectors hold, the two runs of `strong_components` fail
together or return the same count and `comp` vectors of the same size that agree at every
vertex. -/
theorem strong_components_rel (fuel : Nat) (g : Graph) (c1 c2 : StdVector Nat) :
    OptRel (fun r1 r2 => r1.1 = r2.1 ∧ r1.2.size = r2.2.size ∧
        ∀ x, x < g.num_vertices → r1.2.data x = r2.2.data x)
      (strong_components fuel g c1) (strong_components fuel g c2) := by
  unfold strong_components
  simp only [Option.bind_eq_bind, Option.pure_def]
  have h0 : CompRel
      ⟨0, 0, [], StdVector.assign g.num_vertices 0, StdVector.assign g.num_vertices 0,
        c1.resize g.num_vertices 0⟩
      ⟨0, 0, [], StdVector.assign g.num_vertices 0, StdVector.assign g.num_vertices 0,
        c2.resize g.num_vertices 0⟩ :=
    ⟨rfl, rfl, rfl, rfl, rfl, rfl, fun x hx => absurd rfl hx⟩
  refine OptRel.bind_of_eq (OptRel.foldlM _ (fun a b x _ hab => hab.outer x) _ _ h0) ?_
  intro a b ha _ hab
  simp only [OptRel]
  exact ⟨hab.2.1, hab.2.2.2.2.2.1, fun x hx =>
    hab.2.2.2.2.2.2 x ((scc_loop_dtm _ _ _ ha).1 x (List.mem_range.2 hx))⟩

/-- C19: the result of `strong_components` does not depend on what the caller's `comp` vector
held: for any two initial vectors the two runs return the same count and `comp` vectors of
length `num_vertices` with identical contents. -/
theorem strong_components_comp_independent (g : Graph) (c1 c2 : StdVector Nat) (fuel : Nat)
    (hg : g.WF) (hf : g.num_vertices ≤ fuel) :
    ∃ cnt k1 k2, strong_components fuel g c1 = some (cnt, k1) ∧
      strong_components fuel g c2 = some (cnt, k2) ∧
      k1.size = g.num_vertices ∧ k2.size = g.num_vertices ∧ k1.toList = k2.toList := by
  obtain ⟨s1, h1, hI1, -, -⟩ := strong_components_run hg fuel hf c1
  obtain ⟨s2, h2, hI2, -, -⟩ := strong_components_run hg fuel hf c2
  have hrel := strong_components_rel fuel g c1 c2
  rw [h1, h2] at hrel
  obtain ⟨e1, -, e3⟩ : s1.comp_cnt = s2.comp_cnt ∧ s1.comp.size = s2.comp.size ∧
      ∀ x, x < g.num_vertices → s1.comp.data x = s2.comp.data x := hrel
  refine ⟨s1.comp_cnt, s1.comp, s2.comp, h1, by rw [h2, e1], hI1.size_comp, hI2.size_comp, ?_⟩
  unfold StdVector.toList
  rw [hI1.size_comp, hI2.size_comp]
  exact List.map_congr_left (fun x hx => e3 x (List.mem_range.1 hx))

theorem strong_components_comp_independent_witness :
    ∃ cnt k1 k2,
      strong_components 5 cyclePlusIsolated (StdVector.assign 2 SIZE_MAX) = some (cnt, k1) ∧
      strong_components 5 cyclePlusIsolated ⟨9, fun i => i % 3⟩ = some (cnt, k2) ∧
      k1.size = cyclePlusIsolated.num_vertices ∧ k2.size = cyclePlusIsolated.num_vertices ∧
      k1.toList = k2.toList :=
  strong_components_comp_independent cyclePlusIsolated (StdVector.assign 2 SIZE_MAX)
    ⟨9, fun i => i % 3⟩ 5 (by decide) (by decide)

end Djp

namespace Djp

theorem dfs_visit_tr_succ (fuel : Nat) (g : Graph) (st : SccState) (v : Nat) :
    dfs_visit_tr (fuel + 1) g st v =
      (enter_visit st v).bind (fun st1 =>
        ((g.out_edges v).foldlM (sccEdge_tr fuel g v) (st1, [st1])).bind (fun r2 =>
          (finish_visit_tr r2.1 v).bind (fun r3 => some (r3.1, r2.2 ++ r3.2)))) :=
  rfl

theorem sccEdge_tr_eq (fuel : Nat) (g : Graph) (v : Nat) (acc : SccState × List SccState)
    (e : Nat) :
    sccEdge_tr fuel g v acc e = (acc.1.dtm.get? (g.target e)).bind (fun dw =>
      (if dw = 0 then dfs_visit_tr fuel g acc.1 (g.target e) else some (acc.1, [])).bind
        (fun r => (fold_low r.1 v (g.target e)).bind
          (fun st => some (st, acc.2 ++ r.2 ++ [st])))) := by
  unfold sccEdge_tr
  simp only [Option.bind_eq_bind, Option.pure_def]
  congr 1
  funext dw
  split <;> simp

theorem pop_component_tr_fst (st : SccState) (v : Nat) :
    ∀ (s : List Nat) (comp : StdVector Nat),
      OptRel (fun r r' => r.1 = r') (pop_component_tr st v s comp)
        (pop_component v st.comp_cnt s comp) := by
  intro s
  induction s with
  | nil => intro comp; simp [pop_component_tr, pop_component, OptRel]
  | cons w s ih =>
    intro comp
    simp only [pop_component_tr, pop_component, Option.bind_eq_bind, Option.pure_def]
    cases comp.set? w st.comp_cnt with
    | none => simp [OptRel]
    | some comp' =>
      simp only [Option.some_bind]
      by_cases hw : w = v
      · simp [hw, OptRel]
      · simp only [ne_eq, hw, not_false_eq_true, if_true]
        have := ih comp'
        cases h1 : pop_component_tr st v s comp' <;>
          cases h2 : pop_component v st.comp_cnt s comp' <;>
          simp [h1, h2, OptRel] at this ⊢
        exact this

theorem finish_visit_tr_fst (st : SccState) (v : Nat) :
    OptRel Erases (finish_visit_tr st v) (finish_visit st v) := by
  unfold finish_visit_tr finish_visit
  simp only [Option.bind_eq_bind, Option.pure_def]
  cases st.dtm.get? v with
  | none => simp [OptRel]
  | some dv =>
    cases st.low.get? v with
    | none => simp [OptRel]
    | some lv =>
      simp only [Option.some_bind]
      by_cases k : dv = lv
      · simp only [k, ne_eq, not_true_eq_false, if_false]
        refine OptRel.bind (pop_component_tr_fst st v st.s st.comp) ?_
        intro r r' hr
        simp only [OptRel, Erases]
        rw [hr]
      · simp [k, OptRel, Erases]

theorem dfs_visit_tr_fst (g : Graph) :
    ∀ (fuel : Nat) (st : SccState) (v : Nat),
      OptRel Erases (dfs_visit_tr fuel g st v) (dfs_visit fuel g st v) := by
  intro fuel
  induction fuel with
  | zero => intro st v; simp [dfs_visit_tr, dfs_visit, OptRel]
  | succ fuel ih =>
    intro st v
    rw [dfs_visit_tr_succ, dfs_visit_succ]
    cases enter_visit st v with
    | none => simp [OptRel]
    | some st1 =>
      simp only [Option.some_bind]
      refine OptRel.bind (OptRel.foldlM (r := Erases) _ ?_ (st1, [st1]) st1 rfl) ?_
      · intro a b e _ hab
        have hab' : a.1 = b := hab
        rw [sccEdge_tr_eq, sccEdge_eq, hab']
        cases b.dtm.get? (g.target e) with
        | none => simp [OptRel]
        | some dw =>
          simp only [Option.some_bind]
          have h1 : OptRel Erases
              (if dw = 0 then dfs_visit_tr fuel g b (g.target e) else some (b, []))
              (if dw = 0 then dfs_visit fuel g b (g.target e) else some b) := by
            split
            · exact ih b _
            · exact rfl
          refine OptRel.bind h1 ?_
          intro r r' hr
          rw [hr]
          cases fold_low r' v (g.target e) <;> simp [OptRel, Erases]
      · intro r2 st2 h2
        have h2' : r2.1 = st2 := h2
        rw [h2']
        have := finish_visit_tr_fst st2 v
        cases h3 : finish_visit_tr st2 v <;> cases h4 : finish_visit st2 v <;>
          simp [h3, h4, OptRel, Erases] at this ⊢
        exact this

theorem scc_outer_tr_fst (fuel : Nat) (g : Graph) (a : SccState × List SccState)
    (b : SccState) (x : Nat) (hab : Erases a b) :
    OptRel Erases (scc_outer_tr fuel g a x) (scc_outer fuel g b x) := by
  have hab' : a.1 = b := hab
  unfold scc_outer_tr scc_outer
  simp only [Option.bind_eq_bind, Option.pure_def, hab']
  cases b.dtm.get? x with
  | none => simp [OptRel]
  | some dv =>
    simp only [Option.some_bind]
    split
    · have := dfs_visit_tr_fst g fuel b x
      cases h3 : dfs_visit_tr fuel g b x <;> cases h4 : dfs_visit fuel g b x <;>
        simp [h3, h4, OptRel, Erases] at this ⊢
      exact this
    · exact hab

theorem scc_loop_tr_fst (fuel : Nat) (g : Graph) (l : List Nat) (st : SccState) :
    OptRel Erases (l.foldlM (scc_outer_tr fuel g) (st, [])) (l.foldlM (scc_outer fuel g) st) :=
  OptRel.foldlM l (fun a b x _ hab => scc_outer_tr_fst fuel g a b x hab) (st, []) st rfl

theorem strong_components_tr_fst (fuel : Nat) (g : Graph) (comp : StdVector Nat) :
    OptRel (fun r r' => (r.1.comp_cnt, r.1.comp) = r')
      (strong_components_tr fuel g comp) (strong_components fuel g comp) := by
  unfold strong_components_tr strong_components
  simp only [Option.bind_eq_bind, Option.pure_def]
  have h := scc_loop_tr_fst fuel g (List.range g.num_vertices) (scc_init g comp)
  revert h
  unfold scc_init
  cases List.foldlM (scc_outer_tr fuel g) _ (List.range g.num_vertices) <;>
    cases List.foldlM (scc_outer fuel g) _ (List.range g.num_vertices) <;>
    simp [OptRel, Erases]
  intro h; rw [h]; exact ⟨rfl, rfl⟩

end Djp

namespace Djp

theorem Run.glue {a b c : SccState} {l l' : List SccState} (h : Run a l b)
    (h' : Run b l' c) : Run a (l ++ l') c := by
  induction h with
  | nil a => exact h'
  | cons hs ho _ ih => exact Run.cons hs ho (ih h')

theorem Run.one_step {a b : SccState} (hs : StepOK a b) (ho : StateOK b) : Run a [b] b :=
  Run.cons hs ho (Run.nil b)

theorem Run.last_ok {a c : SccState} {l : List SccState} (h : Run a l c) (ha : StateOK a) :
    StateOK c := by
  induction h with
  | nil a => exact ha
  | cons _ ho _ ih => exact ih ho

theorem Run.to_chain {a c : SccState} {l : List SccState} (h : Run a l c) :
    List.Chain StepOK a l ∧ ∀ s ∈ l, StateOK s := by
  induction h with
  | nil a => exact ⟨List.Chain.nil, by simp⟩
  | cons hs ho _ ih =>
    refine ⟨List.Chain.cons hs ih.1, fun s hs' => ?_⟩
    rcases List.mem_cons.1 hs' with rfl | hs'
    · exact ho
    · exact ih.2 s hs'

/-- A step that touches neither the stack nor `dtm` nor `comp` is legal. -/
theorem StepOK.of_same {a b : SccState} (h1 : b.s = a.s) (h2 : b.dtm = a.dtm)
    (h3 : b.comp = a.comp) : StepOK a b := by
  intro x
  rw [h1, h2, h3]
  exact ⟨fun h => Or.inl h, fun _ => rfl, fun _ h => ⟨h, rfl⟩⟩

theorem enter_step {g : Graph} {st : SccState} {gs : List Nat} {v : Nat}
    (h1 : SccInv g (enterState st v) (v :: gs)) (hok : StateOK st)
    (hun : st.dtm.data v = 0) :
    StateOK (enterState st v) ∧ StepOK st (enterState st v) := by
  refine ⟨⟨h1.stk, fun x => ?_⟩, fun x => ?_⟩
  · simp only [enterState]
    split
    · exact le_refl _
    · exact hok.2 x
  · by_cases hxv : x = v
    · subst hxv
      exact ⟨fun _ => Or.inr (List.mem_cons_self _ _), fun h => absurd hun h,
        fun h => absurd hun h⟩
    · refine ⟨fun h => Or.inl ?_, fun _ => ?_, fun _ hs => ⟨?_, ?_⟩⟩
      · simp only [enterState, if_neg hxv]; exact h
      · simp only [enterState, if_neg hxv]
      · simp only [enterState, List.mem_cons, not_or]; exact ⟨hxv, hs⟩
      · simp only [enterState, if_neg hxv]

theorem fold_step {s : SccState} (v w : Nat) (hok : StateOK s) :
    StateOK (foldState s v w) ∧ StepOK s (foldState s v w) := by
  unfold foldState
  split
  · refine ⟨⟨hok.1, fun x => ?_⟩, StepOK.of_same rfl rfl rfl⟩
    simp only
    split
    · rename_i hx
      rw [hx]
      exact le_trans (min_le_left _ _) (hok.2 v)
    · exact hok.2 x
  · exact ⟨hok, StepOK.of_same rfl rfl rfl⟩

theorem pop_step (t c : Nat) (w : Nat) (s : List Nat) (low dtm comp : StdVector Nat)
    (hok : StateOK ⟨t, c, w :: s, low, dtm, comp⟩) (hw : w ∉ s) (hc : c ≠ SIZE_MAX) :
    StateOK ⟨t, c, s, low, dtm, ⟨comp.size, fun j => if j = w then c else comp.data j⟩⟩ ∧
      StepOK ⟨t, c, w :: s, low, dtm, comp⟩
        ⟨t, c, s, low, dtm, ⟨comp.size, fun j => if j = w then c else comp.data j⟩⟩ := by
  obtain ⟨h1, h2⟩ := hok
  simp only at h1 h2
  refine ⟨⟨fun x => ?_, h2⟩, fun x => ⟨fun h => Or.inl h, fun _ => rfl, fun hx hs => ?_⟩⟩
  · simp only
    by_cases hxw : x = w
    · subst hxw
      simp only [if_true]
      constructor
      · intro h; exact absurd h hw
      · rintro ⟨-, h⟩; exact absurd h hc
    · rw [if_neg hxw, ← h1 x]
      simp [hxw]
  · simp only at hx hs ⊢
    have hxw : x ≠ w := fun h => hs (h ▸ List.mem_cons_self _ _)
    exact ⟨fun h => hs (List.mem_cons_of_mem _ h), by rw [if_neg hxw]⟩

/-- The pop loop with the states it passes: it returns, having removed the part of the stack
above `v` and `v`, through legal steps. -/
theorem pop_component_tr_run (st2 : SccState) (v : Nat) (rest : List Nat)
    (hc : st2.comp_cnt ≠ SIZE_MAX) :
    ∀ (above : List Nat) (comp : StdVector Nat),
      StateOK ⟨st2.time, st2.comp_cnt, above ++ v :: rest, st2.low, st2.dtm, comp⟩ →
      (above ++ v :: rest).Nodup → (∀ x ∈ above, x < comp.size) → v < comp.size →
      ∃ comp' tr, pop_component_tr st2 v (above ++ v :: rest) comp = some ((rest, comp'), tr) ∧
        Run ⟨st2.time, st2.comp_cnt, above ++ v :: rest, st2.low, st2.dtm, comp⟩ tr
          ⟨st2.time, st2.comp_cnt, rest, st2.low, st2.dtm, comp'⟩ := by
  intro above
  induction above with
  | nil =>
    intro comp hok hnd _ hv
    have hvr : v ∉ rest := (List.nodup_cons.1 hnd).1
    obtain ⟨o1, o2⟩ := pop_step _ _ v rest _ _ comp hok hvr hc
    refine ⟨_, _, ?_, Run.one_step o2 o1⟩
    simp [pop_component_tr, StdVector.set?, hv]
  | cons a above ih =>
    intro comp hok hnd hab hv
    have hnd' := List.nodup_cons.1 hnd
    have hav : a ≠ v := fun h => hnd'.1 (by rw [h]; simp)
    have ha : a < comp.size := hab a (List.mem_cons_self _ _)
    obtain ⟨o1, o2⟩ := pop_step _ _ a (above ++ v :: rest) _ _ comp hok hnd'.1 hc
    obtain ⟨comp', tr, h1, h2⟩ := ih _ o1 hnd'.2
      (fun x hx => hab x (List.mem_cons_of_mem _ hx)) hv
    refine ⟨comp', _, ?_, Run.cons o2 o1 h2⟩
    have h1' : pop_component_tr st2 v (List.append above (v :: rest))
        ⟨comp.size, fun j => if j = a then st2.comp_cnt else comp.data j⟩ =
        some ((rest, comp'), tr) := h1
    simp only [List.cons_append, pop_component_tr, StdVector.set?, ha, if_true,
      Option.bind_eq_bind, Option.some_bind, ne_eq, hav, not_false_eq_true, h1',
      Option.pure_def]
    rfl

end Djp

namespace Djp

theorem finish_tr_root {g : Graph} {st : SccState} {v : Nat} {gs : List Nat} {st2 : SccState}
    (hg : g.WF) (hv : v < g.num_vertices)
    (h : VisitInv g st v gs (g.out_edges v) st2) (hroot : st2.low.data v = st2.dtm.data v)
    (hok : StateOK st2) :
    ∃ st' tr, finish_visit_tr st2 v = some (st', tr) ∧ Run st2 tr st' := by
  obtain ⟨above, h1, -⟩ := h.stack
  have hI := h.inv
  have hnd : (above ++ v :: st.s).Nodup := by
    have hsrt := hI.srt
    rw [h1] at hsrt
    exact hsrt.imp (fun hab => fun heq => by rw [heq] at hab; exact lt_irrefl _ hab)
  have hvs2 : v ∈ st2.s := by rw [h1]; simp
  have hcnt : st2.comp_cnt ≠ SIZE_MAX := by
    have hmem : v ∈ unvisited g.num_vertices (finalFlag st2) := by
      simp only [unvisited, Finset.mem_filter, Finset.mem_range]
      refine ⟨hv, ?_⟩
      cases hf : finalFlag st2 v with
      | false => rfl
      | true => exact absurd hvs2 ((finalFlag_iff st2 v).1 hf).2
    have := Finset.card_pos.2 ⟨v, hmem⟩
    have := hI.cntb
    have := hg.1
    omega
  have e : st2 = ⟨st2.time, st2.comp_cnt, above ++ v :: st.s, st2.low, st2.dtm, st2.comp⟩ := by
    rw [← h1]
  have hok' : StateOK
      ⟨st2.time, st2.comp_cnt, above ++ v :: st.s, st2.low, st2.dtm, st2.comp⟩ := by
    rw [← e]; exact hok
  obtain ⟨comp', tr, hp, hr⟩ := pop_component_tr_run st2 v st.s hcnt above st2.comp hok' hnd
    (fun x hx => by
      rw [hI.size_comp]
      exact hI.vlt x ((hI.stk x).1 (by rw [h1]; simp [hx])).1)
    (by rw [hI.size_comp]; exact hv)
  rw [← e] at hr
  have g1 := StdVector.get?_eq st2.dtm (i := v) (by rw [hI.size_dtm]; exact hv)
  have g2 := StdVector.get?_eq st2.low (i := v) (by rw [hI.size_low]; exact hv)
  refine ⟨⟨st2.time, st2.comp_cnt + 1, st.s, st2.low, st2.dtm, comp'⟩,
    tr ++ [⟨st2.time, st2.comp_cnt + 1, st.s, st2.low, st2.dtm, comp'⟩], ?_, ?_⟩
  · rw [← h1] at hp
    simp only [finish_visit_tr, g1, g2, Option.some_bind, Option.bind_eq_bind, ne_eq,
      hroot, not_true_eq_false, if_false, hp, Option.pure_def]
  · refine Run.glue hr (Run.one_step (StepOK.of_same rfl rfl rfl) ?_)
    have := hr.last_ok hok
    exact ⟨this.1, this.2⟩

theorem finish_tr_nonroot {g : Graph} {st2 : SccState} {gs : List Nat} {v : Nat}
    (hI : SccInv g st2 gs) (hv : v < g.num_vertices)
    (hlt : st2.low.data v ≠ st2.dtm.data v) : finish_visit_tr st2 v = some (st2, []) := by
  have g1 := StdVector.get?_eq st2.dtm (i := v) (by rw [hI.size_dtm]; exact hv)
  have g2 := StdVector.get?_eq st2.low (i := v) (by rw [hI.size_low]; exact hv)
  simp only [finish_visit_tr, g1, g2, Option.some_bind, Option.bind_eq_bind, ne_eq,
    Ne.symm hlt, not_false_eq_true, if_true, Option.pure_def]

/-- The run of `dfs_visit` with the states it passes: it returns, the state it returns
satisfies `VisitPost`, and the states passed form a sequence of legal steps through legal
states. -/
theorem dfs_visit_tr_spec {g : Graph} (hg : g.WF) :
    ∀ (fuel : Nat) (st : SccState) (v : Nat) (gs : List Nat), SccInv g st gs → StateOK st →
      st.dtm.data v = 0 → v < g.num_vertices → (∀ x ∈ gs, Reachable g x v) →
      (unvisited g.num_vertices (seenFlag st)).card ≤ fuel →
      ∃ st' tr, dfs_visit_tr fuel g st v = some (st', tr) ∧ VisitPost g st v gs st' ∧
        Run st tr st' := by
  intro fuel
  induction fuel with
  | zero =>
    intro st v gs _ _ hun hv _ hcard
    exfalso
    have hmem : v ∈ unvisited g.num_vertices (seenFlag st) := by
      simp [unvisited, hv, seenFlag, hun]
    have := Finset.card_pos.2 ⟨v, hmem⟩
    omega
  | succ fuel ih =>
    intro st v gs h hok hun hv hr hcard
    have hVI := scc_enter h hv hun hr
    obtain ⟨ok1, step1⟩ := enter_step hVI.inv hok hun
    have hseen1 : ∀ {stc : SccState} {done : List Nat}, VisitInv g st v gs done stc →
        ∀ x, seenFlag (enterState st v) x = true → seenFlag stc x = true := by
      intro stc done hc x hx
      rw [seenFlag_iff] at hx ⊢
      by_cases hxv : x = v
      · rw [hxv, hc.dv]; omega
      · have hx' : st.dtm.data x ≠ 0 := by
          have : (enterState st v).dtm.data x = st.dtm.data x := if_neg hxv
          rw [this] at hx; exact hx
        rw [(hc.frame x hx').1]; exact hx'
    have hcard1 : (unvisited g.num_vertices (seenFlag (enterState st v))).card ≤ fuel := by
      have := @unvisited_card_lt g.num_vertices (seenFlag st) (seenFlag (enterState st v))
        (by
          intro x hx
          rw [seenFlag_iff] at hx ⊢
          rw [(hVI.frame x hx).1]; exact hx) v hv
        (by simp [seenFlag, hun])
        (by rw [seenFlag_iff, hVI.dv]; omega)
      omega
    obtain ⟨r2, hloop, hV2, hR2⟩ := foldlM_list_inv (sccEdge_tr fuel g v)
      (fun done acc => VisitInv g st v gs done acc.1 ∧ Run st acc.2 acc.1) (g.out_edges v)
      (enterState st v, [enterState st v]) ⟨hVI, Run.one_step step1 ok1⟩
      (by
        rintro pre e suf ⟨stc, trc⟩ hsplit ⟨hc, hrun⟩
        simp only at hc hrun
        have hokc : StateOK stc := hrun.last_ok hok
        have he : e ∈ g.out_edges v := by rw [hsplit]; simp
        have hwn : g.target e < g.num_vertices := (hg.2.1 e (hg.2.2 v hv e he).1).2.1
        have hvw : Reachable g v (g.target e) := Reachable.out_edge hg hv he
        have g1 := StdVector.get?_eq stc.dtm (i := g.target e)
          (by rw [hc.inv.size_dtm]; exact hwn)
        rw [sccEdge_tr_eq]
        simp only [g1, Option.some_bind]
        by_cases hdw : stc.dtm.data (g.target e) = 0
        · have hrw : ∀ x ∈ v :: gs, Reachable g x (g.target e) := by
            intro x hx
            rcases List.mem_cons.1 hx with rfl | hx
            · exact hvw
            · exact (hr x hx).trans hvw
          obtain ⟨st', tr', hst', hp, hrun'⟩ := ih stc (g.target e) (v :: gs) hc.inv hokc hdw
            hwn hrw (le_trans (unvisited_card_mono (hseen1 hc)) hcard1)
          have hm := VisitMid.of_post hc hvw hp
          obtain ⟨o1, o2⟩ := fold_step v (g.target e) (hrun'.last_ok hokc)
          refine ⟨(foldState st' v (g.target e), trc ++ tr' ++ [foldState st' v (g.target e)]),
            ?_, hm.fold hun hvw rfl, (hrun.glue hrun').glue (Run.one_step o2 o1)⟩
          simp only [hdw, if_true, hst', Option.some_bind, fold_low_eq hp.inv hv hwn]
        · have hm := hc.toMid hdw
          obtain ⟨o1, o2⟩ := fold_step v (g.target e) hokc
          refine ⟨(foldState stc v (g.target e), trc ++ [] ++ [foldState stc v (g.target e)]),
            ?_, hm.fold hun hvw rfl, ?_⟩
          · simp only [hdw, if_false, Option.some_bind, fold_low_eq hc.inv hv hwn]
          · simp only [List.append_nil]
            exact hrun.glue (Run.one_step o2 o1))
    have henter := enter_visit_eq (v := v) h hv
    have hok2 : StateOK r2.1 := hR2.last_ok hok
    by_cases hroot : r2.1.low.data v = r2.1.dtm.data v
    · obtain ⟨st', hst', hp⟩ := finish_root hg h hv hV2 hroot
      obtain ⟨st'', tr, hst'', hrun⟩ := finish_tr_root hg hv hV2 hroot hok2
      have hers := finish_visit_tr_fst r2.1 v
      rw [hst', hst''] at hers
      have hers' : st'' = st' := hers
      subst hers'
      refine ⟨st'', r2.2 ++ tr, ?_, hp, hR2.glue hrun⟩
      rw [dfs_visit_tr_succ, henter]
      simp only [Option.some_bind, hloop, hst'']
    · refine ⟨r2.1, r2.2 ++ [], ?_, finish_nonroot hV2 hroot, ?_⟩
      · rw [dfs_visit_tr_succ, henter]
        simp only [Option.some_bind, hloop, finish_tr_nonroot hV2.inv hv hroot]
      · rw [List.append_nil]; exact hR2

end Djp

namespace Djp

theorem scc_init_ok (g : Graph) (comp : StdVector Nat) : StateOK (scc_init g comp) := by
  refine ⟨fun x => ?_, fun x => le_refl _⟩
  constructor
  · intro h; simp [scc_init] at h
  · rintro ⟨h, -⟩; exact absurd rfl h

/-- The final loop of `strong_components` with the states it passes, up to any vertex `k`: it
returns, between two top-level calls the invariant holds with no call open, and the states
passed form a sequence of legal steps through legal states. -/
theorem scc_loop_tr {g : Graph} (hg : g.WF) (fuel : Nat) (hf : g.num_vertices ≤ fuel)
    (comp : StdVector Nat) (k : Nat) (hk : k ≤ g.num_vertices) :
    ∃ acc, (List.range k).foldlM (scc_outer_tr fuel g) (scc_init g comp, []) = some acc ∧
      SccInv g acc.1 [] ∧ (∀ x, x < k → acc.1.dtm.data x ≠ 0) ∧
      Run (scc_init g comp) acc.2 acc.1 := by
  obtain ⟨acc, hacc, hI, hseen, hrun⟩ := foldlM_range_inv (scc_outer_tr fuel g)
    (fun i acc => SccInv g acc.1 [] ∧ (∀ x, x < i → acc.1.dtm.data x ≠ 0) ∧
      Run (scc_init g comp) acc.2 acc.1) k (scc_init g comp, [])
    ⟨scc_init_inv g comp, fun x hx => absurd hx (Nat.not_lt_zero x), Run.nil _⟩
    (by
      rintro i ⟨st, tr⟩ hi ⟨hI, hseen, hrun⟩
      simp only at hI hseen hrun
      have hin : i < g.num_vertices := lt_of_lt_of_le hi hk
      have g1 := StdVector.get?_eq st.dtm (i := i) (by rw [hI.size_dtm]; exact hin)
      unfold scc_outer_tr
      simp only [g1, Option.some_bind, Option.bind_eq_bind]
      by_cases hd : st.dtm.data i = 0
      · have hcard : (unvisited g.num_vertices (seenFlag st)).card ≤ fuel := by
          have := Finset.card_filter_le (Finset.range g.num_vertices)
            (fun v => seenFlag st v = false)
          rw [Finset.card_range] at this
          exact le_trans this hf
        obtain ⟨st', tr', hst', hp, hrun'⟩ := dfs_visit_tr_spec hg fuel st i [] hI
          (hrun.last_ok (scc_init_ok g comp)) hd hin (by simp) hcard
        refine ⟨(st', tr ++ tr'), by simp only [hd, if_true, hst', Option.some_bind,
          Option.pure_def], hp.inv, ?_, hrun.glue hrun'⟩
        intro x hx
        rcases Nat.lt_succ_iff_lt_or_eq.1 hx with hx | rfl
        · show st'.dtm.data x ≠ 0
          rw [(hp.frame x (hseen x hx)).1]; exact hseen x hx
        · exact hp.seen
      · refine ⟨(st, tr), by simp only [hd, if_false, Option.pure_def], hI, ?_, hrun⟩
        intro x hx
        rcases Nat.lt_succ_iff_lt_or_eq.1 hx with hx | rfl
        · exact hseen x hx
        · exact hd)
  exact ⟨acc, hacc, hI, hseen, hrun⟩

theorem SccInv.stack_nil {g : Graph} {st : SccState} (hI : SccInv g st []) : st.s = [] := by
  cases hss : st.s with
  | nil => rfl
  | cons y t =>
    obtain ⟨x, hx, -⟩ := hI.g8 y (by rw [hss]; exact List.mem_cons_self _ _)
    simp at hx

/-- On the 4-cycle with an isolated vertex the run passes 16 states: five entries, four
low-link statements, five pop iterations and two increments of the counter. -/
theorem strong_components_tr_example :
    (strong_components_tr 5 cyclePlusIsolated (StdVector.assign 2 SIZE_MAX)).map
      (fun r => (r.2.length, r.1.comp_cnt, r.1.comp.toList)) = some (16, 2, [0, 0, 0, 0, 1]) := by
  decide

/-- C18: the state machine of a vertex holds along the run of `strong_components`. The run
returns (so the pop loop never meets an empty stack); in the start state and in every state
passed a vertex is on the stack exactly when its discovery time is non-zero and its `comp`
entry is `SIZE_MAX`, and `low[x] ≤ dtm[x]` for every `x`; every step leaves an undiscovered
vertex undiscovered or pushes it, keeps a discovery time once assigned, and keeps the
component id of a vertex that has left the stack; and the stack is empty after each
iteration of the final loop, that is whenever a top-level call has returned. -/
theorem strong_components_state_machine (g : Graph) (comp : StdVector Nat) (fuel : Nat)
    (hg : g.WF) (hf : g.num_vertices ≤ fuel) :
    ∃ st tr, strong_components_tr fuel g comp = some (st, tr) ∧
      strong_components fuel g comp = some (st.comp_cnt, st.comp) ∧
      StateOK (scc_init g comp) ∧ (∀ s ∈ tr, StateOK s) ∧
      List.Chain StepOK (scc_init g comp) tr ∧
      ∀ k, k ≤ g.num_vertices →
        ∃ sk, (List.range k).foldlM (scc_outer fuel g) (scc_init g comp) = some sk ∧
          sk.s = [] := by
  obtain ⟨acc, hacc, -, -, hrun⟩ := scc_loop_tr hg fuel hf comp g.num_vertices (le_refl _)
  have hplain := strong_components_tr_fst fuel g comp
  have hacc' : strong_components_tr fuel g comp = some acc := hacc
  rw [hacc'] at hplain
  refine ⟨acc.1, acc.2, hacc', ?_, scc_init_ok g comp, hrun.to_chain.2, hrun.to_chain.1, ?_⟩
  · cases h : strong_components fuel g comp with
    | none => rw [h] at hplain; exact absurd hplain (by simp [OptRel])
    | some r =>
      rw [h] at hplain
      have : (acc.1.comp_cnt, acc.1.comp) = r := hplain
      rw [this]
  · intro k hk
    obtain ⟨acck, hk1, hIk, -, -⟩ := scc_loop_tr hg fuel hf comp k hk
    have hers := scc_loop_tr_fst fuel g (List.range k) (scc_init g comp)
    rw [hk1] at hers
    cases h : (List.range k).foldlM (scc_outer fuel g) (scc_init g comp) with
    | none => rw [h] at hers; exact absurd hers (by simp [OptRel])
    | some sk =>
      rw [h] at hers
      have e : acck.1 = sk := hers
      exact ⟨sk, rfl, by rw [← e]; exact hIk.stack_nil⟩

theorem strong_components_state_machine_witness :
    ∃ st tr, strong_components_tr 5 cyclePlusIsolated (StdVector.assign 2 SIZE_MAX) =
        some (st, tr) ∧
      strong_components 5 cyclePlusIsolated (StdVector.assign 2 SIZE_MAX) =
        some (st.comp_cnt, st.comp) ∧
      StateOK (scc_init cyclePlusIsolated (StdVector.assign 2 SIZE_MAX)) ∧
      (∀ s ∈ tr, StateOK s) ∧
      List.Chain StepOK (scc_init cyclePlusIsolated (StdVector.assign 2 SIZE_MAX)) tr ∧
      ∀ k, k ≤ cyclePlusIsolated.num_vertices →
        ∃ sk, (List.range k).foldlM (scc_outer 5 cyclePlusIsolated)
            (scc_init cyclePlusIsolated (StdVector.assign 2 SIZE_MAX)) = some sk ∧
          sk.s = [] :=
  strong_components_state_machine cyclePlusIsolated (StdVector.assign 2 SIZE_MAX) 5
    (by decide) (by decide)

end Djp

namespace Djp

/-- C20: for an input of exactly one point and any predicate `cw`, `convex_hull` returns the
empty vector: each of the two chains drops its last element, which is the only point. -/
theorem convex_hull_single_point {α : Type} (cw : α → α → α → Bool) (d p : α) :
    convex_hull cw d [p] = some [] := by
  rfl

/-- C15 (what the code does): on the three collinear points `(0,0), (1,0), (2,0)` the two
chains of `convex_hull_partition` are `[(0,0), (1,0)]` and `[(2,0), (1,0)]`, no point is left
over, and the two `std::copy` calls write four elements into the range of three: the second
copy runs past `last` and the final `assert(ch_end == last)` fails, so the call has no
result. On a single point both chains are empty and the point is placed in the prefix, before
the returned iterator. On a triangle the call returns with all three points in the suffix. -/
theorem convex_hull_partition_overflow :
    partition_chains cw_strict (0, 0) [((0:Int), (0:Int)), (1, 0), (2, 0)] =
        some ([(0, 0), (1, 0)], [(2, 0), (1, 0)]) ∧
      convex_hull_partition cw_strict lexLt (0, 0) [((0:Int), (0:Int)), (1, 0), (2, 0)] = none ∧
      convex_hull_partition cw_strict lexLt (0, 0) [((3:Int), (4:Int))] = some ([(3, 4)], 1) ∧
      convex_hull_partition cw_strict lexLt (0, 0) [((0:Int), (0:Int)), (1, 0), (1, 1)] =
        some ([(0, 0), (1, 0), (1, 1)], 0) := by
  refine ⟨by decide, by decide, by decide, by decide⟩

/-- On the four points `(0,0), (1,0), (1,2), (2,1)` the hull is all four of them, in
counterclockwise order from the smallest. -/
theorem convex_hull_example :
    convex_hull cw_strict (0, 0) [((0:Int), (0:Int)), (1, 0), (1, 2), (2, 1)] =
      some [(0, 0), (1, 0), (2, 1), (1, 2)] := by
  decide

/-- The point `(1, 2)` is a vertex of the hull of those four points: the second coordinate is
largest there and nowhere else. -/
theorem isVertex_example : IsVertex [((0:Int), (0:Int)), (1, 0), (1, 2), (2, 1)] (1, 2) :=
  ⟨by decide, (0, 1), by decide⟩

end Djp

namespace Djp

section Refine
variable {α : Type} (cw : α → α → α → Bool)

theorem make_convex_set_pop_small (buf : StdVector α) (first : Nat) (x : α) (e : Nat)
    (h : e - first < 2) : make_convex_set_pop cw buf first x e = some e := by
  match e with
  | 0 => rfl
  | 1 => rfl
  | e + 2 =>
    rw [make_convex_set_pop, if_neg (by omega)]
    rfl

theorem chainPop_length_le (st : List α) (x : α) : (chainPop cw st x).length ≤ st.length := by
  induction st with
  | nil => simp [chainPop]
  | cons q t ih =>
    cases t with
    | nil => simp [chainPop]
    | cons p rest =>
      simp only [chainPop]
      split
      · exact le_trans ih (by simp)
      · exact le_refl _

theorem Stk.pop {buf : StdVector α} {first : Nat} {st : List α} (h : Stk buf first st)
    (x : α) : Stk buf first (chainPop cw st x) := by
  induction st with
  | nil => simpa [chainPop] using h
  | cons q t ih =>
    cases t with
    | nil => simpa [chainPop] using h
    | cons p rest =>
      simp only [chainPop]
      split
      · exact ih h.2
      · exact h

theorem make_convex_set_pop_eq (buf : StdVector α) (first : Nat) (x : α) :
    ∀ st : List α, Stk buf first st → first + st.length ≤ buf.size →
      make_convex_set_pop cw buf first x (first + st.length) =
        some (first + (chainPop cw st x).length) := by
  intro st
  induction st with
  | nil => intro _ _; exact make_convex_set_pop_small cw buf first x _ (by simp)
  | cons q t ih =>
    intro h hsz
    cases t with
    | nil => exact make_convex_set_pop_small cw buf first x _ (by simp)
    | cons p rest =>
      obtain ⟨hq, hp, hrest⟩ := h
      simp only [List.length_cons] at hq hp hsz ⊢
      have e1 : first + (rest.length + 1 + 1) = (first + rest.length) + 2 := by omega
      have g1 : buf.get? (first + rest.length) = some p := by
        simp only [StdVector.get?, if_pos (by omega : first + rest.length < buf.size), hp]
      have g2 : buf.get? (first + rest.length + 1) = some q := by
        simp only [StdVector.get?, if_pos (by omega : first + rest.length + 1 < buf.size)]
        rw [← hq]; rfl
      rw [e1, make_convex_set_pop, if_pos (by omega)]
      simp only [g1, g2, Option.some_bind, Option.bind_eq_bind, chainPop]
      by_cases hc : cw p q x = true
      · simp only [hc, if_true]
        exact ih ⟨hp, hrest⟩ (by simp only [List.length_cons]; omega)
      · simp only [hc, if_false, Bool.false_eq_true]
        simp only [Option.pure_def, List.length_cons, e1]

theorem Stk.write {buf : StdVector α} {first : Nat} {st : List α} (h : Stk buf first st)
    (k : Nat) (x : α) (hk : first + st.length ≤ k) :
    Stk ⟨buf.size, fun j => if j = k then x else buf.data j⟩ first st := by
  induction st with
  | nil => trivial
  | cons q t ih =>
    simp only [List.length_cons] at hk
    refine ⟨?_, ih h.2 (by omega)⟩
    simp only
    rw [if_neg (by omega)]
    exact h.1

theorem Seg.write_below {buf : StdVector α} {l : List α} :
    ∀ {i : Nat}, Seg buf i l → ∀ (k : Nat) (x : α), k < i →
      Seg ⟨buf.size, fun j => if j = k then x else buf.data j⟩ i l := by
  induction l with
  | nil => intro i _ k x _; trivial
  | cons y ys ih =>
    intro i h k x hk
    refine ⟨?_, ih h.2 k x (by omega)⟩
    simp only
    rw [if_neg (by omega)]
    exact h.1

theorem make_convex_set_step_eq (first : Nat) (buf : StdVector α) (st : List α) (i : Nat)
    (x : α) (hS : Stk buf first st) (hx : buf.data i = x) (hle : first + st.length ≤ i)
    (hi : i < buf.size) :
    make_convex_set_step cw first (buf, first + st.length) i =
      some (⟨buf.size, fun j => if j = first + (chainPop cw st x).length then x
        else buf.data j⟩, first + (chainPush cw st x).length) := by
  have hpl := chainPop_length_le cw st x
  have g1 : buf.get? i = some x := by simp only [StdVector.get?, if_pos hi, hx]
  have g2 := make_convex_set_pop_eq cw buf first x st hS (by omega)
  have g3 : buf.set? (first + (chainPop cw st x).length) x = some
      ⟨buf.size, fun j => if j = first + (chainPop cw st x).length then x else buf.data j⟩ := by
    simp only [StdVector.set?, if_pos (by omega : first + (chainPop cw st x).length < buf.size)]
  simp only [make_convex_set_step, g1, g2, g3, Option.some_bind, Option.bind_eq_bind,
    Option.pure_def, chainPush, List.length_cons]
  rfl

/-- The `for` loop of `make_convex_set` run on a buffer that holds the stack `st` and, from
index `i`, the points `inp` still to come: it leaves the stack `inp.foldl chainPush st` in
the buffer and touches nothing below `first`. -/
theorem make_convex_set_loop (first : Nat) :
    ∀ (inp : List α) (i : Nat) (st : List α) (buf : StdVector α), Stk buf first st →
      Seg buf i inp → first + st.length ≤ i → i + inp.length ≤ buf.size →
      ∃ buf', (List.range' i inp.length).foldlM (make_convex_set_step cw first)
          (buf, first + st.length) =
          some (buf', first + (inp.foldl (chainPush cw) st).length) ∧
        Stk buf' first (inp.foldl (chainPush cw) st) ∧ buf'.size = buf.size ∧
        ∀ j, j < first → buf'.data j = buf.data j := by
  intro inp
  induction inp with
  | nil =>
    intro i st buf hS _ _ _
    exact ⟨buf, by simp, hS, rfl, fun _ _ => rfl⟩
  | cons x xs ih =>
    intro i st buf hS hG hle hsz
    simp only [List.length_cons] at hsz
    have hpl := chainPop_length_le cw st x
    have hstep := make_convex_set_step_eq cw first buf st i x hS hG.1 hle (by omega)
    have hS' : Stk ⟨buf.size, fun j => if j = first + (chainPop cw st x).length then x
        else buf.data j⟩ first (chainPush cw st x) := by
      refine ⟨by simp, (hS.pop cw x).write _ x (le_refl _)⟩
    have hG' := hG.2.write_below (first + (chainPop cw st x).length) x (by omega)
    obtain ⟨buf', h1, h2, h3, h4⟩ := ih (i + 1) (chainPush cw st x) _ hS' hG'
      (by simp only [chainPush, List.length_cons]; omega) (by simp only; omega)
    refine ⟨buf', ?_, h2, h3, fun j hj => ?_⟩
    · simp only [List.length_cons, List.range'_succ, List.foldlM_cons, hstep,
        Option.bind_eq_bind, Option.some_bind, List.foldl_cons]
      exact h1
    · rw [h4 j hj]
      simp only
      rw [if_neg (by omega)]

theorem chainPush_foldl_ne_nil (st : List α) :
    ∀ (inp : List α), (inp ≠ [] ∨ st ≠ []) → inp.foldl (chainPush cw) st ≠ [] := by
  intro inp
  induction inp generalizing st with
  | nil => intro h; rcases h with h | h; exact absurd rfl h; simpa using h
  | cons x xs ih =>
    intro _
    simp only [List.foldl_cons]
    exact ih _ (Or.inr (by simp [chainPush]))

/-- The function `make_convex_set` on a buffer that holds the non-empty sequence `inp` from
index `first`: it returns, the buffer holds the stack `chain cw inp` from `first`, and the
returned index is that of the top of the stack. -/
theorem make_convex_set_eq (first : Nat) (inp : List α) (buf : StdVector α)
    (hne : inp ≠ []) (hG : Seg buf first inp) (hsz : first + inp.length ≤ buf.size) :
    ∃ buf', make_convex_set cw buf first (first + inp.length) =
        some (buf', first + (chain cw inp).length - 1) ∧
      Stk buf' first (chain cw inp) ∧ buf'.size = buf.size ∧ chain cw inp ≠ [] ∧
      ∀ j, j < first → buf'.data j = buf.data j := by
  obtain ⟨buf', h1, h2, h3, h4⟩ := make_convex_set_loop cw first inp first [] buf trivial hG
    (by simp) hsz
  have hne' : chain cw inp ≠ [] := chainPush_foldl_ne_nil cw [] inp (Or.inl hne)
  have hpos : 0 < (chain cw inp).length := List.length_pos.2 hne'
  refine ⟨buf', ?_, h2, h3, hne', h4⟩
  simp only [List.length_nil, Nat.add_zero] at h1
  simp only [make_convex_set, Nat.add_sub_cancel_left, h1, Option.some_bind,
    Option.bind_eq_bind, chain]
  rw [if_neg (by unfold chain at hpos; omega)]
  rfl

end Refine

end Djp

namespace Djp

section Assemble
variable {α : Type} (cw : α → α → α → Bool)

theorem copy_in_eq : ∀ (l : List α) (v : StdVector α) (pos : Nat), pos + l.length ≤ v.size →
    ∃ v', v.copy_in pos l = some v' ∧ Seg v' pos l ∧ v'.size = v.size ∧
      ∀ j, j < pos → v'.data j = v.data j := by
  intro l
  induction l with
  | nil => intro v pos _; exact ⟨v, rfl, trivial, rfl, fun _ _ => rfl⟩
  | cons x xs ih =>
    intro v pos h
    simp only [List.length_cons] at h
    obtain ⟨v', h1, h2, h3, h4⟩ := ih ⟨v.size, fun j => if j = pos then x else v.data j⟩
      (pos + 1) (by simp only; omega)
    refine ⟨v', ?_, ⟨?_, h2⟩, h3, fun j hj => ?_⟩
    · simp only [StdVector.copy_in, StdVector.set?, if_pos (by omega : pos < v.size),
        Option.some_bind, Option.bind_eq_bind]
      exact h1
    · rw [h4 pos (by omega)]; simp
    · rw [h4 j (by omega)]
      simp only
      rw [if_neg (by omega)]

theorem Stk.congr {buf buf' : StdVector α} {first : Nat} {st : List α}
    (h : Stk buf first st) (he : ∀ j, j < first + st.length → buf'.data j = buf.data j) :
    Stk buf' first st := by
  induction st with
  | nil => trivial
  | cons q t ih =>
    simp only [List.length_cons] at he
    refine ⟨?_, ih h.2 (fun j hj => he j (by omega))⟩
    rw [he _ (by omega)]; exact h.1

theorem Stk.map_range {buf : StdVector α} {first : Nat} {st : List α}
    (h : Stk buf first st) : (List.range' first st.length).map buf.data = st.reverse := by
  induction st with
  | nil => rfl
  | cons q t ih =>
    rw [List.length_cons, List.range'_concat, List.map_append, ih h.2, List.reverse_cons]
    simp only [List.map_cons, List.map_nil, Nat.one_mul]
    rw [h.1]

theorem chainPush_foldl_length (st : List α) :
    ∀ inp : List α, (inp.foldl (chainPush cw) st).length ≤ st.length + inp.length := by
  intro inp
  induction inp generalizing st with
  | nil => simp
  | cons x xs ih =>
    simp only [List.foldl_cons, List.length_cons]
    have := ih (chainPush cw st x)
    have := chainPop_length_le cw st x
    simp only [chainPush, List.length_cons] at *
    omega

theorem chain_length_le (pts : List α) : (chain cw pts).length ≤ pts.length := by
  have := chainPush_foldl_length cw [] pts
  simpa [chain] using this

/-- The function `convex_hull` on a non-empty input returns the lower chain without its last
point followed by the upper chain without its last point. -/
theorem convex_hull_eq (d : α) (pts : List α) (hne : pts ≠ []) :
    convex_hull cw d pts =
      some ((chain cw pts).tail.reverse ++ (chain cw pts.reverse).tail.reverse) := by
  have hn : 0 < pts.length := List.length_pos.2 hne
  obtain ⟨b1, c1, s1, z1, -⟩ := copy_in_eq pts (StdVector.assign (2 * pts.length) d) 0
    (by simp only [StdVector.assign]; omega)
  have z1' : b1.size = 2 * pts.length := z1
  obtain ⟨b2, c2, s2, z2, n2, -⟩ := make_convex_set_eq cw 0 pts b1 hne s1 (by omega)
  have hL := chain_length_le cw pts
  have hLpos : 0 < (chain cw pts).length := List.length_pos.2 n2
  have hrev : pts.reverse ≠ [] := by simpa using hne
  obtain ⟨b3, c3, s3, z3, f3⟩ := copy_in_eq pts.reverse b2 (0 + (chain cw pts).length - 1)
    (by simp only [List.length_reverse]; omega)
  have s3' : Seg b3 (0 + (chain cw pts).length - 1) pts.reverse := s3
  obtain ⟨b4, c4, s4, z4, n4, f4⟩ := make_convex_set_eq cw (0 + (chain cw pts).length - 1)
    pts.reverse b3 hrev s3' (by simp only [List.length_reverse]; omega)
  have hU := chain_length_le cw pts.reverse
  have hUpos : 0 < (chain cw pts.reverse).length := List.length_pos.2 n4
  simp only [List.length_reverse] at c4 hU
  simp only [Nat.zero_add] at c2 c3 c4 f3 f4 s4
  have hLt : Stk b4 0 (chain cw pts).tail := by
    have h2 : Stk b2 0 (chain cw pts).tail := by
      cases hc : chain cw pts with
      | nil => trivial
      | cons q t => rw [hc] at s2; exact s2.2
    have h3 : Stk b3 0 (chain cw pts).tail := h2.congr (fun j hj => by
      simp only [List.length_tail, Nat.zero_add] at hj
      exact f3 j hj)
    exact h3.congr (fun j hj => by
      simp only [List.length_tail, Nat.zero_add] at hj
      exact f4 j hj)
  have hUt : Stk b4 ((chain cw pts).length - 1) (chain cw pts.reverse).tail := by
    cases hc : chain cw pts.reverse with
    | nil => trivial
    | cons q t => rw [hc] at s4; exact s4.2
  have e1 := hLt.map_range
  have e2 := hUt.map_range
  simp only [List.length_tail] at e1 e2
  have hsz4 : b4.size = 2 * pts.length := by rw [z4, z3, z2, z1']
  have hres : (StdVector.mk ((chain cw pts).length - 1 + (chain cw pts.reverse).length - 1)
      b4.data).toList =
      (chain cw pts).tail.reverse ++ (chain cw pts.reverse).tail.reverse := by
    rw [← e1, ← e2, ← List.map_append]
    simp only [StdVector.toList]
    congr 1
    rw [List.range_eq_range']
    have : (chain cw pts).length - 1 + (chain cw pts.reverse).length - 1 =
        ((chain cw pts).length - 1) + ((chain cw pts.reverse).length - 1) := by omega
    rw [this, Nat.add_comm, ← List.range'_append_1]
    simp
  simp only [convex_hull, c1, c2, c3, c4, Option.some_bind, Option.bind_eq_bind,
    StdVector.erase_from, Option.pure_def]
  rw [if_pos (by omega)]
  simp only [Option.some_bind]
  rw [hres]

end Assemble

end Djp

namespace Djp

/-- Three vectors of the closed right half-plane, the middle one not zero: if the second is
not clockwise of the first and the third not clockwise of the second, the third is not
clockwise of the first. -/
theorem halfplane_trans (ux uy vx vy wx wy : Int) (hu : 0 ≤ ux)
    (hv : 0 < vx ∨ (vx = 0 ∧ 0 < vy)) (hw : 0 < wx ∨ (wx = 0 ∧ 0 ≤ wy))
    (h1 : 0 ≤ ux * vy - uy * vx) (h2 : 0 ≤ vx * wy - vy * wx) :
    0 ≤ ux * wy - uy * wx := by
  have hwx : 0 ≤ wx := by rcases hw with h | ⟨h, -⟩ <;> omega
  rcases hv with hv | ⟨hv0, hvy⟩
  · by_contra hneg
    push_neg at hneg
    have e : vx * (ux * wy - uy * wx) = ux * (vx * wy - vy * wx) + wx * (ux * vy - uy * vx) := by
      ring
    have := mul_nonneg hu h2
    have := mul_nonneg hwx h1
    have := mul_neg_of_pos_of_neg hv hneg
    linarith
  · subst hv0
    have h3 : vy * wx ≤ 0 := by linarith
    have hwx0 : wx = 0 := by
      rcases hw with h | ⟨h, -⟩
      · have := mul_pos hvy h; omega
      · exact h
    have hwy : 0 ≤ wy := by
      rcases hw with h | ⟨-, h⟩
      · omega
      · exact h
    subst hwx0
    have := mul_nonneg hu hwy
    linarith

/-- The same for three vectors of the closed left half-plane. -/
theorem halfplane_trans_neg (ux uy vx vy wx wy : Int) (hu : ux ≤ 0)
    (hv : vx < 0 ∨ (vx = 0 ∧ vy < 0)) (hw : wx < 0 ∨ (wx = 0 ∧ wy ≤ 0))
    (h1 : 0 ≤ ux * vy - uy * vx) (h2 : 0 ≤ vx * wy - vy * wx) :
    0 ≤ ux * wy - uy * wx := by
  have := halfplane_trans (-ux) (-uy) (-vx) (-vy) (-wx) (-wy) (by omega)
    (by rcases hv with h | ⟨h, h'⟩
        · exact Or.inl (by omega)
        · exact Or.inr ⟨by omega, by omega⟩)
    (by rcases hw with h | ⟨h, h'⟩
        · exact Or.inl (by omega)
        · exact Or.inr ⟨by omega, by omega⟩)
    (by linarith [neg_mul_neg ux vy, neg_mul_neg uy vx])
    (by linarith [neg_mul_neg vx wy, neg_mul_neg vy wx])
  linarith [neg_mul_neg ux wy, neg_mul_neg uy wx]

theorem LexLt.sub_pos {p q : Point} (h : LexLt p q) :
    0 < q.1 - p.1 ∨ (q.1 - p.1 = 0 ∧ 0 < q.2 - p.2) := by
  rcases h with h | ⟨h, h'⟩
  · exact Or.inl (by omega)
  · exact Or.inr ⟨by omega, by omega⟩

theorem LexLt.sub_neg {p q : Point} (h : LexLt p q) :
    p.1 - q.1 < 0 ∨ (p.1 - q.1 = 0 ∧ p.2 - q.2 < 0) := by
  rcases h with h | ⟨h, h'⟩
  · exact Or.inl (by omega)
  · exact Or.inr ⟨by omega, by omega⟩

theorem LexLt.le_fst {p q : Point} (h : LexLt p q) : p.1 ≤ q.1 := by
  rcases h with h | ⟨h, -⟩ <;> omega

theorem lexTurn : TurnOrder LexLt where
  irrefl := by
    rintro a (h | ⟨-, h⟩) <;> omega
  trans := by
    rintro a b c (h | ⟨h, h'⟩) (k | ⟨k, k'⟩)
    · exact Or.inl (by omega)
    · exact Or.inl (by omega)
    · exact Or.inl (by omega)
    · exact Or.inr ⟨by omega, by omega⟩
  tri := by
    intro a b
    rcases lt_trichotomy a.1 b.1 with h | h | h
    · exact Or.inl (Or.inl h)
    · rcases lt_trichotomy a.2 b.2 with k | k | k
      · exact Or.inl (Or.inr ⟨h, k⟩)
      · exact Or.inr (Or.inl (Prod.ext h k))
      · exact Or.inr (Or.inr (Or.inr ⟨h.symm, k⟩))
    · exact Or.inr (Or.inr (Or.inl h))
  t1 := by
    intro p q r x hpq hpr hx hc hq
    have hw : 0 < x.1 - p.1 ∨ (x.1 - p.1 = 0 ∧ 0 ≤ x.2 - p.2) := by
      rcases hx with rfl | hx
      · exact Or.inr ⟨by omega, by omega⟩
      · rcases hx.sub_pos with h | ⟨h, h'⟩
        · exact Or.inl h
        · exact Or.inr ⟨h, by omega⟩
    have := halfplane_trans (r.1 - p.1) (r.2 - p.2) (q.1 - p.1) (q.2 - p.2) (x.1 - p.1)
      (x.2 - p.2) (by have := hpr.le_fst; omega) hpq.sub_pos hw
      (by unfold cross at hc; linarith) (by unfold cross at hq; linarith)
    unfold cross; linarith
  t2 := by
    intro p q r x hxq hpq hqr hq hr
    have hw : 0 < r.1 - q.1 ∨ (r.1 - q.1 = 0 ∧ 0 ≤ r.2 - q.2) := by
      rcases hqr.sub_pos with h | ⟨h, h'⟩
      · exact Or.inl h
      · exact Or.inr ⟨h, by omega⟩
    have := halfplane_trans (q.1 - x.1) (q.2 - x.2) (q.1 - p.1) (q.2 - p.2) (r.1 - q.1)
      (r.2 - q.2) (by have := hxq.le_fst; omega) hpq.sub_pos hw
      (by unfold cross at hq; linarith) (by unfold cross at hr; linarith)
    unfold cross; linarith
  t3 := by
    intro a b c r hab hbc hbr h1 h2
    have hw : 0 < r.1 - b.1 ∨ (r.1 - b.1 = 0 ∧ 0 ≤ r.2 - b.2) := by
      rcases hbr.sub_pos with h | ⟨h, h'⟩
      · exact Or.inl h
      · exact Or.inr ⟨h, by omega⟩
    have := halfplane_trans (b.1 - a.1) (b.2 - a.2) (c.1 - b.1) (c.2 - b.2) (r.1 - b.1)
      (r.2 - b.2) (by have := hab.le_fst; omega) hbc.sub_pos hw
      (by unfold cross at h1; linarith) (by unfold cross at h2; linarith)
    unfold cross; linarith

theorem LexLt.ge_fst {p q : Point} (h : LexLt p q) : p.1 - q.1 ≤ 0 := by
  rcases h with h | ⟨h, -⟩ <;> omega

theorem LexLt.sub_neg_le {p q : Point} (h : LexLt p q) :
    p.1 - q.1 < 0 ∨ (p.1 - q.1 = 0 ∧ p.2 - q.2 ≤ 0) := by
  rcases h.sub_neg with h | ⟨h, h'⟩
  · exact Or.inl h
  · exact Or.inr ⟨h, by omega⟩

theorem lexTurnRev : TurnOrder (fun p q => LexLt q p) where
  irrefl := fun a => lexTurn.irrefl a
  trans := fun a b c h k => lexTurn.trans c b a k h
  tri := by
    intro a b
    rcases lexTurn.tri a b with h | h | h
    · exact Or.inr (Or.inr h)
    · exact Or.inr (Or.inl h)
    · exact Or.inl h
  t1 := by
    intro p q r x hpq hpr hx hc hq
    have hw : x.1 - p.1 < 0 ∨ (x.1 - p.1 = 0 ∧ x.2 - p.2 ≤ 0) := by
      rcases hx with rfl | hx
      · exact Or.inr ⟨by omega, by omega⟩
      · exact LexLt.sub_neg_le hx
    have := halfplane_trans_neg (r.1 - p.1) (r.2 - p.2) (q.1 - p.1) (q.2 - p.2) (x.1 - p.1)
      (x.2 - p.2) (LexLt.ge_fst hpr) (LexLt.sub_neg hpq) hw
      (by unfold cross at hc; linarith) (by unfold cross at hq; linarith)
    unfold cross; linarith
  t2 := by
    intro p q r x hxq hpq hqr hq hr
    have := halfplane_trans_neg (q.1 - x.1) (q.2 - x.2) (q.1 - p.1) (q.2 - p.2) (r.1 - q.1)
      (r.2 - q.2) (LexLt.ge_fst hxq) (LexLt.sub_neg hpq) (LexLt.sub_neg_le hqr)
      (by unfold cross at hq; linarith) (by unfold cross at hr; linarith)
    unfold cross; linarith
  t3 := by
    intro a b c r hab hbc hbr h1 h2
    have := halfplane_trans_neg (b.1 - a.1) (b.2 - a.2) (c.1 - b.1) (c.2 - b.2) (r.1 - b.1)
      (r.2 - b.2) (LexLt.ge_fst hab) (LexLt.sub_neg hbc) (LexLt.sub_neg_le hbr)
      (by unfold cross at h1; linarith) (by unfold cross at h2; linarith)
    unfold cross; linarith

end Djp

namespace Djp

theorem chainPop_suffix {α : Type} (cw : α → α → α → Bool) (st : List α) (x : α) :
    chainPop cw st x <:+ st := by
  induction st with
  | nil => simp [chainPop]
  | cons q t ih =>
    cases t with
    | nil => simp [chainPop]
    | cons p rest =>
      simp only [chainPop]
      split
      · exact ih.trans (List.suffix_cons _ _)
      · exact List.suffix_refl _

theorem chainPop_getLast? {α : Type} (cw : α → α → α → Bool) (st : List α) (x : α) :
    (chainPop cw st x).getLast? = st.getLast? := by
  induction st with
  | nil => simp [chainPop]
  | cons q t ih =>
    cases t with
    | nil => simp [chainPop]
    | cons p rest =>
      simp only [chainPop]
      split
      · rw [ih, List.getLast?_cons_cons]
      · rfl

theorem chainPop_ne_nil {α : Type} (cw : α → α → α → Bool) (st : List α) (x : α)
    (h : st ≠ []) : chainPop cw st x ≠ [] := by
  intro hnil
  have := chainPop_getLast? cw st x
  rw [hnil] at this
  cases st with
  | nil => exact h rfl
  | cons a t => simp [List.getLast?_eq_getLast] at this

theorem cross_self_right (p q : Point) : cross p q q = 0 := by
  unfold cross; ring

theorem cross_self_left (p q : Point) : cross p q p = 0 := by
  unfold cross; ring

section Chain
variable {lt : Point → Point → Prop} (ho : TurnOrder lt)
include ho

/-- The edges of a stack that stay when the point `r` is pushed also have `r` on their left
or on them, once the topmost of them has. -/
theorem edges_extend (P : List Point) (r : Point) :
    ∀ T : List Point, T.Pairwise (fun b a => lt a b) → (∀ y ∈ T, y ∈ P) → (∀ y ∈ T, lt y r) →
      T.Chain' (fun b a => ∀ x ∈ P, 0 ≤ cross a b x) →
      (∀ q p rest, T = q :: p :: rest → 0 ≤ cross p q r) →
      T.Chain' (fun b a => ∀ x ∈ P ++ [r], 0 ≤ cross a b x) := by
  intro T
  induction T with
  | nil => intro _ _ _ _ _; exact List.chain'_nil
  | cons q T' ih =>
    intro hs hsub hlt hch htop
    cases T' with
    | nil => exact List.chain'_singleton _
    | cons p rest =>
      rw [List.chain'_cons] at hch ⊢
      have hs' := List.pairwise_cons.1 hs
      refine ⟨fun x hx => ?_, ih hs'.2 (fun y hy => hsub y (List.mem_cons_of_mem _ hy))
        (fun y hy => hlt y (List.mem_cons_of_mem _ hy)) hch.2 ?_⟩
      · rcases List.mem_append.1 hx with hx | hx
        · exact hch.1 x hx
        · rw [List.mem_singleton.1 hx]; exact htop q p rest rfl
      · intro q' p' rest' he
        obtain ⟨rfl, rfl⟩ := List.cons_eq_cons.1 he
        have hs'' := List.pairwise_cons.1 hs'.2
        have hch' := (List.chain'_cons.1 hch.2).1
        exact ho.t3 p' p q r (hs''.1 p' (List.mem_cons_self _ _))
          (hs'.1 p (List.mem_cons_self _ _))
          (hlt p (List.mem_cons_of_mem _ (List.mem_cons_self _ _)))
          (hch' q (hsub q (List.mem_cons_self _ _))) (htop q p _ rfl)

/-- The inner loop of `make_convex_set` for a new point `r` beyond all points handled: after
it, with `r` pushed, every point handled and `r` lie on or to the left of the line through
any two neighbours of the stack. -/
theorem edges_pop (P : List Point) (r : Point) (hr : ∀ x ∈ P, lt x r) :
    ∀ S : List Point, S.Pairwise (fun b a => lt a b) → (∀ y ∈ S, y ∈ P) →
      S.Chain' (fun b a => ∀ x ∈ P, 0 ≤ cross a b x) →
      (∀ b, S.getLast? = some b → ∀ x ∈ P, x = b ∨ lt b x) →
      (∀ t, S.head? = some t → ∀ x ∈ P, (x = t ∨ lt t x) → 0 ≤ cross t r x) →
      (r :: chainPop cw_strict S r).Chain' (fun b a => ∀ x ∈ P ++ [r], 0 ≤ cross a b x) := by
  intro S
  induction S with
  | nil => intro _ _ _ _ _; simp [chainPop]
  | cons q T ih =>
    intro hs hsub hch hbot hpend
    cases T with
    | nil =>
      simp only [chainPop]
      rw [List.chain'_cons]
      refine ⟨fun x hx => ?_, List.chain'_singleton _⟩
      rcases List.mem_append.1 hx with hx | hx
      · exact hpend q rfl x hx (hbot q rfl x hx)
      · rw [List.mem_singleton.1 hx]; exact le_of_eq (cross_self_right q r).symm
    | cons p rest =>
      have hs' := List.pairwise_cons.1 hs
      have hpq : lt p q := hs'.1 p (List.mem_cons_self _ _)
      have hqP : q ∈ P := hsub q (List.mem_cons_self _ _)
      have hpP : p ∈ P := hsub p (List.mem_cons_of_mem _ (List.mem_cons_self _ _))
      have hch' := List.chain'_cons.1 hch
      simp only [chainPop]
      by_cases hc : cw_strict p q r = true
      · rw [if_pos hc]
        have hc' : cross p q r < 0 := of_decide_eq_true hc
        refine ih hs'.2 (fun y hy => hsub y (List.mem_cons_of_mem _ hy)) hch'.2
          (fun b hb => hbot b (by rw [List.getLast?_cons_cons]; exact hb)) ?_
        intro t ht x hx hxt
        have : t = p := by simpa using ht.symm
        subst this
        exact ho.t1 t q r x hpq (hr t hpP) hxt hc' (hch'.1 x hx)
      · rw [if_neg hc]
        have hc' : 0 ≤ cross p q r := by
          by_contra hneg
          exact hc (decide_eq_true (not_le.1 hneg))
        rw [List.chain'_cons]
        refine ⟨fun x hx => ?_, edges_extend ho P r _ hs hsub (fun y hy => hr y (hsub y hy)) hch
          (fun q' p' rest' he => ?_)⟩
        · rcases List.mem_append.1 hx with hx | hx
          · rcases ho.tri x q with h | h | h
            · exact ho.t2 p q r x h hpq (hr q hqP) (hch'.1 x hx) hc'
            · exact hpend q rfl x hx (Or.inl h)
            · exact hpend q rfl x hx (Or.inr h)
          · rw [List.mem_singleton.1 hx]; exact le_of_eq (cross_self_right q r).symm
        · obtain ⟨rfl, he'⟩ := List.cons_eq_cons.1 he
          obtain ⟨rfl, -⟩ := List.cons_eq_cons.1 he'
          exact hc'

theorem HullInv.push {P S : List Point} {r : Point} (h : HullInv lt P S)
    (hr : ∀ x ∈ P, lt x r) : HullInv lt (P ++ [r]) (chainPush cw_strict S r) := by
  have hsuf := chainPop_suffix cw_strict S r
  have hmem : ∀ y ∈ chainPop cw_strict S r, y ∈ S := fun y hy => hsuf.subset hy
  refine ⟨?_, ?_, ?_, ?_, ?_, fun _ => by simp [chainPush]⟩
  · exact List.pairwise_cons.2 ⟨fun a ha => hr a (h.sub a (hmem a ha)),
      h.sorted.sublist hsuf.sublist⟩
  · intro y hy
    rcases List.mem_cons.1 hy with rfl | hy
    · simp
    · exact List.mem_append_left _ (h.sub y (hmem y hy))
  · intro t ht x hx
    have : t = r := by simpa [chainPush] using ht.symm
    subst this
    rcases List.mem_append.1 hx with hx | hx
    · exact Or.inr (hr x hx)
    · exact Or.inl (List.mem_singleton.1 hx)
  · intro b hb x hx
    by_cases hS : S = []
    · have hP : P = [] := by
        by_contra hP
        exact h.nonempty hP hS
      subst hS hP
      simp only [chainPush, chainPop, List.getLast?_singleton, Option.some.injEq] at hb
      simp only [List.nil_append, List.mem_singleton] at hx
      exact Or.inl (hx.trans hb)
    · have hne := chainPop_ne_nil cw_strict S r hS
      have hb' : S.getLast? = some b := by
        rw [← chainPop_getLast? cw_strict S r]
        cases hcp : chainPop cw_strict S r with
        | nil => exact absurd hcp hne
        | cons a t =>
          simp only [chainPush, hcp, List.getLast?_cons_cons] at hb
          exact hb
      rcases List.mem_append.1 hx with hx | hx
      · exact h.bot b hb' x hx
      · rw [List.mem_singleton.1 hx]
        exact Or.inr (hr b (h.sub b (List.mem_of_mem_getLast? hb')))
  · refine edges_pop ho P r hr S h.sorted h.sub h.edges h.bot ?_
    intro t ht x hx hxt
    rcases hxt with rfl | hxt
    · exact le_of_eq (cross_self_left x r).symm
    · rcases h.top t ht x hx with rfl | hxt'
      · exact le_of_eq (cross_self_left x r).symm
      · exact absurd (ho.trans _ _ _ hxt hxt') (ho.irrefl t)

/-- The stack that `make_convex_set` builds from points arriving in increasing order
satisfies `HullInv`. -/
theorem chain_hull (pts : List Point) (hs : pts.Pairwise lt) :
    HullInv lt pts (chain cw_strict pts) := by
  induction pts using List.reverseRecOn with
  | nil =>
    exact ⟨List.Pairwise.nil, by simp [chain], by simp, by simp, by simp [chain],
      fun h => absurd rfl h⟩
  | append_singleton P r ih =>
    have hs' := List.pairwise_append.1 hs
    have : chain cw_strict (P ++ [r]) = chainPush cw_strict (chain cw_strict P) r := by
      simp [chain, List.foldl_append]
    rw [this]
    exact (ih hs'.1).push ho (fun x hx => hs'.2.2 x hx r (List.mem_singleton_self r))

end Chain

end Djp

namespace Djp

/-- A point that the inner loop of `make_convex_set` removes from the stack lies strictly to
the left of the line from a point below it in the stack to the new point `r`. -/
theorem chainPop_popped {lt : Point → Point → Prop} (r : Point) :
    ∀ S : List Point, S.Pairwise (fun b a => lt a b) →
      ∀ y ∈ S, y ∈ chainPop cw_strict S r ∨ ∃ p ∈ S, lt p y ∧ cross p y r < 0 := by
  intro S
  induction S with
  | nil => intro _ y hy; simp at hy
  | cons q T ih =>
    intro hs y hy
    cases T with
    | nil => exact Or.inl (by simpa [chainPop] using hy)
    | cons p rest =>
      have hs' := List.pairwise_cons.1 hs
      simp only [chainPop]
      by_cases hc : cw_strict p q r = true
      · rw [if_pos hc]
        rcases List.mem_cons.1 hy with rfl | hy
        · exact Or.inr ⟨p, List.mem_cons_of_mem _ (List.mem_cons_self _ _),
            hs'.1 p (List.mem_cons_self _ _), of_decide_eq_true hc⟩
        · rcases ih hs'.2 y hy with h | ⟨p', hp', h1, h2⟩
          · exact Or.inl h
          · exact Or.inr ⟨p', List.mem_cons_of_mem _ hp', h1, h2⟩
      · rw [if_neg hc]
        exact Or.inl hy

/-- Every point that `make_convex_set` has handled is in the final stack or lies strictly to
the left of the line between an earlier and a later point. -/
theorem chain_popped {lt : Point → Point → Prop} (ho : TurnOrder lt) (pts : List Point)
    (hs : pts.Pairwise lt) :
    ∀ x ∈ pts, x ∈ chain cw_strict pts ∨
      ∃ p r, p ∈ pts ∧ r ∈ pts ∧ lt p x ∧ lt x r ∧ cross p x r < 0 := by
  induction pts using List.reverseRecOn with
  | nil => intro x hx; simp at hx
  | append_singleton P r ih =>
    have hs' := List.pairwise_append.1 hs
    have hI := chain_hull ho P hs'.1
    have hch : chain cw_strict (P ++ [r]) = chainPush cw_strict (chain cw_strict P) r := by
      simp [chain, List.foldl_append]
    intro x hx
    rw [hch]
    rcases List.mem_append.1 hx with hx | hx
    · have hxr : lt x r := hs'.2.2 x hx r (List.mem_singleton_self r)
      rcases ih hs'.1 x hx with h | ⟨p, r', hp, hr', h1, h2, h3⟩
      · rcases chainPop_popped r (chain cw_strict P) hI.sorted x h with h' | ⟨p, hp, h1, h2⟩
        · exact Or.inl (List.mem_cons_of_mem _ h')
        · exact Or.inr ⟨p, r, List.mem_append_left _ (hI.sub p hp),
            List.mem_append_right _ (List.mem_singleton_self r), h1, hxr, h2⟩
      · exact Or.inr ⟨p, r', List.mem_append_left _ hp, List.mem_append_left _ hr', h1, h2, h3⟩
    · rw [List.mem_singleton.1 hx]
      exact Or.inl (List.mem_cons_self _ _)

/-- Two vectors `a` (pointing left or straight) and `b` (pointing right or straight) with `b`
strictly counterclockwise of `a`: a linear function negative on both has a positive second
coefficient. -/
theorem functional_sign (ax ay bx by' ux uy : Int) (ha : ax ≤ 0) (hb : 0 ≤ bx)
    (hc : 0 < ax * by' - ay * bx) (h1 : ux * ax + uy * ay < 0) (h2 : ux * bx + uy * by' < 0) :
    0 < uy := by
  by_contra huy
  push_neg at huy
  have e : bx * (ux * ax + uy * ay) + (-ax) * (ux * bx + uy * by') =
      -(uy * (ax * by' - ay * bx)) := by ring
  have k1 : bx * (ux * ax + uy * ay) ≤ 0 := mul_nonpos_of_nonneg_of_nonpos hb h1.le
  have k2 : (-ax) * (ux * bx + uy * by') ≤ 0 :=
    mul_nonpos_of_nonneg_of_nonpos (by omega) h2.le
  have k3 : uy * (ax * by' - ay * bx) ≤ 0 := mul_nonpos_of_nonpos_of_nonneg huy hc.le
  have k1' : bx * (ux * ax + uy * ay) = 0 := by linarith
  have k2' : (-ax) * (ux * bx + uy * by') = 0 := by linarith
  have hbx : bx = 0 := by
    rcases mul_eq_zero.1 k1' with h | h
    · exact h
    · omega
  have hax : ax = 0 := by
    rcases mul_eq_zero.1 k2' with h | h
    · omega
    · omega
  rw [hbx, hax] at hc
  simp at hc

/-- A point strictly above the line between an earlier and a later point and strictly below
the line between another such pair is no vertex: no linear function is negative on all four
differences. -/
theorem not_vertex_of_popped (x p r p' r' u : Point) (h1 : LexLt p x) (h2 : LexLt x r)
    (h3 : cross p x r < 0) (h4 : LexLt x p') (h5 : LexLt r' x) (h6 : cross p' x r' < 0)
    (up : u.1 * (p.1 - x.1) + u.2 * (p.2 - x.2) < 0)
    (ur : u.1 * (r.1 - x.1) + u.2 * (r.2 - x.2) < 0)
    (up' : u.1 * (p'.1 - x.1) + u.2 * (p'.2 - x.2) < 0)
    (ur' : u.1 * (r'.1 - x.1) + u.2 * (r'.2 - x.2) < 0) : False := by
  have a1 := functional_sign (p.1 - x.1) (p.2 - x.2) (r.1 - x.1) (r.2 - x.2) u.1 u.2
    (LexLt.ge_fst h1) (by have := LexLt.le_fst h2; omega)
    (by unfold cross at h3; linarith) up ur
  have a2 := functional_sign (r'.1 - x.1) (-(r'.2 - x.2)) (p'.1 - x.1) (-(p'.2 - x.2)) u.1
    (-u.2) (LexLt.ge_fst h5) (by have := LexLt.le_fst h4; omega)
    (by unfold cross at h6; linarith) (by linarith) (by linarith)
  omega

theorem chain'_and {α : Type} {R S : α → α → Prop} :
    ∀ {l : List α}, l.Chain' R → l.Chain' S → l.Chain' (fun a b => R a b ∧ S a b) := by
  intro l
  induction l with
  | nil => intro _ _; exact List.chain'_nil
  | cons a t ih =>
    intro h1 h2
    cases t with
    | nil => exact List.chain'_singleton _
    | cons b t' =>
      rw [List.chain'_cons] at h1 h2 ⊢
      exact ⟨⟨h1.1, h2.1⟩, ih h1.2 h2.2⟩

end Djp

namespace Djp

theorem chainPush_foldl_getLast? {α : Type} (cw : α → α → α → Bool) :
    ∀ (inp st : List α), st ≠ [] →
      (inp.foldl (chainPush cw) st).getLast? = st.getLast? := by
  intro inp
  induction inp with
  | nil => intro st _; rfl
  | cons x xs ih =>
    intro st hst
    simp only [List.foldl_cons]
    rw [ih _ (by simp [chainPush])]
    have hne := chainPop_ne_nil cw st x hst
    cases hcp : chainPop cw st x with
    | nil => exact absurd hcp hne
    | cons a t =>
      simp only [chainPush, hcp, List.getLast?_cons_cons]
      rw [← hcp, chainPop_getLast?]

theorem chain_getLast? {α : Type} (cw : α → α → α → Bool) (pts : List α) :
    (chain cw pts).getLast? = pts.head? := by
  cases pts with
  | nil => rfl
  | cons x xs =>
    simp only [chain, List.foldl_cons, List.head?_cons]
    rw [chainPush_foldl_getLast? cw xs _ (by simp [chainPush])]
    simp [chainPush, chainPop]

theorem chain_head? {α : Type} (cw : α → α → α → Bool) (pts : List α) :
    (chain cw pts).head? = pts.getLast? := by
  induction pts using List.reverseRecOn with
  | nil => rfl
  | append_singleton P r _ =>
    simp [chain, List.foldl_append, chainPush]

/-- In a list whose neighbours are related, also from its last element round to its first,
every element is related to its cyclic successor. -/
theorem cyclic_of_chain {α : Type} (R : α → α → Prop) (d : α) (H : List α) (h0 : α)
    (hh : H.head? = some h0) (hc : (H ++ [h0]).Chain' R) :
    ∀ i, i < H.length → R (H.getD i d) (H.getD ((i + 1) % H.length) d) := by
  intro i hi
  have hlen : (H ++ [h0]).length = H.length + 1 := by simp
  have h1 := List.chain'_iff_get.1 hc i (by rw [hlen]; omega)
  have e1 : (H ++ [h0]).get ⟨i, by rw [hlen]; omega⟩ = H.getD i d := by
    rw [List.getD_eq_getElem _ _ hi]
    simp only [List.get_eq_getElem]
    rw [List.getElem_append_left hi]
  rw [e1] at h1
  by_cases hi1 : i + 1 < H.length
  · have e2 : (H ++ [h0]).get ⟨i + 1, by rw [hlen]; omega⟩ = H.getD ((i + 1) % H.length) d := by
      rw [Nat.mod_eq_of_lt hi1, List.getD_eq_getElem _ _ hi1]
      simp only [List.get_eq_getElem]
      rw [List.getElem_append_left hi1]
    rw [e2] at h1
    exact h1
  · have hi2 : i + 1 = H.length := by omega
    have e2 : (H ++ [h0]).get ⟨i + 1, by rw [hlen]; omega⟩ = h0 := by
      simp only [List.get_eq_getElem]
      rw [List.getElem_append_right (by omega)]
      simp
    have e3 : H.getD ((i + 1) % H.length) d = h0 := by
      rw [hi2, Nat.mod_self]
      cases H with
      | nil => simp at hi
      | cons a t =>
        simp only [List.head?_cons, Option.some.injEq] at hh
        simp [hh]
    rw [e2] at h1
    rw [e3]
    exact h1

end Djp

namespace Djp

/-- The hull as two chains: for at least two points in strictly increasing lexicographic
order, the lower chain without its last point `A` and the upper chain without its last point
`B` together hold every point of the two chains, `A` starts at the first point, and going
through `A`, then `B`, then back to the first point, each step leads to another point and
every input point is on or to the left of each line passed. -/
theorem hull_chains (pts : List Point) (hn : 2 ≤ pts.length) (hs : pts.Pairwise LexLt) :
    ∃ p0, pts.head? = some p0 ∧
      ((chain cw_strict pts).tail.reverse ++ (chain cw_strict pts.reverse).tail.reverse).head? =
        some p0 ∧
      (∀ y ∈ (chain cw_strict pts).tail.reverse ++ (chain cw_strict pts.reverse).tail.reverse,
        y ∈ pts) ∧
      (∀ y, y ∈ chain cw_strict pts ∨ y ∈ chain cw_strict pts.reverse →
        y ∈ (chain cw_strict pts).tail.reverse ++ (chain cw_strict pts.reverse).tail.reverse) ∧
      (((chain cw_strict pts).tail.reverse ++ (chain cw_strict pts.reverse).tail.reverse) ++
        [p0]).Chain' (fun a b => a ≠ b ∧ ∀ x ∈ pts, 0 ≤ cross a b x) := by
  have hL := chain_hull lexTurn pts hs
  have hU := chain_hull lexTurnRev pts.reverse (List.pairwise_reverse.2 hs)
  obtain ⟨p0, rest, rfl⟩ : ∃ p0 rest, pts = p0 :: rest := by
    cases pts with
    | nil => simp at hn
    | cons a t => exact ⟨a, t, rfl⟩
  have hrest : rest ≠ [] := by
    intro h; subst h; simp at hn
  obtain ⟨pn, hpn⟩ : ∃ pn, (p0 :: rest).getLast? = some pn :=
    ⟨(p0 :: rest).getLast (by simp), List.getLast?_eq_getLast _ _⟩
  have hpn_mem : pn ∈ rest := by
    cases rest with
    | nil => exact absurd rfl hrest
    | cons a t =>
      rw [List.getLast?_cons_cons] at hpn
      exact List.mem_of_mem_getLast? hpn
  have hlt : LexLt p0 pn := (List.pairwise_cons.1 hs).1 pn hpn_mem
  have hne : p0 ≠ pn := fun h => lexTurn.irrefl p0 (by rw [← h] at hlt; exact hlt)
  -- the lower chain
  have hLh : (chain cw_strict (p0 :: rest)).head? = some pn := by rw [chain_head?, hpn]
  have hLl : (chain cw_strict (p0 :: rest)).getLast? = some p0 := by
    rw [chain_getLast?]; rfl
  obtain ⟨Lt, hLe⟩ : ∃ Lt, chain cw_strict (p0 :: rest) = pn :: Lt := by
    cases hc : chain cw_strict (p0 :: rest) with
    | nil => rw [hc] at hLh; simp at hLh
    | cons a t => rw [hc] at hLh; simp at hLh; exact ⟨t, by rw [hLh]⟩
  -- the upper chain
  have hUh : (chain cw_strict (p0 :: rest).reverse).head? = some p0 := by
    rw [chain_head?, List.getLast?_reverse]; rfl
  have hUl : (chain cw_strict (p0 :: rest).reverse).getLast? = some pn := by
    rw [chain_getLast?, List.head?_reverse, hpn]
  obtain ⟨Ut, hUe⟩ : ∃ Ut, chain cw_strict (p0 :: rest).reverse = p0 :: Ut := by
    cases hc : chain cw_strict (p0 :: rest).reverse with
    | nil => rw [hc] at hUh; simp at hUh
    | cons a t => rw [hc] at hUh; simp at hUh; exact ⟨t, by rw [hUh]⟩
  rw [hLe] at hL hLl
  rw [hUe] at hU hUl
  rw [hLe, hUe]
  simp only [List.tail_cons]
  -- chains read bottom first
  have hLne : (pn :: Lt).Chain' (fun b a => a ≠ b) :=
    (List.Pairwise.chain' hL.sorted).imp
      (fun b a (h : LexLt a b) (heq : a = b) =>
        lexTurn.irrefl a (by rw [← heq] at h; exact h))
  have hUne : (p0 :: Ut).Chain' (fun b a => a ≠ b) :=
    (List.Pairwise.chain' hU.sorted).imp
      (fun b a (h : LexLt b a) (heq : a = b) =>
        lexTurn.irrefl b (by rw [heq] at h; exact h))
  have hcL : (Lt.reverse ++ [pn]).Chain'
      (fun a b => a ≠ b ∧ ∀ x ∈ p0 :: rest, 0 ≤ cross a b x) := by
    have := List.chain'_reverse.2 (chain'_and hLne hL.edges)
    rw [List.reverse_cons] at this
    exact this
  have hcU : (Ut.reverse ++ [p0]).Chain'
      (fun a b => a ≠ b ∧ ∀ x ∈ p0 :: rest, 0 ≤ cross a b x) := by
    have h1 : (p0 :: Ut).reverse.Chain'
        (fun a b => a ≠ b ∧ ∀ x ∈ (p0 :: rest).reverse, 0 ≤ cross a b x) :=
      List.chain'_reverse.2 (chain'_and hUne hU.edges)
    have h2 : (p0 :: Ut).reverse.Chain'
        (fun a b => a ≠ b ∧ ∀ x ∈ p0 :: rest, 0 ≤ cross a b x) :=
      h1.imp (fun a b h => ⟨h.1, fun x hx => h.2 x (List.mem_reverse.2 hx)⟩)
    rw [List.reverse_cons] at h2
    exact h2
  have hAh : (Lt.reverse ++ [pn]).head? = some p0 := by
    rw [← List.reverse_cons, List.head?_reverse]; exact hLl
  have hBh : (Ut.reverse ++ [p0]).head? = some pn := by
    rw [← List.reverse_cons, List.head?_reverse]; exact hUl
  obtain ⟨A', hA⟩ : ∃ A', Lt.reverse = p0 :: A' := by
    cases hc : Lt.reverse with
    | nil => rw [hc] at hAh; simp at hAh; exact absurd hAh.symm hne
    | cons a t => rw [hc] at hAh; simp at hAh; exact ⟨t, by rw [hAh]⟩
  obtain ⟨B', hB⟩ : ∃ B', Ut.reverse = pn :: B' := by
    cases hc : Ut.reverse with
    | nil => rw [hc] at hBh; simp at hBh; exact absurd hBh hne
    | cons a t => rw [hc] at hBh; simp at hBh; exact ⟨t, by rw [hBh]⟩
  refine ⟨p0, rfl, by rw [hA]; rfl, ?_, ?_, ?_⟩
  · intro y hy
    rcases List.mem_append.1 hy with hy | hy
    · exact hL.sub y (List.mem_cons_of_mem _ (List.mem_reverse.1 hy))
    · exact List.mem_reverse.1 (hU.sub y (List.mem_cons_of_mem _ (List.mem_reverse.1 hy)))
  · rintro y (hy | hy)
    · rcases List.mem_cons.1 hy with rfl | hy
      · exact List.mem_append_right _ (by rw [hB]; exact List.mem_cons_self _ _)
      · exact List.mem_append_left _ (List.mem_reverse.2 hy)
    · rcases List.mem_cons.1 hy with rfl | hy
      · exact List.mem_append_left _ (by rw [hA]; exact List.mem_cons_self _ _)
      · exact List.mem_append_right _ (List.mem_reverse.2 hy)
  · rw [List.append_assoc]
    obtain ⟨c1, -, c3⟩ := List.chain'_append.1 hcL
    refine List.Chain'.append c1 hcU ?_
    intro x hx y hy
    rw [hB] at hy
    have hy' : pn = y := by simpa using hy
    rw [← hy']
    exact c3 x hx pn (by simp)

/-- C14: for at least two distinct integer points in lexicographic order and the strict
clockwise test, `convex_hull` returns the boundary of the convex hull: a sequence of input
points that starts with the smallest point, contains the largest point and every vertex of
the hull, steps to a different point each time around the cycle, has no three cyclically
consecutive points turning clockwise, and is such that every input point lies on or to the
left of the directed line through each two cyclically consecutive points of it. -/
theorem convex_hull_correct (d : Point) (pts : List Point) (hn : 2 ≤ pts.length)
    (hs : pts.Pairwise LexLt) :
    ∃ h p0 pn, convex_hull cw_strict d pts = some h ∧ pts.head? = some p0 ∧
      pts.getLast? = some pn ∧
      (∀ x ∈ pts, x = p0 ∨ LexLt p0 x) ∧ h.head? = some p0 ∧ pn ∈ h ∧ (∀ y ∈ h, y ∈ pts) ∧
      (∀ x, IsVertex pts x → x ∈ h) ∧
      (∀ i, i < h.length → h.getD i (0, 0) ≠ h.getD ((i + 1) % h.length) (0, 0)) ∧
      (∀ i, i < h.length →
        cw_strict (h.getD i (0, 0)) (h.getD ((i + 1) % h.length) (0, 0))
          (h.getD ((i + 2) % h.length) (0, 0)) = false) ∧
      (∀ i, i < h.length → ∀ x ∈ pts,
        0 ≤ cross (h.getD i (0, 0)) (h.getD ((i + 1) % h.length) (0, 0)) x) := by
  have hne : pts ≠ [] := by
    intro h; subst h; simp at hn
  obtain ⟨p0, h0, hh, hsub, hsup, hch⟩ := hull_chains pts hn hs
  have hcyc := cyclic_of_chain (fun a b => a ≠ b ∧ ∀ x ∈ pts, 0 ≤ cross a b x) (0, 0) _ p0
    hh hch
  obtain ⟨pn, hpn⟩ : ∃ pn, pts.getLast? = some pn :=
    ⟨pts.getLast hne, List.getLast?_eq_getLast _ _⟩
  refine ⟨_, p0, pn, convex_hull_eq cw_strict d pts hne, h0, hpn, ?_, hh, ?_, hsub, ?_,
    fun i hi => (hcyc i hi).1, ?_, fun i hi => (hcyc i hi).2⟩
  · intro x hx
    cases pts with
    | nil => simp at hx
    | cons a t =>
      simp only [List.head?_cons, Option.some.injEq] at h0
      subst h0
      rcases List.mem_cons.1 hx with rfl | hx
      · exact Or.inl rfl
      · exact Or.inr ((List.pairwise_cons.1 hs).1 x hx)
  · refine hsup pn (Or.inl ?_)
    have := chain_head? cw_strict pts
    rw [hpn] at this
    exact List.mem_of_mem_head? this
  · rintro x ⟨hx, u, hu⟩
    rcases chain_popped lexTurn pts hs x hx with h | ⟨p, r, hp, hr, h1, h2, h3⟩
    · exact hsup x (Or.inl h)
    rcases chain_popped lexTurnRev pts.reverse (List.pairwise_reverse.2 hs) x
      (List.mem_reverse.2 hx) with h | ⟨p', r', hp', hr', h4, h5, h6⟩
    · exact hsup x (Or.inr h)
    exfalso
    have ne_of : ∀ {a b : Point}, LexLt a b → a ≠ b :=
      fun h heq => lexTurn.irrefl _ (by rw [heq] at h; exact h)
    exact not_vertex_of_popped x p r p' r' u h1 h2 h3 h4 h5 h6
      (hu p hp (ne_of h1)) (hu r hr (ne_of h2).symm)
      (hu p' (List.mem_reverse.1 hp') (ne_of h4).symm)
      (hu r' (List.mem_reverse.1 hr') (ne_of h5))
  · intro i hi
    have hpos : 0 < ((chain cw_strict pts).tail.reverse ++
        (chain cw_strict pts.reverse).tail.reverse).length := by omega
    have hmem : ((chain cw_strict pts).tail.reverse ++
        (chain cw_strict pts.reverse).tail.reverse).getD ((i + 2) %
          ((chain cw_strict pts).tail.reverse ++
            (chain cw_strict pts.reverse).tail.reverse).length) (0, 0) ∈ pts := by
      refine hsub _ ?_
      rw [List.getD_eq_getElem _ _ (Nat.mod_lt (i + 2) hpos)]
      exact List.getElem_mem ..
    have := (hcyc i hi).2 _ hmem
    simp only [cw_strict, decide_eq_false_iff_not, not_lt]
    exact this

theorem convex_hull_correct_witness :
    ∃ h p0 pn,
      convex_hull cw_strict (0, 0) [((0:Int), (0:Int)), (1, 0), (1, 2), (2, 1)] = some h ∧
      [((0:Int), (0:Int)), (1, 0), (1, 2), (2, 1)].head? = some p0 ∧
      [((0:Int), (0:Int)), (1, 0), (1, 2), (2, 1)].getLast? = some pn ∧
      (∀ x ∈ [((0:Int), (0:Int)), (1, 0), (1, 2), (2, 1)], x = p0 ∨ LexLt p0 x) ∧
      h.head? = some p0 ∧ pn ∈ h ∧
      (∀ y ∈ h, y ∈ [((0:Int), (0:Int)), (1, 0), (1, 2), (2, 1)]) ∧
      (∀ x, IsVertex [((0:Int), (0:Int)), (1, 0), (1, 2), (2, 1)] x → x ∈ h) ∧
      (∀ i, i < h.length → h.getD i (0, 0) ≠ h.getD ((i + 1) % h.length) (0, 0)) ∧
      (∀ i, i < h.length →
        cw_strict (h.getD i (0, 0)) (h.getD ((i + 1) % h.length) (0, 0))
          (h.getD ((i + 2) % h.length) (0, 0)) = false) ∧
      (∀ i, i < h.length → ∀ x ∈ [((0:Int), (0:Int)), (1, 0), (1, 2), (2, 1)],
        0 ≤ cross (h.getD i (0, 0)) (h.getD ((i + 1) % h.length) (0, 0)) x) :=
  convex_hull_correct (0, 0) [(0, 0), (1, 0), (1, 2), (2, 1)] (by decide) (by decide)

end Djp
